import Mathlib

/-!
# Slurm exporter: node-state and partition-resource aggregation

A shallow embedding of `ParseNodesPerPartitionMetrics` (nodes_per_partition.go), of
`ParsePartitionsMetrics` and of `PartitionsCollector.Collect` (partitions.go).

Modelling choices.
* A Go string is a list of characters (`Str`); the inputs are valid UTF-8 text,
  for which byte-wise comparison and splitting agree with the character-wise ones.
* A Go `map[string]T` is an association list with distinct keys (`GoMap`); two maps
  are the same map when every key looks up the same value.
* A run-time panic (index out of range, nil dereference) is the result `none`.
* The metrics `Collect` sends on its channel are a list, in the order of the map.
* `strconv.ParseFloat` is library code: the value it returns (the error is discarded
  by both parsers) is the parameter `parseFloat`, and the numbers range over a type
  `α` carrying `+`, `0` (and `1`), of which float64 is one: its addition rounds, so it
  is not associative. The values of sums are stated with the additions in the order in
  which the code makes them (`accumulate`, `credit`), with no law of addition; a
  statement that needs sums without rounding says so (`ExactBelow`), and a theorem
  that assumes laws of addition names them in its signature.
* `F64` is float64 addition on the non-negative whole numbers, with IEEE 754 rounding;
  it is used to evaluate the parsers where rounding matters.
-/

namespace SlurmExporter

/-! ## The library functions used by the parsers -/

/-- Go string: a sequence of characters. -/
abbrev Str := List Char

namespace strings

/-- Go `strings.Split(s, sep)` for a one-character separator: the pieces between
the occurrences of `sep`, one more piece than there are separators. -/
def Split (sep : Char) : Str → List Str
  | [] => [[]]
  | c :: cs =>
    if c = sep then [] :: Split sep cs
    else
      match Split sep cs with
      | [] => [[c]]
      | w :: ws => (c :: w) :: ws

/-- Go `strings.Contains(s, sep)` for a one-character `sep`. -/
def Contains (s : Str) (sep : Char) : Bool := s.contains sep

/-- Go `unicode.IsSpace`: the Unicode White_Space code points. -/
def isSpace (c : Char) : Bool :=
  let n := c.toNat
  (9 ≤ n && n ≤ 13) || n == 32 || n == 0x85 || n == 0xA0 || n == 0x1680 ||
  (0x2000 ≤ n && n ≤ 0x200A) || n == 0x2028 || n == 0x2029 || n == 0x202F ||
  n == 0x205F || n == 0x3000

/-- Go `strings.TrimSpace`: all leading and trailing white space removed. -/
def TrimSpace (s : Str) : Str := (s.dropWhile isSpace).rdropWhile isSpace

/-- Go `strings.TrimSuffix(s, suffix)` for a one-character suffix: one trailing
occurrence removed, if there is one. -/
def TrimSuffix (s : Str) (suffix : Char) : Str :=
  if s.getLast? = some suffix then s.dropLast else s

/-- Go `strings.Trim(s, cutset)`: all leading and trailing characters that occur in
`cutset` removed. -/
def Trim (s : Str) (cutset : Str) : Str :=
  (s.dropWhile (fun c => cutset.contains c)).rdropWhile (fun c => cutset.contains c)

/-- Go string comparison `a <= b`: lexicographic by code point. -/
def le : Str → Str → Bool
  | [], _ => true
  | _ :: _, [] => false
  | a :: as, b :: bs =>
    if a.toNat < b.toNat then true
    else if b.toNat < a.toNat then false
    else le as bs

end strings

namespace regexp

/-- Go `regexp.MustCompile("^" + lit).MatchString(s)` for a literal `lit` without
metacharacters: `s` starts with `lit`. -/
def MatchString (lit : Str) (s : Str) : Bool := lit.isPrefixOf s

end regexp

namespace sort

/-- Go `sort.Strings`: the lines in increasing order. -/
def Strings (lines : List Str) : List Str :=
  lines.insertionSort (fun a b => strings.le a b = true)

end sort

/-- Modelled from the spec: `RemoveDuplicates` is defined in a file of the repository
that is not among the sources; the spec says that exact-duplicate lines are removed
before parsing. Every line is kept once, at its first occurrence. -/
def RemoveDuplicates : List Str → List Str
  | [] => []
  | v :: s => v :: (RemoveDuplicates s).filter (fun w => w ≠ v)

/-! ## Go maps -/

/-- Go `map[string]T`. -/
abbrev GoMap (α : Type) := List (Str × α)

namespace GoMap

/-- Lookup `m[k]` with the presence flag: `none` when `k` is not a key. -/
def find {α : Type} : GoMap α → Str → Option α
  | [], _ => none
  | (k', v) :: m, k => if k' = k then some v else find m k

/-- Assignment `m[k] = v`. -/
def insert {α : Type} : GoMap α → Str → α → GoMap α
  | [], k, v => [(k, v)]
  | (k', v') :: m, k, v => if k' = k then (k', v) :: m else (k', v') :: insert m k v

/-- Compound assignment `m[k] += x`; a missing key reads as the zero value. -/
def addTo {α : Type} [Add α] [Zero α] (m : GoMap α) (k : Str) (x : α) : GoMap α :=
  insert m k ((find m k).getD 0 + x)

/-- The keys, as `range m` enumerates them (in some order). -/
def keys {α : Type} (m : GoMap α) : List Str := m.map Prod.fst

end GoMap

/-! ## nodes_per_partition.go -/

/-- The ten per-partition maps of node counts. -/
structure NodesPerPartitionMetrics (α : Type) where
  alloc : GoMap α
  comp : GoMap α
  down : GoMap α
  drain : GoMap α
  err : GoMap α
  fail : GoMap α
  idle : GoMap α
  maint : GoMap α
  mix : GoMap α
  resv : GoMap α
deriving DecidableEq

/-- Ten empty maps. -/
def NewNodesPerPartitionMetrics {α : Type} : NodesPerPartitionMetrics α :=
  { alloc := [], comp := [], down := [], drain := [], err := [], fail := [],
    idle := [], maint := [], mix := [], resv := [] }

/-- All ten counts of `partition` are set to zero when `alloc` does not have the key. -/
def initPartitionMap {α : Type} [Zero α] (partition : Str)
    (nm : NodesPerPartitionMetrics α) : NodesPerPartitionMetrics α :=
  if (GoMap.find nm.alloc partition).isNone then
    { alloc := GoMap.insert nm.alloc partition 0
      comp := GoMap.insert nm.comp partition 0
      down := GoMap.insert nm.down partition 0
      drain := GoMap.insert nm.drain partition 0
      fail := GoMap.insert nm.fail partition 0
      err := GoMap.insert nm.err partition 0
      idle := GoMap.insert nm.idle partition 0
      maint := GoMap.insert nm.maint partition 0
      mix := GoMap.insert nm.mix partition 0
      resv := GoMap.insert nm.resv partition 0 }
  else nm

/-- The switch of the loop body: the count is added to the map of the first case, in
the order of the source, whose pattern matches the state; no case is a default. -/
def countState {α : Type} [Add α] [Zero α] (nm : NodesPerPartitionMetrics α)
    (state partition : Str) (count : α) : NodesPerPartitionMetrics α :=
  if regexp.MatchString "alloc".toList state then
    { nm with alloc := GoMap.addTo nm.alloc partition count }
  else if regexp.MatchString "comp".toList state then
    { nm with comp := GoMap.addTo nm.comp partition count }
  else if regexp.MatchString "down".toList state then
    { nm with down := GoMap.addTo nm.down partition count }
  else if regexp.MatchString "drain".toList state then
    { nm with drain := GoMap.addTo nm.drain partition count }
  else if regexp.MatchString "fail".toList state then
    { nm with fail := GoMap.addTo nm.fail partition count }
  else if regexp.MatchString "err".toList state then
    { nm with err := GoMap.addTo nm.err partition count }
  else if regexp.MatchString "idle".toList state then
    { nm with idle := GoMap.addTo nm.idle partition count }
  else if regexp.MatchString "maint".toList state then
    { nm with maint := GoMap.addTo nm.maint partition count }
  else if regexp.MatchString "mix".toList state then
    { nm with mix := GoMap.addTo nm.mix partition count }
  else if regexp.MatchString "res".toList state then
    { nm with resv := GoMap.addTo nm.resv partition count }
  else nm

/-- The body of the loop over the unique lines: one line is accounted for.
`none` is the index-out-of-range panic of `split[2]`. -/
def nodesLine {α : Type} [Add α] [Zero α] (parseFloat : Str → α)
    (nm : NodesPerPartitionMetrics α) (line : Str) : Option (NodesPerPartitionMetrics α) :=
  if strings.Contains line ',' then do
    let split := strings.Split ',' line
    let count := parseFloat (strings.TrimSpace (← split[0]?))
    let state ← split[1]?
    let partition ← split[2]?
    let partition := strings.TrimSuffix partition '*'
    some (countState (initPartitionMap partition nm) state partition count)
  else some nm

/-- The loop over the unique lines. -/
def nodesLoop {α : Type} [Add α] [Zero α] (parseFloat : Str → α) :
    NodesPerPartitionMetrics α → List Str → Option (NodesPerPartitionMetrics α)
  | nm, [] => some nm
  | nm, line :: rest =>
    match nodesLine parseFloat nm line with
    | none => none
    | some nm1 => nodesLoop parseFloat nm1 rest

/-- The lines that are parsed: the input split at newlines, sorted, duplicates
removed. -/
def lines_uniq (input : Str) : List Str :=
  RemoveDuplicates (sort.Strings (strings.Split '\n' input))

/-- Go `ParseNodesPerPartitionMetrics`. -/
def ParseNodesPerPartitionMetrics {α : Type} [Add α] [Zero α] (parseFloat : Str → α)
    (input : Str) : Option (NodesPerPartitionMetrics α) :=
  nodesLoop parseFloat NewNodesPerPartitionMetrics (lines_uniq input)

/-! ## partitions.go -/

/-- The record of a partition. -/
structure PartitionMetrics (α : Type) where
  allocated : α
  idle : α
  other : α
  pending : α
  total : α
  resources : GoMap α
deriving DecidableEq

/-- The record a partition is created with: `&PartitionMetrics{0, 0, 0, 0, 0,
map[string]float64{"null": 0}}`. -/
def newPartitionMetrics {α : Type} [Zero α] : PartitionMetrics α :=
  { allocated := 0, idle := 0, other := 0, pending := 0, total := 0,
    resources := [("null".toList, 0)] }

/-- The body of the loop over the lines of the CPU snapshot. `none` is the
index-out-of-range panic of `strings.Split(states, "/")[i]`. -/
def snapshotLine {α : Type} [Zero α] (parseFloat : Str → α)
    (partitions : GoMap (PartitionMetrics α)) (line : Str) :
    Option (GoMap (PartitionMetrics α)) :=
  if strings.Contains line ',' then do
    let partition ← (strings.Split ',' line)[0]?
    let partitions :=
      if (GoMap.find partitions partition).isNone then
        GoMap.insert partitions partition newPartitionMetrics
      else partitions
    let states ← (strings.Split ',' line)[1]?
    let allocated := parseFloat (← (strings.Split '/' states)[0]?)
    let idle := parseFloat (← (strings.Split '/' states)[1]?)
    let other := parseFloat (← (strings.Split '/' states)[2]?)
    let total := parseFloat (← (strings.Split '/' states)[3]?)
    let pm ← GoMap.find partitions partition
    some (GoMap.insert partitions partition
      { pm with allocated := allocated, idle := idle, other := other, total := total })
  else some partitions

/-- The loop over the lines of the CPU snapshot. -/
def snapshotLoop {α : Type} [Zero α] (parseFloat : Str → α) :
    GoMap (PartitionMetrics α) → List Str → Option (GoMap (PartitionMetrics α))
  | partitions, [] => some partitions
  | partitions, line :: rest =>
    match snapshotLine parseFloat partitions line with
    | none => none
    | some partitions1 => snapshotLoop parseFloat partitions1 rest

/-- The branch on the presence of the feature:
`resources[feature] += requestedCpus` when it is a key, `= requestedCpus` otherwise. -/
def addFeature {α : Type} [Add α] (resources : GoMap α) (feature : Str) (requestedCpus : α) :
    GoMap α :=
  match GoMap.find resources feature with
  | some v => GoMap.insert resources feature (v + requestedCpus)
  | none => GoMap.insert resources feature requestedCpus

/-- The loop over the features of a pending line whose reason is `Resources`. `none`
is the nil dereference of `partitions[partition].resources` when the partition is not
a key. -/
def featuresLoop {α : Type} [Add α] (requestedCpus : α) (partition : Str) :
    GoMap (PartitionMetrics α) → List Str → Option (GoMap (PartitionMetrics α))
  | partitions, [] => some partitions
  | partitions, feature :: rest =>
    match GoMap.find partitions partition with
    | none => none
    | some pm =>
      featuresLoop requestedCpus partition
        (GoMap.insert partitions partition
          { pm with resources := addFeature pm.resources feature requestedCpus })
        rest

/-- The two assignments `features[0] = strings.Trim(features[0], "()")` and
`features[len(features)-1] = strings.Trim(features[len(features)-1], "()")`. `none` is
the index-out-of-range panic on an empty slice. -/
def trimFeatures (features : List Str) : Option (List Str) := do
  let first ← features[0]?
  let features := features.set 0 (strings.Trim first "()".toList)
  let last ← features[features.length - 1]?
  some (features.set (features.length - 1) (strings.Trim last "()".toList))

/-- The body of the loop over the lines of the pending jobs. `none` is a panic: an
index out of range (fewer than four fields) or the nil dereference in `featuresLoop`. -/
def pendingLine {α : Type} [Add α] [One α] (parseFloat : Str → α)
    (partitions : GoMap (PartitionMetrics α)) (line : Str) :
    Option (GoMap (PartitionMetrics α)) :=
  if strings.Contains line ',' then do
    let splits := strings.Split ',' line
    let partition ← (strings.Split ',' line)[0]?
    let requestedCpus := parseFloat (← (strings.Split ',' line)[1]?)
    let reason ← (strings.Split ',' line)[2]?
    let features ← trimFeatures (splits.drop 3)
    let partitions :=
      match GoMap.find partitions partition with
      | some pm => GoMap.insert partitions partition { pm with pending := pm.pending + 1 }
      | none => partitions
    if reason = "Resources".toList then
      featuresLoop requestedCpus partition partitions features
    else some partitions
  else some partitions

/-- The loop over the lines of the pending jobs. -/
def pendingLoop {α : Type} [Add α] [One α] (parseFloat : Str → α) :
    GoMap (PartitionMetrics α) → List Str → Option (GoMap (PartitionMetrics α))
  | partitions, [] => some partitions
  | partitions, line :: rest =>
    match pendingLine parseFloat partitions line with
    | none => none
    | some partitions1 => pendingLoop parseFloat partitions1 rest

/-- Go `ParsePartitionsMetrics`. -/
def ParsePartitionsMetrics {α : Type} [Add α] [Zero α] [One α] (parseFloat : Str → α)
    (partitionsData partitionsPendingJobsData : Str) : Option (GoMap (PartitionMetrics α)) :=
  match snapshotLoop parseFloat [] (strings.Split '\n' partitionsData) with
  | none => none
  | some partitions =>
    pendingLoop parseFloat partitions (strings.Split '\n' partitionsPendingJobsData)

/-- The six metric descriptions of `PartitionsCollector`. -/
inductive Desc
  | allocated | idle | other | pending | total | resources
deriving DecidableEq, Repr

/-- A metric sent on the channel: `prometheus.MustNewConstMetric(desc,
prometheus.GaugeValue, value, labelValues...)`. -/
structure Metric (α : Type) where
  desc : Desc
  value : α
  labelValues : List Str
deriving DecidableEq

/-- The body of the loop of `Collect` over the partitions: the five gauges that are
sent when their value is positive, then one gauge for every key of the feature map,
sent without a test. -/
def collectPartition {α : Type} [Zero α] [LT α] [DecidableRel (fun a b : α => a < b)]
    (p : Str) (pm : PartitionMetrics α) : List (Metric α) :=
  (if 0 < pm.allocated then [{ desc := Desc.allocated, value := pm.allocated, labelValues := [p] }]
    else []) ++
  (if 0 < pm.idle then [{ desc := Desc.idle, value := pm.idle, labelValues := [p] }] else []) ++
  (if 0 < pm.other then [{ desc := Desc.other, value := pm.other, labelValues := [p] }]
    else []) ++
  (if 0 < pm.pending then [{ desc := Desc.pending, value := pm.pending, labelValues := [p] }]
    else []) ++
  (if 0 < pm.total then [{ desc := Desc.total, value := pm.total, labelValues := [p] }]
    else []) ++
  (GoMap.keys pm.resources).map (fun feature =>
    { desc := Desc.resources, value := (GoMap.find pm.resources feature).getD 0,
      labelValues := [p, feature] })

/-- The metrics `Collect` sends for a parsed map: the loop `for p := range pm`, the
keys in the order of the map; `pm[p]` is the record of the key `p`, so the branch
`none` is not taken. -/
def collectMetrics {α : Type} [Zero α] [LT α] [DecidableRel (fun a b : α => a < b)]
    (pm : GoMap (PartitionMetrics α)) : List (Metric α) :=
  (GoMap.keys pm).flatMap (fun p =>
    match GoMap.find pm p with
    | some rec => collectPartition p rec
    | none => [])

namespace PartitionsCollector

/-- Go `(pc *PartitionsCollector) Collect`, as the list of the metrics it sends, from
the two texts that `PartitionsData` and `PartitionsPendingJobsData` return; `none` when
`ParsePartitionsMetrics` panics. -/
def Collect {α : Type} [Add α] [Zero α] [One α] [LT α] [DecidableRel (fun a b : α => a < b)]
    (parseFloat : Str → α) (partitionsData partitionsPendingJobsData : Str) :
    Option (List (Metric α)) :=
  (ParsePartitionsMetrics parseFloat partitionsData partitionsPendingJobsData).map
    collectMetrics

end PartitionsCollector

/-! ## Vocabulary of the statements -/

/-- The ten node-state categories, one per map of `NodesPerPartitionMetrics`. -/
inductive Category
  | alloc | comp | down | drain | err | fail | idle | maint | mix | resv
deriving DecidableEq, Repr

namespace Category

/-- The literal of the anchored pattern that the source compiles for the category. -/
def pattern : Category → Str
  | alloc => "alloc".toList
  | comp => "comp".toList
  | down => "down".toList
  | drain => "drain".toList
  | err => "err".toList
  | fail => "fail".toList
  | idle => "idle".toList
  | maint => "maint".toList
  | mix => "mix".toList
  | resv => "res".toList

/-- The map of the category. -/
def field {α : Type} : Category → NodesPerPartitionMetrics α → GoMap α
  | alloc, nm => nm.alloc
  | comp, nm => nm.comp
  | down, nm => nm.down
  | drain, nm => nm.drain
  | err, nm => nm.err
  | fail, nm => nm.fail
  | idle, nm => nm.idle
  | maint, nm => nm.maint
  | mix, nm => nm.mix
  | resv, nm => nm.resv

/-- The order in which the cases of the switch are tried. -/
def rules : List Category := [alloc, comp, down, drain, fail, err, idle, maint, mix, resv]

end Category

/-- The category a state string is counted in: that of the first rule, in the order
of the switch, whose pattern matches; `none` when no rule matches. -/
def classify (state : Str) : Option Category :=
  Category.rules.find? (fun c => regexp.MatchString c.pattern state)

/-- The comma-separated fields of a line. -/
def fields (line : Str) : List Str := strings.Split ',' line

/-- The count a line is parsed to: `parseFloat` of the trimmed first field. -/
def lineCount {α : Type} (parseFloat : Str → α) (line : Str) : α :=
  parseFloat (strings.TrimSpace ((fields line).headD []))

/-- The state of a line: its second field. -/
def lineState (line : Str) : Option Str := (fields line)[1]?

/-- The partition of a line: its third field with one trailing `*` removed. -/
def linePartition (line : Str) : Option Str :=
  ((fields line)[2]?).map (fun f => strings.TrimSuffix f '*')

/-- The category of a line: that of its state. -/
def lineCategory (line : Str) : Option Category := (lineState line).bind classify

/-- The line is a record (contains a comma) of partition `p`. -/
def names (p : Str) (line : Str) : Bool :=
  strings.Contains line ',' && linePartition line == some p

/-- The value of `p` in the map of `c`, reading a missing key as zero. -/
def countOf {α : Type} [Zero α] (nm : NodesPerPartitionMetrics α) (c : Category) (p : Str) : α :=
  (GoMap.find (c.field nm) p).getD 0

/-- The sum of the ten category counts of partition `p`. -/
def categorySum {α : Type} [Add α] [Zero α] (nm : NodesPerPartitionMetrics α) (p : Str) : α :=
  (Category.rules.map (fun c => countOf nm c p)).sum

/-- Two results hold the same ten maps: every key looks up the same value in each. -/
def SameMaps {α : Type} (nm nm' : NodesPerPartitionMetrics α) : Prop :=
  ∀ (c : Category) (p : Str), GoMap.find (c.field nm) p = GoMap.find (c.field nm') p

/-- The text made of the given lines: they are joined by newlines. -/
def joinLines (ls : List Str) : Str := List.intercalate ['\n'] ls

/-- The line made of the given fields: they are joined by commas. -/
def joinFields (fs : List Str) : Str := List.intercalate [','] fs

/-- The order of `sort.Strings`, as a relation. -/
abbrev LeStr : Str → Str → Prop := fun a b => strings.le a b = true

/-- The unique lines of a list of lines: sorted, duplicates removed. -/
def uniqueLines (ls : List Str) : List Str := RemoveDuplicates (sort.Strings ls)

/-- The count is added to the map of the category, if there is one. -/
def applyCategory {α : Type} [Add α] [Zero α] (oc : Option Category)
    (nm : NodesPerPartitionMetrics α) (p : Str) (n : α) : NodesPerPartitionMetrics α :=
  match oc with
  | none => nm
  | some .alloc => { nm with alloc := GoMap.addTo nm.alloc p n }
  | some .comp => { nm with comp := GoMap.addTo nm.comp p n }
  | some .down => { nm with down := GoMap.addTo nm.down p n }
  | some .drain => { nm with drain := GoMap.addTo nm.drain p n }
  | some .err => { nm with err := GoMap.addTo nm.err p n }
  | some .fail => { nm with fail := GoMap.addTo nm.fail p n }
  | some .idle => { nm with idle := GoMap.addTo nm.idle p n }
  | some .maint => { nm with maint := GoMap.addTo nm.maint p n }
  | some .mix => { nm with mix := GoMap.addTo nm.mix p n }
  | some .resv => { nm with resv := GoMap.addTo nm.resv p n }

/-- All ten maps have the keys of `alloc`. -/
def SameKeys {α : Type} (nm : NodesPerPartitionMetrics α) : Prop :=
  ∀ (c : Category) (q : Str), (GoMap.find (c.field nm) q).isSome = (GoMap.find nm.alloc q).isSome

/-- What a record line contributes to the count of category `c` for partition `q`:
its parsed count when it names `q` and its state is classified as `c`. -/
def contribution {α : Type} [Zero α] (pf : Str → α) (c : Category) (q : Str) (line : Str) : α :=
  if names q line = true ∧ lineCategory line = some c then lineCount pf line else 0

/-- The lines of a list that are records of partition `q` counted in category `c`. -/
def counted (c : Category) (q : Str) (ls : List Str) : List Str :=
  ls.filter (fun l => names q l && (lineCategory l == some c))

/-- The record has fewer than three fields: indexing the third one panics. -/
def shortRecord (line : Str) : Bool :=
  strings.Contains line ',' && decide ((fields line).length < 3)

/-- The sum of the contributions of the lines, in their order. -/
def total {α : Type} [Add α] [Zero α] (pf : Str → α) (c : Category) (q : Str) (ls : List Str) : α :=
  (ls.map (contribution pf c q)).sum

/-- The lines of a list that are records of partition `q` with a state that one of
the ten patterns matches. -/
def classified (q : Str) (ls : List Str) : List Str :=
  ls.filter (fun l => names q l && (lineCategory l).isSome)

/-- The lines of a list that are records of partition `q` whose state starts with the
pattern of category `c`. -/
def matching (c : Category) (q : Str) (ls : List Str) : List Str :=
  ls.filter (fun l => names q l &&
    (match lineState l with
     | some st => regexp.MatchString c.pattern st
     | none => false))

/-- A record line has at least three fields. -/
abbrev threeFields (line : Str) : Prop := 3 ≤ (fields line).length

/-- The lines of `L`, each repeated `N` times. -/
def repeatLines (N : Nat) (L : List Str) : List Str := L.flatMap (List.replicate N)

/-- The line with a third field `p*` replaced by `p`; any other line is unchanged. -/
def unstar (p : Str) (line : Str) : Str :=
  match fields line with
  | f0 :: st :: pt :: rest =>
    if pt = p ++ ['*'] then joinFields (f0 :: st :: p :: rest) else line
  | _ => line

/-- The partition of a pending or snapshot line: its first field. -/
def firstField (line : Str) : Str := (fields line).headD []

/-- The line is a record (contains a comma) whose first field is `q`. -/
def namesFirst (q : Str) (line : Str) : Bool :=
  strings.Contains line ',' && (firstField line == q)

/-- The requested CPUs of a pending line: `parseFloat` of its second field. -/
def requestedCpus {α : Type} (pf : Str → α) (line : Str) : α := pf ((fields line).getD 1 [])

/-- The reason of a pending line: its third field. -/
def pendingReason (line : Str) : Option Str := (fields line)[2]?

/-- The features of a pending line: the fields after the third, the first and the
last of them trimmed as the source does. -/
def pendingFeatures (line : Str) : List Str := (trimFeatures ((fields line).drop 3)).getD []

/-- The line is a record of partition `q` with the reason `Resources`. -/
def resourcesLine (q : Str) (line : Str) : Bool :=
  namesFirst q line && (pendingReason line == some "Resources".toList)

/-- The feature loop, on the map of the features alone. -/
def addFeatures {α : Type} [Add α] (resources : GoMap α) (features : List Str) (k : α) : GoMap α :=
  features.foldl (fun r f => addFeature r f k) resources

/-- The pending record has fewer than four fields: an index panics. -/
def shortPending (line : Str) : Bool :=
  strings.Contains line ',' && decide ((fields line).length < 4)

/-- The pending line does not panic on a map with the keys of `m`. -/
def pendingOk {α : Type} (m : GoMap (PartitionMetrics α)) (line : Str) : Bool :=
  !strings.Contains line ',' ||
    (decide (4 ≤ (fields line).length) &&
      (!(pendingReason line == some "Resources".toList) ||
        (GoMap.find m (firstField line)).isSome))

/-- The increment `partitions[partition].pending += 1`, made when the partition is a key. -/
def bumpPending {α : Type} [Add α] [One α] (m : GoMap (PartitionMetrics α)) (P : Str) :
    GoMap (PartitionMetrics α) :=
  match GoMap.find m P with
  | some pm => GoMap.insert m P { pm with pending := pm.pending + 1 }
  | none => m

/-- The number of records of partition `q` among the lines. -/
def pendingCount (q : Str) (ls : List Str) : Nat := (ls.filter (namesFirst q)).length

/-- The line is a `Resources` record of partition `q` that names the feature `f`. -/
def resTouched (q f : Str) (line : Str) : Bool :=
  resourcesLine q line && decide (f ∈ pendingFeatures line)

/-- What a pending line adds to the feature `f` of partition `q`: its requested CPUs,
once for every occurrence of `f` among its features, when it is a `Resources` record
of `q`. -/
def resContribution {α : Type} [Add α] [Zero α] (pf : Str → α) (q f : Str) (line : Str) : α :=
  if resourcesLine q line = true then
    (List.replicate ((pendingFeatures line).count f) (requestedCpus pf line)).sum
  else 0

/-- The sum of the contributions of the lines, in their order. -/
def resTotal {α : Type} [Add α] [Zero α] (pf : Str → α) (q f : Str) (ls : List Str) : α :=
  (ls.map (resContribution pf q f)).sum

/-- The record `pm` is the record `pm0` after the pending lines `ls`, for partition
`q`: the four CPU values are kept, `pending` has grown by the number of records of
`q`, and every feature named by a `Resources` record of `q` has grown by the
contributions of the lines (from zero when it was not a key). -/
def Accumulated {α : Type} [Add α] [Zero α] [NatCast α] (pf : Str → α) (q : Str) (ls : List Str)
    (pm0 pm : PartitionMetrics α) : Prop :=
  pm.allocated = pm0.allocated ∧ pm.idle = pm0.idle ∧ pm.other = pm0.other ∧
  pm.total = pm0.total ∧ pm.pending = pm0.pending + (pendingCount q ls : α) ∧
  ∀ f : Str, GoMap.find pm.resources f =
    if ls.any (resTouched q f) = true then
      some ((GoMap.find pm0.resources f).getD 0 + resTotal pf q f ls)
    else GoMap.find pm0.resources f

/-- The record a snapshot line leaves for its partition: the four values of the line
assigned onto the record `pm`. -/
def assignStates {α : Type} (pf : Str → α) (pm : PartitionMetrics α) (a i o t : Str) :
    PartitionMetrics α :=
  { pm with allocated := pf a, idle := pf i, other := pf o, total := pf t }

/-- Every record has the pending count and the feature map it was created with. -/
def Fresh {α : Type} [Zero α] (m : GoMap (PartitionMetrics α)) : Prop :=
  ∀ (q : Str) (pm : PartitionMetrics α), GoMap.find m q = some pm →
    pm.pending = 0 ∧ pm.resources = [("null".toList, 0)]

/-- The CPU-snapshot line `p,a/i/o/t`. -/
def snapshotRecord (p a i o t : Str) : Str :=
  p ++ ',' :: (a ++ '/' :: (i ++ '/' :: (o ++ '/' :: t)))

/-- The character is in the cutset `"()"` of the two `strings.Trim` calls. -/
def isParen (c : Char) : Bool := "()".toList.contains c

/-- A feature token as the pending format has them: no comma inside, no parenthesis at
either end. -/
abbrev plainToken (f : Str) : Prop :=
  ',' ∉ f ∧ f.dropWhile isParen = f ∧ f.rdropWhile isParen = f

/-- The pending line `P,n,Resources,(f1,...,fk)`. -/
def resourcesRecord (P n : Str) (tokens : List Str) : Str :=
  P ++ ',' :: (n ++ ',' :: ("Resources".toList ++ ',' :: ('(' :: (joinFields tokens ++ [')']))))

/-- The tokens with `)` appended to the last one. -/
def closeLast : List Str → List Str
  | [] => []
  | [g] => [g ++ [')']]
  | g :: h :: r => g :: closeLast (h :: r)

/-- The tokens as the fields of `(f1,...,fk)`: `(` before the first one and `)` after
the last one. -/
def parenthesized : List Str → List Str
  | [] => []
  | [f] => ['(' :: (f ++ [')'])]
  | f :: g :: r => ('(' :: f) :: closeLast (g :: r)

/-- The record of partition `q` with its pending count one higher when `q` is `P`. -/
def bumpAt {α : Type} [Add α] [One α] (P q : Str) (pm : PartitionMetrics α) :
    PartitionMetrics α :=
  if q = P then { pm with pending := pm.pending + 1 } else pm

/-- The map `s'` is the map `s` with the pending count of `P` one higher. -/
def Bumped {α : Type} [Add α] [One α] (P : Str) (s s' : GoMap (PartitionMetrics α)) : Prop :=
  ∀ q : Str, GoMap.find s' q = (GoMap.find s q).map (bumpAt P q)

/-- The ratio field of a snapshot line: its second field. -/
def ratioField (line : Str) : Str := (fields line).getD 1 []

/-- The snapshot line does not panic: it has no comma, or its ratio field has at least
four `/`-separated components. -/
def snapshotOk (line : Str) : Bool :=
  !strings.Contains line ',' || decide (4 ≤ (strings.Split '/' (ratioField line)).length)

/-- The pending line does not panic after the snapshot `data`: it has no comma, or it
has at least four fields and, when its reason is `Resources`, its partition is named
by a record of the snapshot. -/
def pendingOkText (data : Str) (line : Str) : Bool :=
  !strings.Contains line ',' ||
    (decide (4 ≤ (fields line).length) &&
      (!(pendingReason line == some "Resources".toList) ||
        (strings.Split '\n' data).any (namesFirst (firstField line))))

/-- The tokens with the last one trimmed by `strings.Trim(_, "()")`. -/
def trimLastToken : List Str → List Str
  | [] => []
  | [g] => [strings.Trim g "()".toList]
  | g :: h :: r => g :: trimLastToken (h :: r)

/-- The tokens with the first one and the last one trimmed by `strings.Trim(_, "()")`,
which removes every leading and every trailing `(` and `)`; the tokens in between are
kept as they are. -/
def trimEnds : List Str → List Str
  | [] => []
  | [f] => [strings.Trim f "()".toList]
  | f :: g :: r => strings.Trim f "()".toList :: trimLastToken (g :: r)

/-- The numbers of a list added onto `v` one after the other, in the order of the
list: `((v + c1) + c2) + ...`, which is the value a loop of `+=` leaves. No law of
addition is used, so this is the value float64 arithmetic gives as well. -/
def accumulate {α : Type} [Add α] (v : α) (cs : List α) : α := cs.foldl (fun a c => a + c) v

/-- The value of a key of a feature map after the credits `cs`, made one after the
other as `addFeature` makes them: a key that is present is added to, a key that is
missing is assigned the credit; `none` when the key is missing and nothing is
credited. -/
def credit {α : Type} [Add α] : Option α → List α → Option α
  | v, [] => v
  | some v, c :: cs => credit (some (v + c)) cs
  | none, c :: cs => credit (some c) cs

/-- The credits the pending lines make to the feature `f` of partition `q`, in the
order of the lines: the requested CPUs of every `Resources` record of `q`, once for
every occurrence of `f` among its features. -/
def resCredits {α : Type} (pf : Str → α) (q f : Str) (ls : List Str) : List α :=
  ls.flatMap (fun l =>
    if resourcesLine q l = true then
      List.replicate ((pendingFeatures l).count f) (requestedCpus pf l)
    else [])

/-- The record `pm` is the record `pm0` after the pending lines `ls`, for partition
`q`, with every addition made in the order of the code: the four CPU values are kept,
`pending` has been incremented once for every record of `q`, and every feature has
received its credits one after the other. -/
def Credited {α : Type} [Add α] [One α] (pf : Str → α) (q : Str) (ls : List Str)
    (pm0 pm : PartitionMetrics α) : Prop :=
  pm.allocated = pm0.allocated ∧ pm.idle = pm0.idle ∧ pm.other = pm0.other ∧
  pm.total = pm0.total ∧
  pm.pending = Nat.iterate (fun x => x + 1) (pendingCount q ls) pm0.pending ∧
  ∀ f : Str, GoMap.find pm.resources f =
    credit (GoMap.find pm0.resources f) (resCredits pf q f ls)

/-- The whole numbers below `B` are numbers of `α`, through `ofNat`, that are added
without rounding: `ofNat 0` is the zero of `α`, and the sum of two of them is the
number of their sum as long as that sum is below `B`. For float64 this holds with the
conversion of integers and `B = 2^53`. -/
def ExactBelow {α : Type} [Add α] [Zero α] (ofNat : Nat → α) (B : Nat) : Prop :=
  ofNat 0 = 0 ∧ ∀ a b : Nat, a + b < B → ofNat a + ofNat b = ofNat (a + b)

/-! ## Concrete inputs -/

/-- A stand-in for `strconv.ParseFloat` on the decimal numerals without sign, point or
exponent, used to evaluate the parsers on concrete texts: the value of the numeral,
and `0` (the value Go returns with a syntax error) for any other text. -/
def parseNat (s : Str) : Nat :=
  if s ≠ [] ∧ s.all Char.isDigit then s.foldl (fun n c => 10 * n + (c.toNat - 48)) 0 else 0

/-- A node-state text: a duplicated line, a starred partition, an unknown state. -/
def sinfoText : Str := "4,idle,gpu*\n2,alloc,gpu\n4,idle,gpu*\n3,unknown,gpu".toList

/-- The result of `ParseNodesPerPartitionMetrics` on `sinfoText`. -/
def sinfoResult : NodesPerPartitionMetrics Nat :=
  { alloc := [("gpu".toList, 2)], comp := [("gpu".toList, 0)], down := [("gpu".toList, 0)],
    drain := [("gpu".toList, 0)], err := [("gpu".toList, 0)], fail := [("gpu".toList, 0)],
    idle := [("gpu".toList, 4)], maint := [("gpu".toList, 0)], mix := [("gpu".toList, 0)],
    resv := [("gpu".toList, 0)] }

/-- The result of `ParsePartitionsMetrics` on the snapshot `p,1/2/3/4`, `q,5/6/7/8`
and the pending line `q,4,Resources,(gpu)`. -/
def twoPartitions : GoMap (PartitionMetrics Nat) :=
  [("p".toList, { allocated := 1, idle := 2, other := 3, pending := 0, total := 4,
                  resources := [("null".toList, 0)] }),
   ("q".toList, { allocated := 5, idle := 6, other := 7, pending := 1, total := 8,
                  resources := [("null".toList, 0), ("gpu".toList, 4)] })]

/-- The texts that `parseNat` reads as a number: the non-empty strings of digits. -/
def isNumeral (s : Str) : Prop := s ≠ [] ∧ s.all Char.isDigit = true

/-- The metrics `Collect` sends for the snapshot `p,1/2/3/4`, `q,0/6/7/8` and the
pending line `q,4,Resources,(gpu)`. -/
def twoPartitionsMetrics : List (Metric Nat) :=
  [⟨.allocated, 1, ["p".toList]⟩, ⟨.idle, 2, ["p".toList]⟩, ⟨.other, 3, ["p".toList]⟩,
    ⟨.total, 4, ["p".toList]⟩, ⟨.resources, 0, ["p".toList, "null".toList]⟩,
    ⟨.idle, 6, ["q".toList]⟩, ⟨.other, 7, ["q".toList]⟩, ⟨.pending, 1, ["q".toList]⟩,
    ⟨.total, 8, ["q".toList]⟩, ⟨.resources, 0, ["q".toList, "null".toList]⟩,
    ⟨.resources, 4, ["q".toList, "gpu".toList]⟩]

/-! ## float64 addition on whole numbers -/

/-- The float64 values that are non-negative whole numbers (below the overflow
threshold), each given by its value. -/
structure F64 where
  val : Nat
deriving DecidableEq

namespace F64

/-- The number of low bits of `s` that do not fit into the 53-bit significand of a
float64: the least `e` with `s / 2^e < 2^53`. -/
def excess : Nat → Nat → Nat
  | 0, _ => 0
  | fuel + 1, s => if s < 9007199254740992 then 0 else excess fuel (s / 2) + 1

/-- IEEE 754 rounding of a non-negative whole number to the nearest float64, ties to
the even significand: a number below `2^53` is a float64; of a larger one the low bits
that do not fit are rounded away. -/
def round (s : Nat) : Nat :=
  let e := excess 1024 s
  let q := s / 2 ^ e
  let r := s % 2 ^ e
  if 2 * r < 2 ^ e ∨ (2 * r = 2 ^ e ∧ q % 2 = 0) then q * 2 ^ e else (q + 1) * 2 ^ e

/-- Go `a + b` on float64: the exact sum, rounded. -/
instance instAdd : Add F64 := ⟨fun a b => ⟨round (a.val + b.val)⟩⟩

/-- The float64 `0`. -/
instance instZero : Zero F64 := ⟨⟨0⟩⟩

/-- The float64 `1`. -/
instance instOne : One F64 := ⟨⟨1⟩⟩

end F64

/-- Go `strconv.ParseFloat(s, 64)` on the decimal numerals without sign, point or
exponent: the float64 nearest to the value of the numeral, and `0` for any other
text. -/
def parseF64 (s : Str) : F64 := ⟨F64.round (parseNat s)⟩

/-- Three node-state lines of partition `p` in the state `idle`, with the counts
`2^54`, 2 and 2: in float64, `2^54 + 2` rounds to `2^54`. -/
def roundingText : Str := "18014398509481984,idle,p\n2,idle,p\n2,idle,p*".toList

/-! ## Theorems -/

namespace strings

theorem Split_ne_nil (sep : Char) (s : Str) : Split sep s ≠ [] := by
  induction s with
  | nil => simp [Split]
  | cons c cs ih =>
    unfold Split
    split_ifs
    · simp
    · split <;> simp

theorem Split_append_sep (sep : Char) (a b : Str) :
    Split sep (a ++ sep :: b) = Split sep a ++ Split sep b := by
  induction a with
  | nil => simp [Split]
  | cons c cs ih =>
    by_cases h : c = sep
    · simp [Split, h]
      simpa using ih
    · have hs : Split sep (c :: (cs ++ sep :: b)) =
          match Split sep (cs ++ sep :: b) with
          | [] => [[c]]
          | w :: ws => (c :: w) :: ws := by
        rw [Split]; simp [h]
      have hs2 : Split sep (c :: cs) =
          match Split sep cs with
          | [] => [[c]]
          | w :: ws => (c :: w) :: ws := by
        rw [Split]; simp [h]
      rw [List.cons_append, hs, hs2, ih]
      cases hcs : Split sep cs with
      | nil => exact absurd hcs (Split_ne_nil sep cs)
      | cons w ws => simp

theorem Split_of_not_mem (sep : Char) (s : Str) (h : sep ∉ s) : Split sep s = [s] := by
  induction s with
  | nil => simp [Split]
  | cons c cs ih =>
    simp only [List.mem_cons, not_or] at h
    have hc : ¬ c = sep := fun e => h.1 e.symm
    rw [Split]
    simp [hc, ih h.2]

theorem not_mem_of_mem_Split (sep : Char) (s f : Str) (h : f ∈ Split sep s) : sep ∉ f := by
  induction s generalizing f with
  | nil => simp [Split] at h; simp [h]
  | cons c cs ih =>
    rw [Split] at h
    by_cases hc : c = sep
    · simp [hc] at h
      rcases h with h | h
      · simp [h]
      · exact ih f h
    · simp only [hc, if_false] at h
      cases hcs : Split sep cs with
      | nil => exact absurd hcs (Split_ne_nil sep cs)
      | cons w ws =>
        rw [hcs] at h
        simp only [List.mem_cons] at h
        rcases h with h | h
        · have hw := ih w (by simp [hcs])
          subst h
          simp only [List.mem_cons, not_or]
          exact ⟨fun e => hc e.symm, hw⟩
        · exact ih f (by simp [hcs, h])

theorem Split_intercalate (sep : Char) (fs : List Str) (hne : fs ≠ [])
    (h : ∀ f ∈ fs, sep ∉ f) : Split sep (List.intercalate [sep] fs) = fs := by
  induction fs with
  | nil => exact absurd rfl hne
  | cons f rest ih =>
    cases rest with
    | nil =>
      simp [List.intercalate, List.intersperse]
      exact Split_of_not_mem sep f (h f (by simp))
    | cons g rest2 =>
      have hstep : List.intercalate [sep] (f :: g :: rest2) =
          f ++ sep :: List.intercalate [sep] (g :: rest2) := by
        simp [List.intercalate, List.intersperse]
      rw [hstep, Split_append_sep, Split_of_not_mem sep f (h f (by simp)),
        ih (by simp) (fun x hx => h x (List.mem_cons_of_mem _ hx))]
      rfl

theorem intercalate_Split (sep : Char) (s : Str) :
    List.intercalate [sep] (Split sep s) = s := by
  induction s with
  | nil => simp [Split, List.intercalate, List.intersperse]
  | cons c cs ih =>
    rw [Split]
    by_cases hc : c = sep
    · simp only [hc, if_true]
      cases hcs : Split sep cs with
      | nil => exact absurd hcs (Split_ne_nil sep cs)
      | cons w ws =>
        rw [hcs] at ih
        have : List.intercalate [sep] ([] :: w :: ws) = sep :: List.intercalate [sep] (w :: ws) := by
          simp [List.intercalate, List.intersperse]
        rw [this, ih]
    · simp only [hc, if_false]
      cases hcs : Split sep cs with
      | nil => exact absurd hcs (Split_ne_nil sep cs)
      | cons w ws =>
        rw [hcs] at ih
        cases ws with
        | nil =>
          simp [List.intercalate, List.intersperse] at ih ⊢
          exact ih
        | cons w2 ws2 =>
          have e1 : List.intercalate [sep] ((c :: w) :: w2 :: ws2) =
              c :: (w ++ sep :: List.intercalate [sep] (w2 :: ws2)) := by
            simp [List.intercalate, List.intersperse]
          have e2 : List.intercalate [sep] (w :: w2 :: ws2) =
              w ++ sep :: List.intercalate [sep] (w2 :: ws2) := by
            simp [List.intercalate, List.intersperse]
          rw [e1, ← e2, ih]

theorem Contains_iff (s : Str) (sep : Char) : Contains s sep = true ↔ sep ∈ s := by
  simp [Contains]

theorem two_le_length_Split (sep : Char) (s : Str) (h : sep ∈ s) : 2 ≤ (Split sep s).length := by
  obtain ⟨a, b, rfl⟩ := List.append_of_mem h
  rw [Split_append_sep, List.length_append]
  have ha : 0 < (Split sep a).length := List.length_pos.mpr (Split_ne_nil sep a)
  have hb : 0 < (Split sep b).length := List.length_pos.mpr (Split_ne_nil sep b)
  omega

theorem toNat_eq {a b : Char} (h1 : ¬ a.toNat < b.toNat) (h2 : ¬ b.toNat < a.toNat) : a = b := by
  have h : a.toNat = b.toNat := by omega
  rw [← Char.ofNat_toNat a, ← Char.ofNat_toNat b, h]

theorem le_total (a b : Str) : le a b = true ∨ le b a = true := by
  induction a generalizing b with
  | nil => left; simp [le]
  | cons x xs ih =>
    cases b with
    | nil => right; simp [le]
    | cons y ys =>
      simp only [le]
      by_cases h1 : x.toNat < y.toNat
      · left; simp [h1]
      · by_cases h2 : y.toNat < x.toNat
        · right; simp [h2]
        · simp only [h1, h2, if_false]
          exact ih ys

theorem le_trans (a b c : Str) (hab : le a b = true) (hbc : le b c = true) : le a c = true := by
  induction a generalizing b c with
  | nil => simp [le]
  | cons x xs ih =>
    cases b with
    | nil => simp [le] at hab
    | cons y ys =>
      cases c with
      | nil => simp [le] at hbc
      | cons z zs =>
        simp only [le] at hab hbc ⊢
        by_cases h1 : x.toNat < y.toNat
        · by_cases h3 : y.toNat < z.toNat
          · have : x.toNat < z.toNat := by omega
            simp [this]
          · by_cases h4 : z.toNat < y.toNat
            · simp [h3, h4] at hbc
            · have : x.toNat < z.toNat := by omega
              simp [this]
        · by_cases h2 : y.toNat < x.toNat
          · simp [h1, h2] at hab
          · simp only [h1, h2, if_false] at hab
            by_cases h3 : y.toNat < z.toNat
            · have : x.toNat < z.toNat := by omega
              simp [this]
            · by_cases h4 : z.toNat < y.toNat
              · simp [h3, h4] at hbc
              · simp only [h3, h4, if_false] at hbc
                have h5 : ¬ x.toNat < z.toNat := by omega
                have h6 : ¬ z.toNat < x.toNat := by omega
                simp only [h5, h6, if_false]
                exact ih ys zs hab hbc

theorem le_antisymm (a b : Str) (hab : le a b = true) (hba : le b a = true) : a = b := by
  induction a generalizing b with
  | nil =>
    cases b with
    | nil => rfl
    | cons y ys => simp [le] at hba
  | cons x xs ih =>
    cases b with
    | nil => simp [le] at hab
    | cons y ys =>
      simp only [le] at hab hba
      by_cases h1 : x.toNat < y.toNat
      · have h2 : ¬ y.toNat < x.toNat := by omega
        simp [h1, h2] at hba
      · by_cases h2 : y.toNat < x.toNat
        · simp [h1, h2] at hab
        · simp only [h1, h2, if_false] at hab hba
          rw [toNat_eq h1 h2, ih ys hab hba]

end strings

theorem sort_Strings_sorted (l : List Str) : List.Sorted LeStr (sort.Strings l) :=
  @List.sorted_insertionSort _ LeStr _ ⟨strings.le_total⟩ ⟨strings.le_trans⟩ l

theorem sort_Strings_perm (l : List Str) : List.Perm (sort.Strings l) l :=
  List.perm_insertionSort _ l

theorem mem_RemoveDuplicates (x : Str) (l : List Str) : x ∈ RemoveDuplicates l ↔ x ∈ l := by
  induction l with
  | nil => simp [RemoveDuplicates]
  | cons v s ih =>
    simp only [RemoveDuplicates, List.mem_cons, List.mem_filter, ih]
    by_cases h : x = v <;> simp [h]

theorem RemoveDuplicates_sublist (l : List Str) : List.Sublist (RemoveDuplicates l) l := by
  induction l with
  | nil => simp [RemoveDuplicates]
  | cons v s ih =>
    simp only [RemoveDuplicates]
    exact List.Sublist.cons₂ v ((List.filter_sublist _).trans ih)

theorem RemoveDuplicates_nodup (l : List Str) : (RemoveDuplicates l).Nodup := by
  induction l with
  | nil => simp [RemoveDuplicates]
  | cons v s ih =>
    simp only [RemoveDuplicates, List.nodup_cons, List.mem_filter]
    exact ⟨fun h => by simp at h, ih.filter _⟩

theorem lines_uniq_eq (input : Str) : lines_uniq input = uniqueLines (strings.Split '\n' input) := rfl

theorem mem_uniqueLines (x : Str) (ls : List Str) : x ∈ uniqueLines ls ↔ x ∈ ls := by
  rw [uniqueLines, mem_RemoveDuplicates]
  exact (sort_Strings_perm ls).mem_iff

theorem uniqueLines_nodup (ls : List Str) : (uniqueLines ls).Nodup := RemoveDuplicates_nodup _

theorem uniqueLines_sorted (ls : List Str) : List.Sorted LeStr (uniqueLines ls) :=
  List.Pairwise.sublist (RemoveDuplicates_sublist _) (sort_Strings_sorted ls)

/-- The unique lines, restricted by a test, depend only on which lines occur. -/
theorem filter_uniqueLines_congr (P : Str → Bool) (ls ls' : List Str)
    (h : ∀ x, (x ∈ ls ∧ P x = true) ↔ (x ∈ ls' ∧ P x = true)) :
    (uniqueLines ls).filter P = (uniqueLines ls').filter P := by
  apply @List.eq_of_perm_of_sorted _ LeStr ⟨strings.le_antisymm⟩
  · rw [List.perm_ext_iff_of_nodup ((uniqueLines_nodup ls).filter P)
      ((uniqueLines_nodup ls').filter P)]
    intro x
    simp only [List.mem_filter, mem_uniqueLines]
    exact h x
  · exact List.Pairwise.filter P (uniqueLines_sorted ls)
  · exact List.Pairwise.filter P (uniqueLines_sorted ls')

theorem uniqueLines_congr (ls ls' : List Str) (h : ∀ x, x ∈ ls ↔ x ∈ ls') :
    uniqueLines ls = uniqueLines ls' := by
  have := filter_uniqueLines_congr (fun _ => true) ls ls' (by simpa using h)
  simpa using this

theorem uniqueLines_map_perm (f : Str → Str) (ls : List Str)
    (hf : ∀ x ∈ ls, ∀ y ∈ ls, f x = f y → x = y) :
    List.Perm (uniqueLines (ls.map f)) ((uniqueLines ls).map f) := by
  rw [List.perm_ext_iff_of_nodup (uniqueLines_nodup _)]
  · intro x
    simp only [mem_uniqueLines, List.mem_map]
  · apply List.Nodup.map_on _ (uniqueLines_nodup ls)
    intro x hx y hy
    exact hf x ((mem_uniqueLines x ls).mp hx) y ((mem_uniqueLines y ls).mp hy)

namespace GoMap

theorem find_insert {α : Type} (m : GoMap α) (k k' : Str) (v : α) :
    find (insert m k v) k' = if k = k' then some v else find m k' := by
  induction m with
  | nil => simp [insert, find]
  | cons e m ih =>
    obtain ⟨k0, v0⟩ := e
    simp only [insert]
    by_cases h : k0 = k
    · subst h
      by_cases h2 : k0 = k' <;> simp [find, h2]
    · by_cases h2 : k = k'
      · subst h2
        simp [find, h, ih]
      · simp [find, h, ih, h2]

theorem find_addTo {α : Type} [Add α] [Zero α] (m : GoMap α) (k k' : Str) (x : α) :
    find (addTo m k x) k' = if k = k' then some ((find m k).getD 0 + x) else find m k' := by
  simp [addTo, find_insert]

theorem mem_keys_iff {α : Type} (m : GoMap α) (k : Str) : k ∈ keys m ↔ (find m k).isSome = true := by
  induction m with
  | nil => simp [keys, find]
  | cons e m ih =>
    obtain ⟨k0, v0⟩ := e
    have hk : keys ((k0, v0) :: m) = k0 :: keys m := rfl
    rw [hk, List.mem_cons, find]
    by_cases h : k0 = k
    · simp [h]
    · have h' : ¬ k = k0 := fun e => h e.symm
      rw [if_neg h, ← ih]
      simp [h']

end GoMap

theorem find?_cons_ite {β : Type} (p : β → Bool) (a : β) (l : List β) :
    List.find? p (a :: l) = if p a = true then some a else List.find? p l := by
  cases h : p a <;> simp [List.find?, h]

theorem classify_eq (st : Str) : classify st =
    if regexp.MatchString "alloc".toList st then some .alloc
    else if regexp.MatchString "comp".toList st then some .comp
    else if regexp.MatchString "down".toList st then some .down
    else if regexp.MatchString "drain".toList st then some .drain
    else if regexp.MatchString "fail".toList st then some .fail
    else if regexp.MatchString "err".toList st then some .err
    else if regexp.MatchString "idle".toList st then some .idle
    else if regexp.MatchString "maint".toList st then some .maint
    else if regexp.MatchString "mix".toList st then some .mix
    else if regexp.MatchString "res".toList st then some .resv
    else none := by
  unfold classify Category.rules
  simp only [find?_cons_ite, List.find?_nil, Category.pattern]

theorem countState_eq {α : Type} [Add α] [Zero α] (nm : NodesPerPartitionMetrics α)
    (st p : Str) (n : α) : countState nm st p n = applyCategory (classify st) nm p n := by
  rw [classify_eq]
  unfold countState
  by_cases h0 : regexp.MatchString "alloc".toList st = true
  · rw [if_pos h0, if_pos h0]; rfl
  rw [if_neg h0, if_neg h0]
  by_cases h1 : regexp.MatchString "comp".toList st = true
  · rw [if_pos h1, if_pos h1]; rfl
  rw [if_neg h1, if_neg h1]
  by_cases h2 : regexp.MatchString "down".toList st = true
  · rw [if_pos h2, if_pos h2]; rfl
  rw [if_neg h2, if_neg h2]
  by_cases h3 : regexp.MatchString "drain".toList st = true
  · rw [if_pos h3, if_pos h3]; rfl
  rw [if_neg h3, if_neg h3]
  by_cases h4 : regexp.MatchString "fail".toList st = true
  · rw [if_pos h4, if_pos h4]; rfl
  rw [if_neg h4, if_neg h4]
  by_cases h5 : regexp.MatchString "err".toList st = true
  · rw [if_pos h5, if_pos h5]; rfl
  rw [if_neg h5, if_neg h5]
  by_cases h6 : regexp.MatchString "idle".toList st = true
  · rw [if_pos h6, if_pos h6]; rfl
  rw [if_neg h6, if_neg h6]
  by_cases h7 : regexp.MatchString "maint".toList st = true
  · rw [if_pos h7, if_pos h7]; rfl
  rw [if_neg h7, if_neg h7]
  by_cases h8 : regexp.MatchString "mix".toList st = true
  · rw [if_pos h8, if_pos h8]; rfl
  rw [if_neg h8, if_neg h8]
  by_cases h9 : regexp.MatchString "res".toList st = true
  · rw [if_pos h9, if_pos h9]; rfl
  rw [if_neg h9, if_neg h9]
  rfl

theorem nodesLine_of_not_Contains {α : Type} [Add α] [Zero α] (pf : Str → α)
    (nm : NodesPerPartitionMetrics α) (line : Str) (h : strings.Contains line ',' = false) :
    nodesLine pf nm line = some nm := by
  simp [nodesLine, h]

theorem nodesLine_of_short {α : Type} [Add α] [Zero α] (pf : Str → α)
    (nm : NodesPerPartitionMetrics α) (line : Str) (h : strings.Contains line ',' = true)
    (hs : (fields line).length < 3) : nodesLine pf nm line = none := by
  have h2 : (strings.Split ',' line)[2]? = none := by
    rw [List.getElem?_eq_none_iff]
    have : (strings.Split ',' line).length < 3 := hs
    omega
  simp only [nodesLine, h, if_true]
  cases h0 : (strings.Split ',' line)[0]? <;> cases h1 : (strings.Split ',' line)[1]? <;>
    simp [h2]

theorem nodesLine_of_fields {α : Type} [Add α] [Zero α] (pf : Str → α)
    (nm : NodesPerPartitionMetrics α) (line f0 st pt : Str) (rest : List Str)
    (h : strings.Contains line ',' = true) (hf : fields line = f0 :: st :: pt :: rest) :
    nodesLine pf nm line = some (applyCategory (classify st)
      (initPartitionMap (strings.TrimSuffix pt '*') nm) (strings.TrimSuffix pt '*')
      (pf (strings.TrimSpace f0))) := by
  have hf' : strings.Split ',' line = f0 :: st :: pt :: rest := hf
  unfold nodesLine
  rw [if_pos h, hf', ← countState_eq]
  simp

theorem field_applyCategory {α : Type} [Add α] [Zero α] (oc : Option Category)
    (nm : NodesPerPartitionMetrics α) (p : Str) (n : α) (c : Category) :
    c.field (applyCategory oc nm p n) =
      if oc = some c then GoMap.addTo (c.field nm) p n else c.field nm := by
  cases oc with
  | none => simp [applyCategory]
  | some c' => cases c' <;> cases c <;> simp [applyCategory, Category.field]

theorem SameKeys_New {α : Type} : SameKeys (NewNodesPerPartitionMetrics : NodesPerPartitionMetrics α) := by
  intro c q
  cases c <;> rfl

theorem find_initPartitionMap {α : Type} [Zero α] (nm : NodesPerPartitionMetrics α)
    (hk : SameKeys nm) (p : Str) (c : Category) (q : Str) :
    GoMap.find (c.field (initPartitionMap p nm)) q =
      if p = q then some ((GoMap.find (c.field nm) p).getD 0) else GoMap.find (c.field nm) q := by
  unfold initPartitionMap
  by_cases ha : (GoMap.find nm.alloc p).isNone = true
  · rw [if_pos ha]
    have hc : GoMap.find (c.field nm) p = none := by
      have := hk c p
      rw [Option.isNone_iff_eq_none] at ha
      rw [ha] at this
      simpa using this
    rw [hc]
    cases c <;> simp only [Category.field, GoMap.find_insert] <;> rfl
  · rw [if_neg ha]
    by_cases hpq : p = q
    · subst hpq
      rw [if_pos rfl]
      have := hk c p
      have ha' : (GoMap.find nm.alloc p).isSome = true := by
        cases h : GoMap.find nm.alloc p <;> simp [h] at ha ⊢
      rw [ha'] at this
      obtain ⟨v, hv⟩ := Option.isSome_iff_exists.mp this
      rw [hv]; rfl
    · rw [if_neg hpq]

theorem names_of_fields (line f0 st pt : Str) (rest : List Str)
    (hf : fields line = f0 :: st :: pt :: rest) (q : Str) :
    (names q line = true ↔ strings.TrimSuffix pt '*' = q) := by
  have hc : strings.Contains line ',' = true := by
    rw [strings.Contains_iff]
    by_contra hn
    have := strings.Split_of_not_mem ',' line hn
    rw [fields] at hf
    rw [hf] at this
    simp at this
  simp [names, hc, linePartition, hf]

theorem names_of_not_Contains (line : Str) (h : strings.Contains line ',' = false) (q : Str) :
    names q line = false := by
  simp [names, h]

theorem Contains_of_fields (line f0 st : Str) (rest : List Str)
    (hf : fields line = f0 :: st :: rest) : strings.Contains line ',' = true := by
  rw [strings.Contains_iff]
  by_contra hn
  have := strings.Split_of_not_mem ',' line hn
  rw [fields] at hf
  rw [hf] at this
  simp at this

/-- One record line: the lookups after the line, from the lookups before it. -/
theorem find_nodesLine {α : Type} [Add α] [Zero α] (pf : Str → α)
    (nm : NodesPerPartitionMetrics α) (hk : SameKeys nm) (line f0 st pt : Str) (rest : List Str)
    (hf : fields line = f0 :: st :: pt :: rest) :
    ∃ nm1, nodesLine pf nm line = some nm1 ∧
      ∀ (c : Category) (q : Str), GoMap.find (c.field nm1) q =
        if strings.TrimSuffix pt '*' = q then
          some (if classify st = some c then
              (GoMap.find (c.field nm) q).getD 0 + pf (strings.TrimSpace f0)
            else (GoMap.find (c.field nm) q).getD 0)
        else GoMap.find (c.field nm) q := by
  refine ⟨_, nodesLine_of_fields pf nm line f0 st pt rest (Contains_of_fields line f0 st _ hf) hf, ?_⟩
  intro c q
  rw [field_applyCategory]
  by_cases hc : classify st = some c
  · rw [if_pos hc, if_pos hc, GoMap.find_addTo]
    simp only [find_initPartitionMap nm hk]
    by_cases hq : strings.TrimSuffix pt '*' = q
    · subst hq; simp
    · simp [hq]
  · rw [if_neg hc, if_neg hc, find_initPartitionMap nm hk]
    by_cases hq : strings.TrimSuffix pt '*' = q
    · subst hq; simp
    · simp [hq]

theorem SameKeys_nodesLine {α : Type} [Add α] [Zero α] (pf : Str → α)
    (nm nm1 : NodesPerPartitionMetrics α) (hk : SameKeys nm) (line : Str)
    (h : nodesLine pf nm line = some nm1) : SameKeys nm1 := by
  by_cases hc : strings.Contains line ',' = true
  · by_cases hs : (fields line).length < 3
    · rw [nodesLine_of_short pf nm line hc hs] at h
      cases h
    · obtain ⟨f0, st, pt, rest, hf⟩ : ∃ f0 st pt rest, fields line = f0 :: st :: pt :: rest := by
        match hfl : fields line with
        | [] => simp [hfl] at hs
        | [_] => simp [hfl] at hs
        | [_, _] => simp [hfl] at hs
        | f0 :: st :: pt :: rest => exact ⟨f0, st, pt, rest, rfl⟩
      obtain ⟨nm1', h1, h2⟩ := find_nodesLine pf nm hk line f0 st pt rest hf
      rw [h] at h1
      cases h1
      intro c q
      have ha := h2 .alloc q
      simp only [Category.field] at ha
      rw [h2 c q, ha]
      by_cases hq : strings.TrimSuffix pt '*' = q
      · simp [hq]
      · simp only [hq, if_false]
        exact hk c q
  · rw [nodesLine_of_not_Contains pf nm line (by simpa using hc)] at h
    cases h
    exact hk

theorem exists_fields_of_not_short (line : Str) (hs : ¬ (fields line).length < 3) :
    ∃ f0 st pt rest, fields line = f0 :: st :: pt :: rest := by
  match hfl : fields line with
  | [] => simp [hfl] at hs
  | [_] => simp [hfl] at hs
  | [_, _] => simp [hfl] at hs
  | f0 :: st :: pt :: rest => exact ⟨f0, st, pt, rest, rfl⟩

theorem nodesLine_isSome {α : Type} [Add α] [Zero α] (pf : Str → α)
    (nm : NodesPerPartitionMetrics α) (line : Str) :
    (nodesLine pf nm line).isSome = !shortRecord line := by
  by_cases hc : strings.Contains line ',' = true
  · by_cases hs : (fields line).length < 3
    · rw [nodesLine_of_short pf nm line hc hs]
      simp [shortRecord, hc, hs]
    · obtain ⟨f0, st, pt, rest, hf⟩ := exists_fields_of_not_short line hs
      rw [nodesLine_of_fields pf nm line f0 st pt rest hc hf]
      simp [shortRecord, hc, hs]
  · rw [nodesLine_of_not_Contains pf nm line (by simpa using hc)]
    simp [shortRecord, hc]

theorem nodesLoop_isSome {α : Type} [Add α] [Zero α] (pf : Str → α)
    (nm : NodesPerPartitionMetrics α) (ls : List Str) :
    (nodesLoop pf nm ls).isSome = ls.all (fun l => !shortRecord l) := by
  induction ls generalizing nm with
  | nil => simp [nodesLoop]
  | cons l rest ih =>
    have h1 := nodesLine_isSome pf nm l
    rw [nodesLoop]
    cases hl : nodesLine pf nm l with
    | none =>
      rw [hl] at h1
      simp at h1
      simp [h1]
    | some nm1 =>
      rw [hl] at h1
      simp at h1
      simp [ih nm1, h1]

theorem contribution_of_fields {α : Type} [Zero α] (pf : Str → α) (c : Category) (q : Str)
    (line f0 st pt : Str) (rest : List Str) (hf : fields line = f0 :: st :: pt :: rest) :
    contribution pf c q line =
      if strings.TrimSuffix pt '*' = q ∧ classify st = some c then pf (strings.TrimSpace f0)
      else 0 := by
  unfold contribution
  have h1 := names_of_fields line f0 st pt rest hf q
  have h2 : lineCategory line = classify st := by simp [lineCategory, lineState, hf]
  have h3 : lineCount pf line = pf (strings.TrimSpace f0) := by simp [lineCount, hf]
  rw [h2, h3]
  by_cases hq : strings.TrimSuffix pt '*' = q
  · simp [h1.mpr hq, hq]
  · have : ¬ names q line = true := fun hn => hq (h1.mp hn)
    simp [this, hq]

theorem contribution_of_not_names {α : Type} [Zero α] (pf : Str → α) (c : Category) (q : Str)
    (line : Str) (h : names q line = false) : contribution pf c q line = 0 := by
  simp [contribution, h]

theorem total_of_not_named {α : Type} [AddMonoid α] (pf : Str → α) (c : Category) (q : Str)
    (ls : List Str) (h : ls.any (names q) = false) : total pf c q ls = 0 := by
  induction ls with
  | nil => simp [total]
  | cons l rest ih =>
    simp only [List.any_cons, Bool.or_eq_false_iff] at h
    have := ih h.2
    simp only [total] at this ⊢
    simp [contribution_of_not_names pf c q l h.1, this]

theorem total_cons {α : Type} [Add α] [Zero α] (pf : Str → α) (c : Category) (q : Str)
    (l : Str) (ls : List Str) : total pf c q (l :: ls) = contribution pf c q l + total pf c q ls := by
  simp [total]

/-- The lookups after the loop, from the lookups before it and the lines. -/
theorem find_nodesLoop {α : Type} [AddMonoid α] (pf : Str → α) (ls : List Str)
    (nm0 nm : NodesPerPartitionMetrics α) (hk : SameKeys nm0)
    (h : nodesLoop pf nm0 ls = some nm) (c : Category) (q : Str) :
    GoMap.find (c.field nm) q =
      if ls.any (names q) = true then
        some ((GoMap.find (c.field nm0) q).getD 0 + total pf c q ls)
      else GoMap.find (c.field nm0) q := by
  induction ls generalizing nm0 with
  | nil =>
    simp only [nodesLoop, Option.some.injEq] at h
    subst h
    simp
  | cons l rest ih =>
    rw [nodesLoop] at h
    cases hl : nodesLine pf nm0 l with
    | none => rw [hl] at h; cases h
    | some nm1 =>
      rw [hl] at h
      simp only at h
      have hk1 := SameKeys_nodesLine pf nm0 nm1 hk l hl
      rw [ih nm1 hk1 h, total_cons, List.any_cons]
      by_cases hc : strings.Contains l ',' = true
      · by_cases hs : (fields l).length < 3
        · rw [nodesLine_of_short pf nm0 l hc hs] at hl
          cases hl
        · obtain ⟨f0, st, pt, rest', hf⟩ := exists_fields_of_not_short l hs
          obtain ⟨nm1', h1, h2⟩ := find_nodesLine pf nm0 hk l f0 st pt rest' hf
          rw [hl] at h1
          cases h1
          rw [h2 c q, contribution_of_fields pf c q l f0 st pt rest' hf]
          have hn := names_of_fields l f0 st pt rest' hf q
          by_cases hq : strings.TrimSuffix pt '*' = q
          · have hn1 : names q l = true := hn.mpr hq
            simp only [hq, hn1, if_true, Bool.true_or, true_and, Option.getD_some]
            by_cases hr : rest.any (names q) = true
            · simp only [hr, if_true]
              by_cases hcl : classify st = some c
              · simp only [hcl, if_true, add_assoc]
              · simp only [hcl, if_false, zero_add]
            · have hr' : rest.any (names q) = false := by simpa using hr
              rw [total_of_not_named pf c q rest hr']
              simp only [hr', if_false, add_zero]
              by_cases hcl : classify st = some c
              · simp [hcl]
              · simp [hcl]
          · have hn1 : names q l = false := by
              cases hnn : names q l
              · rfl
              · exact absurd (hn.mp hnn) hq
            simp only [hq, hn1, if_false, false_and, Bool.false_or, zero_add]
      · have hc' : strings.Contains l ',' = false := by simpa using hc
        rw [nodesLine_of_not_Contains pf nm0 l hc'] at hl
        cases hl
        rw [contribution_of_not_names pf c q l (names_of_not_Contains l hc' q),
          names_of_not_Contains l hc' q]
        simp only [Bool.false_or, zero_add]

/-- The lookups in the result of `ParseNodesPerPartitionMetrics`. -/
theorem find_Parse {α : Type} [AddMonoid α] (pf : Str → α) (input : Str)
    (nm : NodesPerPartitionMetrics α) (h : ParseNodesPerPartitionMetrics pf input = some nm)
    (c : Category) (q : Str) :
    GoMap.find (c.field nm) q =
      if (lines_uniq input).any (names q) = true then some (total pf c q (lines_uniq input))
      else none := by
  rw [find_nodesLoop pf (lines_uniq input) NewNodesPerPartitionMetrics nm SameKeys_New h c q]
  have h0 : GoMap.find (c.field (NewNodesPerPartitionMetrics : NodesPerPartitionMetrics α)) q = none := by
    cases c <;> rfl
  rw [h0]
  simp

theorem total_eq_sum_counted {α : Type} [AddMonoid α] (pf : Str → α) (c : Category) (q : Str)
    (ls : List Str) : total pf c q ls = ((counted c q ls).map (lineCount pf)).sum := by
  induction ls with
  | nil => simp [total, counted]
  | cons l rest ih =>
    rw [total_cons, ih]
    unfold counted contribution
    rw [List.filter_cons]
    by_cases h1 : names q l = true
    · by_cases h2 : lineCategory l = some c
      · simp [h1, h2]
      · simp [h1, h2]
    · simp [h1]

theorem pattern_prefix_eq (c c' : Category)
    (h : List.isPrefixOf c.pattern c'.pattern = true) : c = c' := by
  cases c <;> cases c' <;> first | rfl | (exfalso; revert h; decide)

/-- The ten patterns exclude each other: a state is classified as `c` exactly when it
starts with the pattern of `c`. -/
theorem classify_eq_some_iff (s : Str) (c : Category) :
    classify s = some c ↔ regexp.MatchString c.pattern s = true := by
  constructor
  · intro h
    unfold classify at h
    exact @List.find?_some Category (fun c => regexp.MatchString c.pattern s) c _ h
  · intro h
    cases hc : classify s with
    | none =>
      unfold classify at hc
      rw [List.find?_eq_none] at hc
      have hmem : c ∈ Category.rules := by cases c <;> simp [Category.rules]
      exact absurd h (hc c hmem)
    | some c' =>
      have h' : regexp.MatchString c'.pattern s = true := by
        unfold classify at hc
        exact @List.find?_some Category (fun c => regexp.MatchString c.pattern s) c' _ hc
      unfold regexp.MatchString at h h'
      rw [List.isPrefixOf_iff_prefix] at h h'
      rcases List.prefix_or_prefix_of_prefix h h' with hp | hp
      · rw [← List.isPrefixOf_iff_prefix] at hp
        rw [pattern_prefix_eq c c' hp]
      · rw [← List.isPrefixOf_iff_prefix] at hp
        rw [pattern_prefix_eq c' c hp]

theorem classify_eq_none_iff (s : Str) :
    classify s = none ↔ ∀ c : Category, regexp.MatchString c.pattern s = false := by
  constructor
  · intro h c
    cases hm : regexp.MatchString c.pattern s
    · rfl
    · rw [(classify_eq_some_iff s c).mpr hm] at h
      cases h
  · intro h
    cases hc : classify s with
    | none => rfl
    | some c =>
      have := (classify_eq_some_iff s c).mp hc
      rw [h c] at this
      cases this

theorem countOf_eq_total {α : Type} [AddMonoid α] (pf : Str → α) (input : Str)
    (nm : NodesPerPartitionMetrics α) (h : ParseNodesPerPartitionMetrics pf input = some nm)
    (c : Category) (q : Str) : countOf nm c q = total pf c q (lines_uniq input) := by
  unfold countOf
  rw [find_Parse pf input nm h c q]
  by_cases hn : (lines_uniq input).any (names q) = true
  · simp [hn]
  · have hn' : (lines_uniq input).any (names q) = false := by simpa using hn
    rw [total_of_not_named pf c q _ hn']
    simp [hn']

theorem sum_contribution {α : Type} [AddCommMonoid α] (pf : Str → α) (q : Str) (l : Str) :
    (Category.rules.map (fun c => contribution pf c q l)).sum =
      if names q l = true ∧ (lineCategory l).isSome = true then lineCount pf l else 0 := by
  by_cases hn : names q l = true
  · cases hc : lineCategory l with
    | none => simp [contribution, hn, hc, Category.rules]
    | some c => cases c <;> simp [contribution, hn, hc, Category.rules]
  · simp [contribution, hn, Category.rules]

theorem sum_total {α : Type} [AddCommMonoid α] (pf : Str → α) (q : Str) (ls : List Str) :
    (Category.rules.map (fun c => total pf c q ls)).sum =
      ((classified q ls).map (lineCount pf)).sum := by
  induction ls with
  | nil => simp [total, classified, Category.rules]
  | cons l rest ih =>
    have h1 : (Category.rules.map (fun c => total pf c q (l :: rest))).sum =
        (Category.rules.map (fun c => contribution pf c q l)).sum +
          (Category.rules.map (fun c => total pf c q rest)).sum := by
      rw [← List.sum_map_add]
      simp only [total_cons]
    rw [h1, ih, sum_contribution]
    unfold classified
    rw [List.filter_cons]
    by_cases hn : (names q l && (lineCategory l).isSome) = true
    · have hn' := hn
      simp only [Bool.and_eq_true] at hn'
      simp [hn, hn']
    · have hn' := hn
      simp only [Bool.and_eq_true] at hn'
      simp [hn, hn']

theorem Split_joinLines (ls : List Str) (hne : ls ≠ []) (h : ∀ l ∈ ls, '\n' ∉ l) :
    strings.Split '\n' (joinLines ls) = ls :=
  strings.Split_intercalate '\n' ls hne h

theorem Split_joinLines_nil : strings.Split '\n' (joinLines []) = [[]] := rfl

theorem sinfoText_result : ParseNodesPerPartitionMetrics parseNat sinfoText = some sinfoResult := by
  decide

theorem matching_eq_counted (c : Category) (q : Str) (ls : List Str) :
    matching c q ls = counted c q ls := by
  unfold matching counted
  apply List.filter_congr
  intro l _
  congr 1
  unfold lineCategory
  cases hs : lineState l with
  | none => simp
  | some st =>
    simp only [Option.bind_some]
    cases hm : regexp.MatchString c.pattern st
    · have : classify st ≠ some c := fun h => by
        rw [(classify_eq_some_iff st c).mp h] at hm; cases hm
      simp [this]
    · simp [(classify_eq_some_iff st c).mpr hm]

theorem Parse_isSome {α : Type} [Add α] [Zero α] (pf : Str → α) (input : Str)
    (h : ∀ l ∈ strings.Split '\n' input, strings.Contains l ',' = true → threeFields l) :
    ∃ nm, ParseNodesPerPartitionMetrics pf input = some nm := by
  rw [← Option.isSome_iff_exists]
  unfold ParseNodesPerPartitionMetrics
  rw [nodesLoop_isSome, List.all_eq_true]
  intro l hl
  rw [lines_uniq_eq, mem_uniqueLines] at hl
  unfold shortRecord
  cases hc : strings.Contains l ','
  · rfl
  · have := h l hl hc
    unfold threeFields at this
    simp only [Bool.true_and, Bool.not_eq_true', decide_eq_false_iff_not]
    omega

theorem mem_repeatLines (N : Nat) (hN : 1 ≤ N) (L : List Str) (x : Str) :
    x ∈ repeatLines N L ↔ x ∈ L := by
  unfold repeatLines
  simp only [List.mem_flatMap, List.mem_replicate]
  constructor
  · rintro ⟨a, ha, _, rfl⟩
    exact ha
  · intro hx
    exact ⟨x, hx, by omega, rfl⟩

theorem lines_uniq_joinLines (L : List Str) (hne : L ≠ []) (h : ∀ l ∈ L, '\n' ∉ l) :
    lines_uniq (joinLines L) = uniqueLines L := by
  rw [lines_uniq_eq, Split_joinLines L hne h]

/-- C3: for lines with at least three fields each and `N ≥ 1`, the text of the lines
and the text in which every line is repeated `N` times have the same result, and there
is one. -/
theorem C3_duplicated_lines {α : Type} [Add α] [Zero α] (pf : Str → α) (L : List Str)
    (N : Nat) (hN : 1 ≤ N) (hL : ∀ l ∈ L, '\n' ∉ l ∧ threeFields l) :
    ∃ nm, ParseNodesPerPartitionMetrics pf (joinLines L) = some nm ∧
      ParseNodesPerPartitionMetrics pf (joinLines (repeatLines N L)) = some nm := by
  have hsame : ParseNodesPerPartitionMetrics pf (joinLines (repeatLines N L)) =
      ParseNodesPerPartitionMetrics pf (joinLines L) := by
    cases L with
    | nil => rfl
    | cons a rest =>
      have hne : repeatLines N (a :: rest) ≠ [] := by
        intro he
        have : a ∈ repeatLines N (a :: rest) :=
          (mem_repeatLines N hN (a :: rest) a).mpr (by simp)
        rw [he] at this
        cases this
      unfold ParseNodesPerPartitionMetrics
      rw [lines_uniq_joinLines _ (by simp) (fun l hl => (hL l hl).1),
        lines_uniq_joinLines _ hne
          (fun l hl => (hL l ((mem_repeatLines N hN _ l).mp hl)).1),
        uniqueLines_congr _ _ (mem_repeatLines N hN (a :: rest))]
  obtain ⟨nm, hnm⟩ := Parse_isSome pf (joinLines L) (by
    intro l hl _
    cases L with
    | nil =>
      rw [Split_joinLines_nil] at hl
      simp only [List.mem_singleton] at hl
      subst hl
      rename_i hc
      simp [strings.Contains] at hc
    | cons a rest =>
      rw [Split_joinLines _ (by simp) (fun l hl => (hL l hl).1)] at hl
      exact (hL l hl).2)
  exact ⟨nm, hnm, hsame.trans hnm⟩

theorem C3_duplicated_lines_witness :
    ∃ nm, ParseNodesPerPartitionMetrics parseNat
        (joinLines ["4,idle,gpu*".toList, "2,alloc,gpu".toList]) = some nm ∧
      ParseNodesPerPartitionMetrics parseNat
        (joinLines (repeatLines 3 ["4,idle,gpu*".toList, "2,alloc,gpu".toList])) = some nm :=
  C3_duplicated_lines parseNat ["4,idle,gpu*".toList, "2,alloc,gpu".toList] 3 (by decide)
    (by decide)

theorem isSome_find_nodesLoop {α : Type} [Add α] [Zero α] (pf : Str → α) (ls : List Str)
    (nm0 nm : NodesPerPartitionMetrics α) (hk : SameKeys nm0)
    (h : nodesLoop pf nm0 ls = some nm) (c : Category) (q : Str) :
    (GoMap.find (c.field nm) q).isSome =
      (ls.any (names q) || (GoMap.find (c.field nm0) q).isSome) := by
  induction ls generalizing nm0 with
  | nil =>
    simp only [nodesLoop, Option.some.injEq] at h
    subst h
    simp
  | cons l rest ih =>
    rw [nodesLoop] at h
    cases hl : nodesLine pf nm0 l with
    | none => rw [hl] at h; cases h
    | some nm1 =>
      rw [hl] at h
      simp only at h
      have hk1 := SameKeys_nodesLine pf nm0 nm1 hk l hl
      rw [ih nm1 hk1 h, List.any_cons]
      by_cases hc : strings.Contains l ',' = true
      · by_cases hs : (fields l).length < 3
        · rw [nodesLine_of_short pf nm0 l hc hs] at hl
          cases hl
        · obtain ⟨f0, st, pt, rest', hf⟩ := exists_fields_of_not_short l hs
          obtain ⟨nm1', h1, h2⟩ := find_nodesLine pf nm0 hk l f0 st pt rest' hf
          rw [hl] at h1
          cases h1
          rw [h2 c q]
          have hn := names_of_fields l f0 st pt rest' hf q
          by_cases hq : strings.TrimSuffix pt '*' = q
          · simp [hq, hn.mpr hq]
          · have hn1 : names q l = false := by
              cases hnn : names q l
              · rfl
              · exact absurd (hn.mp hnn) hq
            simp [hq, hn1]
      · have hc' : strings.Contains l ',' = false := by simpa using hc
        rw [nodesLine_of_not_Contains pf nm0 l hc'] at hl
        cases hl
        rw [names_of_not_Contains l hc' q]
        simp [Bool.or_comm]

theorem isSome_find_Parse {α : Type} [Add α] [Zero α] (pf : Str → α) (input : Str)
    (nm : NodesPerPartitionMetrics α) (h : ParseNodesPerPartitionMetrics pf input = some nm)
    (c : Category) (q : Str) :
    (GoMap.find (c.field nm) q).isSome = true ↔
      ∃ l ∈ strings.Split '\n' input, strings.Contains l ',' = true ∧ linePartition l = some q := by
  rw [isSome_find_nodesLoop pf (lines_uniq input) NewNodesPerPartitionMetrics nm SameKeys_New h c q]
  have h0 : GoMap.find (c.field (NewNodesPerPartitionMetrics : NodesPerPartitionMetrics α)) q = none := by
    cases c <;> rfl
  rw [h0]
  simp only [Option.isSome_none, Bool.or_false, List.any_eq_true, lines_uniq_eq, mem_uniqueLines,
    names, Bool.and_eq_true, beq_iff_eq]

/-- C5: in a result of `ParseNodesPerPartitionMetrics`, a partition name is a key of the
map of a category, whichever of the ten it is, exactly when some line of the input that
contains a comma has it, after one trailing `*` is stripped, as its third field; so the
ten maps have the same keys, and a key of one has a value in all ten. -/
theorem C5_same_keys {α : Type} [Add α] [Zero α] (pf : Str → α) (input : Str)
    (nm : NodesPerPartitionMetrics α) (h : ParseNodesPerPartitionMetrics pf input = some nm)
    (p : Str) :
    (∀ c : Category, p ∈ GoMap.keys (c.field nm) ↔
      ∃ l ∈ strings.Split '\n' input,
        strings.Contains l ',' = true ∧ linePartition l = some p) ∧
    (∀ c c' : Category, p ∈ GoMap.keys (c.field nm) ↔ p ∈ GoMap.keys (c'.field nm)) ∧
    (∀ c : Category, p ∈ GoMap.keys (c.field nm) →
      ∀ c' : Category, ∃ v, GoMap.find (c'.field nm) p = some v) := by
  have hkey : ∀ c : Category, p ∈ GoMap.keys (c.field nm) ↔
      ∃ l ∈ strings.Split '\n' input,
        strings.Contains l ',' = true ∧ linePartition l = some p := by
    intro c
    rw [GoMap.mem_keys_iff]
    exact isSome_find_Parse pf input nm h c p
  refine ⟨hkey, ?_, ?_⟩
  · intro c c'
    rw [hkey c, hkey c']
  · intro c hc c'
    have := (hkey c').mpr ((hkey c).mp hc)
    rw [GoMap.mem_keys_iff] at this
    exact Option.isSome_iff_exists.mp this

theorem C5_same_keys_witness :
    ParseNodesPerPartitionMetrics parseNat sinfoText = some sinfoResult ∧
      ∀ c : Category, "gpu".toList ∈ GoMap.keys (c.field sinfoResult) ↔
        ∃ l ∈ strings.Split '\n' sinfoText,
          strings.Contains l ',' = true ∧ linePartition l = some "gpu".toList :=
  ⟨sinfoText_result, (C5_same_keys parseNat sinfoText sinfoResult sinfoText_result "gpu".toList).1⟩

theorem any_uniqueLines (P : Str → Bool) (ls : List Str) :
    (uniqueLines ls).any P = ls.any P := by
  rw [Bool.eq_iff_iff]
  simp only [List.any_eq_true, mem_uniqueLines]

theorem all_uniqueLines (P : Str → Bool) (ls : List Str) :
    (uniqueLines ls).all P = ls.all P := by
  rw [Bool.eq_iff_iff]
  simp only [List.all_eq_true, mem_uniqueLines]

theorem Parse_isSome_iff {α : Type} [Add α] [Zero α] (pf : Str → α) (input : Str) :
    (ParseNodesPerPartitionMetrics pf input).isSome =
      (strings.Split '\n' input).all (fun l => !shortRecord l) := by
  unfold ParseNodesPerPartitionMetrics
  rw [nodesLoop_isSome, lines_uniq_eq, all_uniqueLines]

/-- C6: a line whose state starts with none of the ten patterns, added to a text that
has a result, gives a text that has a result too, with the same ten counts for every
partition: the lookups of the other partitions are unchanged, and the partition of the
line is a key of all ten maps, with the counts it had, zero when it was not a key. -/
theorem C6_unknown_state {α : Type} [AddMonoid α] (pf : Str → α) (text text' : Str)
    (pre post : List Str) (line f0 st pt : Str) (rest : List Str)
    (hl : strings.Split '\n' text = pre ++ post)
    (hl' : strings.Split '\n' text' = pre ++ line :: post)
    (hf : fields line = f0 :: st :: pt :: rest)
    (hst : ∀ c : Category, regexp.MatchString c.pattern st = false)
    (nm : NodesPerPartitionMetrics α) (h : ParseNodesPerPartitionMetrics pf text = some nm) :
    ∃ nm', ParseNodesPerPartitionMetrics pf text' = some nm' ∧
      (∀ (c : Category) (q : Str), countOf nm' c q = countOf nm c q) ∧
      (∀ (c : Category) (q : Str), q ≠ strings.TrimSuffix pt '*' →
        GoMap.find (c.field nm') q = GoMap.find (c.field nm) q) ∧
      (∀ c : Category, GoMap.find (c.field nm') (strings.TrimSuffix pt '*') =
        some (countOf nm c (strings.TrimSuffix pt '*'))) := by
  have hcat : lineCategory line = none := by
    simp only [lineCategory, lineState, hf, List.getElem?_cons_succ, List.getElem?_cons_zero,
      Option.bind_some]
    exact (classify_eq_none_iff st).mpr hst
  have hshort : shortRecord line = false := by
    simp [shortRecord, hf]
  have hsome : (ParseNodesPerPartitionMetrics pf text').isSome = true := by
    have h1 := Parse_isSome_iff pf text
    rw [h, hl] at h1
    rw [Parse_isSome_iff, hl']
    simp only [Option.isSome_some, List.all_append, List.all_cons] at h1 ⊢
    have h2 := h1.symm
    simp only [Bool.and_eq_true] at h2 ⊢
    exact ⟨h2.1, by simp [hshort], h2.2⟩
  obtain ⟨nm', hnm'⟩ := Option.isSome_iff_exists.mp hsome
  have htot : ∀ (c : Category) (q : Str),
      total pf c q (lines_uniq text') = total pf c q (lines_uniq text) := by
    intro c q
    rw [total_eq_sum_counted, total_eq_sum_counted, lines_uniq_eq, lines_uniq_eq, hl, hl']
    unfold counted
    rw [filter_uniqueLines_congr _ (pre ++ line :: post) (pre ++ post)]
    intro x
    simp only [List.mem_append, List.mem_cons, Bool.and_eq_true, beq_iff_eq]
    constructor
    · rintro ⟨hx | hx | hx, hn, hc⟩
      · exact ⟨Or.inl hx, hn, hc⟩
      · subst hx
        rw [hcat] at hc
        cases hc
      · exact ⟨Or.inr hx, hn, hc⟩
    · rintro ⟨hx | hx, hn, hc⟩
      · exact ⟨Or.inl hx, hn, hc⟩
      · exact ⟨Or.inr (Or.inr hx), hn, hc⟩
  have hcount : ∀ (c : Category) (q : Str), countOf nm' c q = countOf nm c q := by
    intro c q
    rw [countOf_eq_total pf text' nm' hnm', countOf_eq_total pf text nm h, htot]
  have hany : ∀ q : Str, (lines_uniq text').any (names q) =
      (names q line || (lines_uniq text).any (names q)) := by
    intro q
    rw [lines_uniq_eq, lines_uniq_eq, any_uniqueLines, any_uniqueLines, hl, hl']
    simp only [List.any_append, List.any_cons]
    cases names q line <;> cases pre.any (names q) <;> cases post.any (names q) <;> rfl
  refine ⟨nm', hnm', hcount, ?_, ?_⟩
  · intro c q hq
    rw [find_Parse pf text' nm' hnm', find_Parse pf text nm h, htot, hany]
    have hn : names q line = false := by
      cases hnn : names q line
      · rfl
      · exact absurd ((names_of_fields line f0 st pt rest hf q).mp hnn).symm hq
    rw [hn, Bool.false_or]
  · intro c
    rw [find_Parse pf text' nm' hnm', hany,
      (names_of_fields line f0 st pt rest hf _).mpr rfl, Bool.true_or, if_pos rfl, htot,
      countOf_eq_total pf text nm h]

theorem C6_unknown_state_witness :
    ∃ nm', ParseNodesPerPartitionMetrics parseNat
        (sinfoText ++ "\n7,unknown_state,cpu".toList) = some nm' ∧
      (∀ (c : Category) (q : Str), countOf nm' c q = countOf sinfoResult c q) ∧
      (∀ (c : Category) (q : Str), q ≠ strings.TrimSuffix "cpu".toList '*' →
        GoMap.find (c.field nm') q = GoMap.find (c.field sinfoResult) q) ∧
      (∀ c : Category, GoMap.find (c.field nm') (strings.TrimSuffix "cpu".toList '*') =
        some (countOf sinfoResult c (strings.TrimSuffix "cpu".toList '*'))) :=
  C6_unknown_state parseNat sinfoText (sinfoText ++ "\n7,unknown_state,cpu".toList)
    (strings.Split '\n' sinfoText) [] "7,unknown_state,cpu".toList "7".toList
    "unknown_state".toList "cpu".toList [] (by decide) (by decide) (by decide)
    (fun c => by cases c <;> decide) sinfoResult sinfoText_result

namespace strings

theorem TrimSuffix_concat (x : Str) (a : Char) : TrimSuffix (x ++ [a]) a = x := by
  simp [TrimSuffix]

theorem TrimSuffix_of_getLast (x : Str) (a : Char) (h : x.getLast? ≠ some a) :
    TrimSuffix x a = x := by
  simp [TrimSuffix, h]

theorem intercalate_cons_cons (sep : Char) (f g : Str) (rest : List Str) :
    List.intercalate [sep] (f :: g :: rest) = f ++ sep :: List.intercalate [sep] (g :: rest) := by
  simp [List.intercalate, List.intersperse]

theorem mem_intercalate (sep c : Char) (fs : List Str) (h : c ∈ List.intercalate [sep] fs) :
    c = sep ∨ ∃ f ∈ fs, c ∈ f := by
  induction fs with
  | nil => simp [List.intercalate, List.intersperse] at h
  | cons f rest ih =>
    cases rest with
    | nil =>
      simp [List.intercalate, List.intersperse] at h
      exact Or.inr ⟨f, by simp, h⟩
    | cons g rest2 =>
      rw [intercalate_cons_cons, List.mem_append, List.mem_cons] at h
      rcases h with h | h | h
      · exact Or.inr ⟨f, by simp, h⟩
      · exact Or.inl h
      · rcases ih h with h | ⟨x, hx, hc⟩
        · exact Or.inl h
        · exact Or.inr ⟨x, List.mem_cons_of_mem _ hx, hc⟩

theorem mem_of_mem_intercalate (sep c : Char) (fs : List Str) (f : Str) (hf : f ∈ fs)
    (hc : c ∈ f) : c ∈ List.intercalate [sep] fs := by
  induction fs with
  | nil => cases hf
  | cons g rest ih =>
    cases rest with
    | nil =>
      simp only [List.mem_singleton] at hf
      subst hf
      simpa [List.intercalate, List.intersperse] using hc
    | cons g2 rest2 =>
      rw [intercalate_cons_cons, List.mem_append, List.mem_cons]
      rcases List.mem_cons.mp hf with h | h
      · subst h; exact Or.inl hc
      · exact Or.inr (Or.inr (ih h))

theorem mem_of_mem_Split (sep c : Char) (s f : Str) (hf : f ∈ Split sep s) (hc : c ∈ f) :
    c ∈ s := by
  have := mem_of_mem_intercalate sep c (Split sep s) f hf hc
  rwa [intercalate_Split] at this

end strings

theorem fields_joinFields (fs : List Str) (hne : fs ≠ []) (h : ∀ f ∈ fs, ',' ∉ f) :
    fields (joinFields fs) = fs :=
  strings.Split_intercalate ',' fs hne h

theorem joinFields_fields (line : Str) : joinFields (fields line) = line :=
  strings.intercalate_Split ',' line

theorem unstar_of_fields (p line f0 st : Str) (rest : List Str)
    (hf : fields line = f0 :: st :: (p ++ ['*']) :: rest) :
    unstar p line = joinFields (f0 :: st :: p :: rest) := by
  simp [unstar, hf]

theorem unstar_of_ne (p line f0 st pt : Str) (rest : List Str)
    (hf : fields line = f0 :: st :: pt :: rest) (hne : pt ≠ p ++ ['*']) :
    unstar p line = line := by
  simp [unstar, hf, hne]

theorem fields_unstar (p line f0 st : Str) (rest : List Str)
    (hf : fields line = f0 :: st :: (p ++ ['*']) :: rest) :
    fields (unstar p line) = f0 :: st :: p :: rest := by
  rw [unstar_of_fields p line f0 st rest hf]
  apply fields_joinFields _ (by simp)
  have hall : ∀ f ∈ fields line, ',' ∉ f := fun f hfm =>
    strings.not_mem_of_mem_Split ',' line f hfm
  rw [hf] at hall
  intro f hfm
  simp only [List.mem_cons] at hfm
  rcases hfm with h | h | h | h
  · subst h; exact hall _ (by simp)
  · subst h; exact hall _ (by simp)
  · subst h
    have := hall (f ++ ['*']) (by simp)
    intro hc
    exact this (List.mem_append_left _ hc)
  · exact hall f (by simp [h])

/-- What the replacement preserves, for a line with three fields at least. -/
theorem unstar_spec (p : Str) (hp : p.getLast? ≠ some '*') (line : Str)
    (h3 : threeFields line) :
    ∃ f0 st pt pt' rest, fields line = f0 :: st :: pt :: rest ∧
      fields (unstar p line) = f0 :: st :: pt' :: rest ∧
      strings.TrimSuffix pt' '*' = strings.TrimSuffix pt '*' := by
  have hs : ¬ (fields line).length < 3 := by
    unfold threeFields at h3
    omega
  obtain ⟨f0, st, pt, rest, hf⟩ := exists_fields_of_not_short line hs
  by_cases hpt : pt = p ++ ['*']
  · subst hpt
    refine ⟨f0, st, _, p, rest, hf, fields_unstar p line f0 st rest hf, ?_⟩
    rw [strings.TrimSuffix_concat, strings.TrimSuffix_of_getLast p '*' hp]
  · refine ⟨f0, st, pt, pt, rest, hf, ?_, rfl⟩
    rw [unstar_of_ne p line f0 st pt rest hf hpt, hf]

theorem unstar_injOn (p : Str) (L : List Str) (h3 : ∀ l ∈ L, threeFields l)
    (hno : ∀ l ∈ L, (fields l)[2]? ≠ some p) :
    ∀ x ∈ L, ∀ y ∈ L, unstar p x = unstar p y → x = y := by
  intro x hx y hy hxy
  have hsx : ¬ (fields x).length < 3 := by
    have := h3 x hx
    unfold threeFields at this
    omega
  have hsy : ¬ (fields y).length < 3 := by
    have := h3 y hy
    unfold threeFields at this
    omega
  obtain ⟨f0, st, pt, rest, hf⟩ := exists_fields_of_not_short x hsx
  obtain ⟨g0, gs, gp, grest, hg⟩ := exists_fields_of_not_short y hsy
  by_cases hpt : pt = p ++ ['*']
  · subst hpt
    by_cases hgp : gp = p ++ ['*']
    · subst hgp
      have h1 := fields_unstar p x f0 st rest hf
      have h2 := fields_unstar p y g0 gs grest hg
      rw [hxy, h2] at h1
      simp only [List.cons.injEq, true_and] at h1
      obtain ⟨e0, e1, e2⟩ := h1
      subst e0 e1 e2
      rw [← joinFields_fields x, ← joinFields_fields y, hf, hg]
    · have h1 := fields_unstar p x f0 st rest hf
      rw [hxy, unstar_of_ne p y g0 gs gp grest hg hgp, hg] at h1
      simp only [List.cons.injEq] at h1
      exfalso
      apply hno y hy
      rw [hg, h1.2.2.1]
      simp
  · by_cases hgp : gp = p ++ ['*']
    · subst hgp
      have h2 := fields_unstar p y g0 gs grest hg
      rw [← hxy, unstar_of_ne p x f0 st pt rest hf hpt, hf] at h2
      simp only [List.cons.injEq] at h2
      exfalso
      apply hno x hx
      rw [hf, h2.2.2.1]
      simp
    · rw [unstar_of_ne p x f0 st pt rest hf hpt, unstar_of_ne p y g0 gs gp grest hg hgp] at hxy
      exact hxy

theorem not_mem_unstar (p line : Str) (h : '\n' ∉ line) : '\n' ∉ unstar p line := by
  unfold unstar
  split
  · rename_i f0 st pt rest hf
    split_ifs with hpt
    · intro hc
      have hfield : ∀ f ∈ fields line, '\n' ∉ f := fun f hfm hcf =>
        h (strings.mem_of_mem_Split ',' '\n' line f hfm hcf)
      rw [hf] at hfield
      rcases strings.mem_intercalate ',' '\n' _ hc with h1 | ⟨f, hfm, hcf⟩
      · revert h1; decide
      · simp only [List.mem_cons] at hfm
        rcases hfm with e | e | e | e
        · subst e; exact hfield _ (by simp) hcf
        · subst e; exact hfield _ (by simp) hcf
        · subst e
          subst hpt
          exact hfield (f ++ ['*']) (by simp) (List.mem_append_left _ hcf)
        · exact hfield f (by simp [e]) hcf
    · exact h
  · exact h

theorem names_unstar (p : Str) (hp : p.getLast? ≠ some '*') (line : Str)
    (h3 : threeFields line) (q : Str) : names q (unstar p line) = names q line := by
  obtain ⟨f0, st, pt, pt', rest, hf, hf', ht⟩ := unstar_spec p hp line h3
  rw [Bool.eq_iff_iff, names_of_fields line f0 st pt rest hf q,
    names_of_fields (unstar p line) f0 st pt' rest hf' q, ht]

theorem contribution_unstar {α : Type} [Zero α] (pf : Str → α) (c : Category) (q : Str)
    (p : Str) (hp : p.getLast? ≠ some '*') (line : Str) (h3 : threeFields line) :
    contribution pf c q (unstar p line) = contribution pf c q line := by
  obtain ⟨f0, st, pt, pt', rest, hf, hf', ht⟩ := unstar_spec p hp line h3
  rw [contribution_of_fields pf c q line f0 st pt rest hf,
    contribution_of_fields pf c q (unstar p line) f0 st pt' rest hf', ht]

theorem shortRecord_unstar (p : Str) (hp : p.getLast? ≠ some '*') (line : Str)
    (h3 : threeFields line) : shortRecord (unstar p line) = false := by
  obtain ⟨f0, st, pt, pt', rest, hf, hf', ht⟩ := unstar_spec p hp line h3
  simp [shortRecord, hf']

theorem shortRecord_of_threeFields (line : Str) (h3 : threeFields line) :
    shortRecord line = false := by
  unfold threeFields at h3
  simp only [shortRecord, Bool.and_eq_false_iff, decide_eq_false_iff_not]
  right
  omega

theorem Parse_nil {α : Type} [Add α] [Zero α] (pf : Str → α) :
    ParseNodesPerPartitionMetrics pf [] = some NewNodesPerPartitionMetrics := by
  rfl

theorem linePartition_eq_star (p : Str) (pt : Str)
    (h : strings.TrimSuffix pt '*' = p ++ ['*']) : pt = p ++ ['*', '*'] := by
  unfold strings.TrimSuffix at h
  by_cases hl : pt.getLast? = some '*'
  · rw [if_pos hl] at h
    have := List.dropLast_append_getLast? '*' (by simpa using hl)
    rw [h] at this
    rw [← this]
    simp
  · rw [if_neg hl] at h
    rw [h] at hl
    simp at hl

/-- C4, as stated, fails in its last part: in the lines `1,idle,gpu*` and
`1,idle,gpu**` the partition name `gpu` occurs only in the form `gpu*`, and yet the
result has the key `gpu*`. -/
theorem C4_counterexample :
    (∀ l ∈ ["1,idle,gpu*".toList, "1,idle,gpu**".toList], '\n' ∉ l ∧ threeFields l) ∧
      "gpu".toList.getLast? ≠ some '*' ∧
      (∀ l ∈ ["1,idle,gpu*".toList, "1,idle,gpu**".toList], (fields l)[2]? ≠ some "gpu".toList) ∧
      (ParseNodesPerPartitionMetrics parseNat
          (joinLines ["1,idle,gpu*".toList, "1,idle,gpu**".toList])).map
        (fun nm => GoMap.find nm.idle "gpu*".toList) = some (some 1) := by
  decide

/-- C4, amended: for lines with at least three fields each in which no partition field
is `p` itself (`p` not ending in `*`), the text of the lines and the text of the lines
with every partition field `p*` replaced by `p` have results with the same ten maps;
the counts of a line with the partition field `p*` are keyed under `p`, and `p*` is a
key of no map unless some line has the partition field `p**`. -/
theorem C4_star_marker {α : Type} [AddCommMonoid α] (pf : Str → α) (L : List Str) (p : Str)
    (hL : ∀ l ∈ L, '\n' ∉ l ∧ threeFields l) (hp : p.getLast? ≠ some '*')
    (hno : ∀ l ∈ L, (fields l)[2]? ≠ some p) :
    ∃ nm nm', ParseNodesPerPartitionMetrics pf (joinLines L) = some nm ∧
      ParseNodesPerPartitionMetrics pf (joinLines (L.map (unstar p))) = some nm' ∧
      SameMaps nm nm' ∧
      ((∃ l ∈ L, (fields l)[2]? = some (p ++ ['*'])) →
        ∀ c : Category, p ∈ GoMap.keys (c.field nm)) ∧
      ((∀ l ∈ L, (fields l)[2]? ≠ some (p ++ ['*', '*'])) →
        ∀ c : Category, p ++ ['*'] ∉ GoMap.keys (c.field nm)) := by
  cases hLc : L with
  | nil =>
    refine ⟨NewNodesPerPartitionMetrics, NewNodesPerPartitionMetrics, Parse_nil pf, Parse_nil pf,
      fun _ _ => rfl, ?_, ?_⟩
    · rintro ⟨l, hl, _⟩
      cases hl
    · intro _ c
      cases c <;> simp [GoMap.keys, Category.field, NewNodesPerPartitionMetrics]
  | cons a rest =>
    rw [← hLc]
    have hne : L ≠ [] := by rw [hLc]; simp
    have hne' : L.map (unstar p) ≠ [] := by rw [hLc]; simp
    have hnl : ∀ l ∈ L, '\n' ∉ l := fun l hl => (hL l hl).1
    have h3 : ∀ l ∈ L, threeFields l := fun l hl => (hL l hl).2
    have hnl' : ∀ l ∈ L.map (unstar p), '\n' ∉ l := by
      intro l hl
      obtain ⟨x, hx, rfl⟩ := List.mem_map.mp hl
      exact not_mem_unstar p x (hnl x hx)
    have hlines : strings.Split '\n' (joinLines L) = L := Split_joinLines L hne hnl
    have hlines' : strings.Split '\n' (joinLines (L.map (unstar p))) = L.map (unstar p) :=
      Split_joinLines _ hne' hnl'
    have hU : lines_uniq (joinLines L) = uniqueLines L := by rw [lines_uniq_eq, hlines]
    have hU' : lines_uniq (joinLines (L.map (unstar p))) = uniqueLines (L.map (unstar p)) := by
      rw [lines_uniq_eq, hlines']
    obtain ⟨nm, hnm⟩ := Option.isSome_iff_exists.mp (by
      rw [Parse_isSome_iff, hlines, List.all_eq_true]
      intro l hl
      rw [shortRecord_of_threeFields l (h3 l hl)]
      rfl : (ParseNodesPerPartitionMetrics pf (joinLines L)).isSome = true)
    obtain ⟨nm', hnm'⟩ := Option.isSome_iff_exists.mp (by
      rw [Parse_isSome_iff, hlines', List.all_eq_true]
      intro l hl
      obtain ⟨x, hx, rfl⟩ := List.mem_map.mp hl
      rw [shortRecord_unstar p hp x (h3 x hx)]
      rfl : (ParseNodesPerPartitionMetrics pf (joinLines (L.map (unstar p)))).isSome = true)
    refine ⟨nm, nm', hnm, hnm', ?_, ?_, ?_⟩
    · intro c q
      rw [find_Parse pf _ nm hnm, find_Parse pf _ nm' hnm', hU, hU', any_uniqueLines,
        any_uniqueLines, List.any_map]
      have hany : L.any (names q ∘ unstar p) = L.any (names q) := by
        rw [Bool.eq_iff_iff]
        simp only [List.any_eq_true, Function.comp]
        constructor
        · rintro ⟨x, hx, hn⟩
          exact ⟨x, hx, by rwa [names_unstar p hp x (h3 x hx)] at hn⟩
        · rintro ⟨x, hx, hn⟩
          exact ⟨x, hx, by rwa [names_unstar p hp x (h3 x hx)]⟩
      have htot : total pf c q (uniqueLines (L.map (unstar p))) = total pf c q (uniqueLines L) := by
        unfold total
        rw [((uniqueLines_map_perm (unstar p) L (unstar_injOn p L h3 hno)).map _).sum_eq,
          List.map_map]
        congr 1
        apply List.map_congr_left
        intro x hx
        exact contribution_unstar pf c q p hp x (h3 x ((mem_uniqueLines x L).mp hx))
      rw [hany, htot]
    · rintro ⟨l, hl, hfl⟩ c
      rw [GoMap.mem_keys_iff, isSome_find_Parse pf _ nm hnm c p, hlines]
      refine ⟨l, hl, ?_, ?_⟩
      · have hs : ¬ (fields l).length < 3 := by
          have := h3 l hl
          unfold threeFields at this
          omega
        obtain ⟨f0, st, pt, rest', hf⟩ := exists_fields_of_not_short l hs
        exact Contains_of_fields l f0 st _ hf
      · simp [linePartition, hfl, strings.TrimSuffix_concat]
    · intro hnone c hk
      rw [GoMap.mem_keys_iff, isSome_find_Parse pf _ nm hnm c _, hlines] at hk
      obtain ⟨l, hl, _, hpart⟩ := hk
      unfold linePartition at hpart
      cases hfl : (fields l)[2]? with
      | none => rw [hfl] at hpart; cases hpart
      | some pt =>
        rw [hfl] at hpart
        simp only [Option.map_some', Option.some.injEq] at hpart
        apply hnone l hl
        rw [hfl, linePartition_eq_star p pt hpart]

theorem C4_star_marker_witness :
    ∃ nm nm', ParseNodesPerPartitionMetrics parseNat
          (joinLines ["4,idle,gpu*".toList, "2,alloc,gpu*".toList, "1,mix,cpu".toList]) = some nm ∧
      ParseNodesPerPartitionMetrics parseNat
          (joinLines (["4,idle,gpu*".toList, "2,alloc,gpu*".toList, "1,mix,cpu".toList].map
            (unstar "gpu".toList))) = some nm' ∧
      SameMaps nm nm' ∧
      ((∃ l ∈ ["4,idle,gpu*".toList, "2,alloc,gpu*".toList, "1,mix,cpu".toList],
          (fields l)[2]? = some ("gpu".toList ++ ['*'])) →
        ∀ c : Category, "gpu".toList ∈ GoMap.keys (c.field nm)) ∧
      ((∀ l ∈ ["4,idle,gpu*".toList, "2,alloc,gpu*".toList, "1,mix,cpu".toList],
          (fields l)[2]? ≠ some ("gpu".toList ++ ['*', '*'])) →
        ∀ c : Category, "gpu".toList ++ ['*'] ∉ GoMap.keys (c.field nm)) :=
  C4_star_marker parseNat ["4,idle,gpu*".toList, "2,alloc,gpu*".toList, "1,mix,cpu".toList]
    "gpu".toList (by decide) (by decide) (by decide)

theorem find_addFeature {α : Type} [AddMonoid α] (res : GoMap α) (f g : Str) (k : α) :
    GoMap.find (addFeature res f k) g =
      if f = g then some ((GoMap.find res f).getD 0 + k) else GoMap.find res g := by
  unfold addFeature
  cases h : GoMap.find res f with
  | none => simp [GoMap.find_insert]
  | some v => simp [GoMap.find_insert]

theorem find_addFeatures {α : Type} [AddMonoid α] (res : GoMap α) (feats : List Str) (k : α)
    (g : Str) :
    GoMap.find (addFeatures res feats k) g =
      if g ∈ feats then
        some ((GoMap.find res g).getD 0 + (List.replicate (feats.count g) k).sum)
      else GoMap.find res g := by
  induction feats generalizing res with
  | nil => simp [addFeatures]
  | cons f rest ih =>
    have hstep : addFeatures res (f :: rest) k = addFeatures (addFeature res f k) rest k := rfl
    rw [hstep, ih, find_addFeature]
    by_cases hfg : f = g
    · subst hfg
      by_cases hr : f ∈ rest
      · simp [hr, List.replicate_succ, add_assoc]
      · simp [hr, List.count_eq_zero_of_not_mem hr]
    · have hgf : ¬ g = f := fun e => hfg e.symm
      by_cases hr : g ∈ rest
      · simp [hr, hfg, hgf, List.count_cons]
      · simp [hr, hfg, hgf]

theorem featuresLoop_of_find {α : Type} [Add α] (k : α) (P : Str)
    (m : GoMap (PartitionMetrics α)) (feats : List Str) (pm : PartitionMetrics α)
    (h : GoMap.find m P = some pm) :
    ∃ m', featuresLoop k P m feats = some m' ∧
      GoMap.find m' P = some { pm with resources := addFeatures pm.resources feats k } ∧
      ∀ q, q ≠ P → GoMap.find m' q = GoMap.find m q := by
  induction feats generalizing m pm with
  | nil => exact ⟨m, rfl, h, fun _ _ => rfl⟩
  | cons f rest ih =>
    rw [featuresLoop, h]
    obtain ⟨m', h1, h2, h3⟩ := ih
      (GoMap.insert m P { pm with resources := addFeature pm.resources f k })
      { pm with resources := addFeature pm.resources f k } (by simp [GoMap.find_insert])
    refine ⟨m', h1, h2, ?_⟩
    intro q hq
    rw [h3 q hq, GoMap.find_insert]
    simp [Ne.symm hq]

theorem featuresLoop_of_not_find {α : Type} [Add α] (k : α) (P : Str)
    (m : GoMap (PartitionMetrics α)) (f : Str) (rest : List Str)
    (h : GoMap.find m P = none) : featuresLoop k P m (f :: rest) = none := by
  rw [featuresLoop, h]

theorem trimFeatures_cons (f : Str) (rest : List Str) :
    ∃ feats, trimFeatures (f :: rest) = some feats ∧ feats ≠ [] := by
  unfold trimFeatures
  simp only [List.getElem?_cons_zero, Option.bind_eq_bind, Option.some_bind, List.set_cons_zero,
    List.length_cons, Nat.add_sub_cancel]
  have hlt : rest.length < (strings.Trim f "()".toList :: rest).length := by simp
  rw [List.getElem?_eq_getElem hlt]
  simp only [Option.some_bind]
  refine ⟨_, rfl, ?_⟩
  cases rest <;> simp

theorem trimFeatures_nil : trimFeatures [] = none := rfl

theorem pendingLine_of_not_Contains {α : Type} [Add α] [One α] (pf : Str → α)
    (m : GoMap (PartitionMetrics α)) (line : Str) (h : strings.Contains line ',' = false) :
    pendingLine pf m line = some m := by
  simp [pendingLine, h]

theorem pendingLine_of_short {α : Type} [Add α] [One α] (pf : Str → α)
    (m : GoMap (PartitionMetrics α)) (line : Str) (h : strings.Contains line ',' = true)
    (hs : (fields line).length < 4) : pendingLine pf m line = none := by
  have hs' : (strings.Split ',' line).length < 4 := hs
  unfold pendingLine
  rw [if_pos h]
  match hf : strings.Split ',' line with
  | [] => simp
  | [_] => simp
  | [_, _] => simp
  | [_, _, _] => simp [trimFeatures_nil]
  | _ :: _ :: _ :: _ :: _ => rw [hf] at hs'; simp at hs'; omega

theorem pendingLine_of_fields {α : Type} [Add α] [One α] (pf : Str → α)
    (m : GoMap (PartitionMetrics α)) (line P cpus reason f : Str) (rest : List Str)
    (hf : fields line = P :: cpus :: reason :: f :: rest) :
    pendingLine pf m line =
      if reason = "Resources".toList then
        featuresLoop (pf cpus) P (bumpPending m P) (pendingFeatures line)
      else some (bumpPending m P) := by
  have hc : strings.Contains line ',' = true := Contains_of_fields line P cpus _ hf
  have hf' : strings.Split ',' line = P :: cpus :: reason :: f :: rest := hf
  obtain ⟨feats, hfe, _⟩ := trimFeatures_cons f rest
  have hpf : pendingFeatures line = feats := by
    simp [pendingFeatures, hf, hfe]
  unfold pendingLine
  rw [if_pos hc, hf', hpf]
  simp only [List.getElem?_cons_zero, List.getElem?_cons_succ, Option.bind_eq_bind,
    Option.some_bind, List.drop_succ_cons, List.drop_zero, hfe]
  rfl

theorem exists_fields_of_not_shortPending (line : Str) (hs : ¬ (fields line).length < 4) :
    ∃ P cpus reason f rest, fields line = P :: cpus :: reason :: f :: rest := by
  match hfl : fields line with
  | [] => simp [hfl] at hs
  | [_] => simp [hfl] at hs
  | [_, _] => simp [hfl] at hs
  | [_, _, _] => simp [hfl] at hs
  | P :: cpus :: reason :: f :: rest => exact ⟨P, cpus, reason, f, rest, rfl⟩

theorem pendingFeatures_ne_nil (line P cpus reason f : Str) (rest : List Str)
    (hf : fields line = P :: cpus :: reason :: f :: rest) : pendingFeatures line ≠ [] := by
  obtain ⟨feats, hfe, hne⟩ := trimFeatures_cons f rest
  simp [pendingFeatures, hf, hfe, hne]

theorem find_bumpPending {α : Type} [Add α] [One α] (m : GoMap (PartitionMetrics α))
    (P q : Str) :
    GoMap.find (bumpPending m P) q =
      if P = q then (GoMap.find m P).map (fun pm => { pm with pending := pm.pending + 1 })
      else GoMap.find m q := by
  unfold bumpPending
  cases h : GoMap.find m P with
  | none =>
    by_cases hq : P = q
    · subst hq; simp [h]
    · simp [hq]
  | some pm =>
    by_cases hq : P = q
    · subst hq; simp [GoMap.find_insert]
    · simp [GoMap.find_insert, hq]

/-- A pending record of a partition that is a key: the lookups after the line. -/
theorem find_pendingLine_present {α : Type} [Add α] [One α] (pf : Str → α)
    (m : GoMap (PartitionMetrics α)) (line P cpus reason f : Str) (rest : List Str)
    (hf : fields line = P :: cpus :: reason :: f :: rest) (pm : PartitionMetrics α)
    (hP : GoMap.find m P = some pm) :
    ∃ m', pendingLine pf m line = some m' ∧
      GoMap.find m' P = some { pm with
        pending := pm.pending + 1
        resources :=
          if reason = "Resources".toList then
            addFeatures pm.resources (pendingFeatures line) (pf cpus)
          else pm.resources } ∧
      ∀ q, q ≠ P → GoMap.find m' q = GoMap.find m q := by
  rw [pendingLine_of_fields pf m line P cpus reason f rest hf]
  have hb : GoMap.find (bumpPending m P) P = some { pm with pending := pm.pending + 1 } := by
    rw [find_bumpPending, if_pos rfl, hP]; rfl
  have hbq : ∀ q, q ≠ P → GoMap.find (bumpPending m P) q = GoMap.find m q := by
    intro q hq
    rw [find_bumpPending, if_neg (Ne.symm hq)]
  by_cases hr : reason = "Resources".toList
  · rw [if_pos hr, if_pos hr]
    obtain ⟨m', h1, h2, h3⟩ := featuresLoop_of_find (pf cpus) P (bumpPending m P)
      (pendingFeatures line) _ hb
    exact ⟨m', h1, h2, fun q hq => (h3 q hq).trans (hbq q hq)⟩
  · rw [if_neg hr, if_neg hr]
    exact ⟨_, rfl, hb, hbq⟩

/-- A pending record of a partition that is not a key: ignored unless its reason is
`Resources`, in which case the feature loop dereferences nil. -/
theorem pendingLine_absent {α : Type} [Add α] [One α] (pf : Str → α)
    (m : GoMap (PartitionMetrics α)) (line P cpus reason f : Str) (rest : List Str)
    (hf : fields line = P :: cpus :: reason :: f :: rest)
    (hP : GoMap.find m P = none) :
    pendingLine pf m line = if reason = "Resources".toList then none else some m := by
  rw [pendingLine_of_fields pf m line P cpus reason f rest hf]
  have hb : bumpPending m P = m := by simp [bumpPending, hP]
  rw [hb]
  by_cases hr : reason = "Resources".toList
  · rw [if_pos hr, if_pos hr]
    cases hfe : pendingFeatures line with
    | nil => exact absurd hfe (pendingFeatures_ne_nil line P cpus reason f rest hf)
    | cons g gs => exact featuresLoop_of_not_find (pf cpus) P m g gs hP
  · rw [if_neg hr, if_neg hr]

theorem namesFirst_of_fields (line P cpus : Str) (rest : List Str)
    (hf : fields line = P :: cpus :: rest) (q : Str) :
    (namesFirst q line = true ↔ P = q) := by
  have hc := Contains_of_fields line P cpus rest hf
  simp [namesFirst, hc, firstField, hf]

theorem namesFirst_of_not_Contains (line : Str) (h : strings.Contains line ',' = false)
    (q : Str) : namesFirst q line = false := by
  simp [namesFirst, h]

theorem pendingLine_isSome {α : Type} [Add α] [One α] (pf : Str → α)
    (m : GoMap (PartitionMetrics α)) (line : Str) :
    (pendingLine pf m line).isSome = pendingOk m line := by
  by_cases hc : strings.Contains line ',' = true
  · by_cases hs : (fields line).length < 4
    · rw [pendingLine_of_short pf m line hc hs]
      have : ¬ 4 ≤ (fields line).length := by omega
      simp [pendingOk, hc, this]
    · obtain ⟨P, cpus, reason, f, rest, hf⟩ := exists_fields_of_not_shortPending line hs
      have h4 : 4 ≤ (fields line).length := by omega
      have hfirst : firstField line = P := by simp [firstField, hf]
      have hreason : pendingReason line = some reason := by simp [pendingReason, hf]
      cases hP : GoMap.find m P with
      | none =>
        rw [pendingLine_absent pf m line P cpus reason f rest hf hP]
        by_cases hr : reason = "Resources".toList
        · rw [if_pos hr]
          have hb : (pendingReason line == some "Resources".toList) = true := by
            rw [hreason, hr]; exact beq_self_eq_true _
          unfold pendingOk
          rw [hb, hc, hfirst, hP]
          simp
        · rw [if_neg hr]
          have hb : (pendingReason line == some "Resources".toList) = false := by
            rw [hreason]
            exact beq_false_of_ne (fun e => hr (Option.some.inj e))
          unfold pendingOk
          rw [hb, hc, hfirst, hP]
          simp [h4]
      | some pm =>
        obtain ⟨m', h1, _, _⟩ := find_pendingLine_present pf m line P cpus reason f rest hf pm hP
        rw [h1]
        simp [pendingOk, hc, h4, hfirst, hP]
  · have hc' : strings.Contains line ',' = false := by simpa using hc
    rw [pendingLine_of_not_Contains pf m line hc']
    simp [pendingOk, hc']

/-- A pending line changes nothing for the partitions it is not a record of. -/
theorem find_pendingLine_other {α : Type} [Add α] [One α] (pf : Str → α)
    (m m' : GoMap (PartitionMetrics α)) (line : Str) (h : pendingLine pf m line = some m')
    (q : Str) (hq : namesFirst q line = false) : GoMap.find m' q = GoMap.find m q := by
  by_cases hc : strings.Contains line ',' = true
  · by_cases hs : (fields line).length < 4
    · rw [pendingLine_of_short pf m line hc hs] at h
      cases h
    · obtain ⟨P, cpus, reason, f, rest, hf⟩ := exists_fields_of_not_shortPending line hs
      have hPq : q ≠ P := by
        intro e
        have := (namesFirst_of_fields line P cpus _ hf q).mpr e.symm
        rw [hq] at this
        cases this
      cases hP : GoMap.find m P with
      | none =>
        rw [pendingLine_absent pf m line P cpus reason f rest hf hP] at h
        by_cases hr : reason = "Resources".toList
        · rw [if_pos hr] at h; cases h
        · rw [if_neg hr] at h; cases h; rfl
      | some pm =>
        obtain ⟨m1, h1, _, h3⟩ := find_pendingLine_present pf m line P cpus reason f rest hf pm hP
        rw [h] at h1
        cases h1
        exact h3 q hPq
  · have hc' : strings.Contains line ',' = false := by simpa using hc
    rw [pendingLine_of_not_Contains pf m line hc'] at h
    cases h
    rfl

/-- A pending line keeps the keys. -/
theorem isSome_find_pendingLine {α : Type} [Add α] [One α] (pf : Str → α)
    (m m' : GoMap (PartitionMetrics α)) (line : Str) (h : pendingLine pf m line = some m')
    (q : Str) : (GoMap.find m' q).isSome = (GoMap.find m q).isSome := by
  cases hn : namesFirst q line with
  | false => rw [find_pendingLine_other pf m m' line h q hn]
  | true =>
    have hc : strings.Contains line ',' = true := by
      simp only [namesFirst, Bool.and_eq_true] at hn
      exact hn.1
    by_cases hs : (fields line).length < 4
    · rw [pendingLine_of_short pf m line hc hs] at h
      cases h
    · obtain ⟨P, cpus, reason, f, rest, hf⟩ := exists_fields_of_not_shortPending line hs
      have hPq : P = q := (namesFirst_of_fields line P cpus _ hf q).mp hn
      subst hPq
      cases hP : GoMap.find m P with
      | none =>
        rw [pendingLine_absent pf m line P cpus reason f rest hf hP] at h
        by_cases hr : reason = "Resources".toList
        · rw [if_pos hr] at h; cases h
        · rw [if_neg hr] at h; cases h; rw [hP]
      | some pm =>
        obtain ⟨m1, h1, h2, _⟩ := find_pendingLine_present pf m line P cpus reason f rest hf pm hP
        rw [h] at h1
        cases h1
        rw [h2]
        rfl

theorem pendingOk_congr {α : Type} (m m' : GoMap (PartitionMetrics α))
    (h : ∀ q, (GoMap.find m' q).isSome = (GoMap.find m q).isSome) (line : Str) :
    pendingOk m' line = pendingOk m line := by
  unfold pendingOk
  rw [h]

theorem pendingLoop_isSome {α : Type} [Add α] [One α] (pf : Str → α)
    (m : GoMap (PartitionMetrics α)) (ls : List Str) :
    (pendingLoop pf m ls).isSome = ls.all (pendingOk m) := by
  induction ls generalizing m with
  | nil => simp [pendingLoop]
  | cons l rest ih =>
    have h1 := pendingLine_isSome pf m l
    rw [pendingLoop]
    cases hl : pendingLine pf m l with
    | none =>
      rw [hl] at h1
      simp only [Option.isSome_none] at h1
      simp [← h1]
    | some m1 =>
      rw [hl] at h1
      simp only [Option.isSome_some] at h1
      have hk := isSome_find_pendingLine pf m m1 l hl
      simp only [ih m1, List.all_cons, ← h1, Bool.true_and]
      congr 1
      funext x
      exact pendingOk_congr m m1 hk x

theorem isSome_find_pendingLoop {α : Type} [Add α] [One α] (pf : Str → α)
    (ls : List Str) (m m' : GoMap (PartitionMetrics α)) (h : pendingLoop pf m ls = some m')
    (q : Str) : (GoMap.find m' q).isSome = (GoMap.find m q).isSome := by
  induction ls generalizing m with
  | nil =>
    simp only [pendingLoop, Option.some.injEq] at h
    subst h
    rfl
  | cons l rest ih =>
    rw [pendingLoop] at h
    cases hl : pendingLine pf m l with
    | none => rw [hl] at h; cases h
    | some m1 =>
      rw [hl] at h
      rw [ih m1 h, isSome_find_pendingLine pf m m1 l hl]

theorem resContribution_of_not_touched {α : Type} [AddMonoid α] (pf : Str → α) (q f : Str)
    (l : Str) (h : resTouched q f l = false) : resContribution pf q f l = 0 := by
  unfold resContribution
  by_cases hr : resourcesLine q l = true
  · rw [if_pos hr]
    have hf : f ∉ pendingFeatures l := by
      simpa [resTouched, hr] using h
    rw [List.count_eq_zero_of_not_mem hf]
    rfl
  · rw [if_neg hr]

theorem resTotal_cons {α : Type} [Add α] [Zero α] (pf : Str → α) (q f : Str) (l : Str)
    (ls : List Str) : resTotal pf q f (l :: ls) = resContribution pf q f l + resTotal pf q f ls := by
  simp [resTotal]

theorem resTotal_of_not_touched {α : Type} [AddMonoid α] (pf : Str → α) (q f : Str)
    (ls : List Str) (h : ls.any (resTouched q f) = false) : resTotal pf q f ls = 0 := by
  induction ls with
  | nil => rfl
  | cons l rest ih =>
    simp only [List.any_cons, Bool.or_eq_false_iff] at h
    rw [resTotal_cons, ih h.2, resContribution_of_not_touched pf q f l h.1, add_zero]

theorem Accumulated_nil {α : Type} [AddMonoidWithOne α] (pf : Str → α) (q : Str)
    (pm : PartitionMetrics α) : Accumulated pf q [] pm pm := by
  refine ⟨rfl, rfl, rfl, rfl, ?_, ?_⟩
  · simp [pendingCount]
  · intro f
    simp

theorem Accumulated_cons_other {α : Type} [AddMonoidWithOne α] (pf : Str → α) (q : Str)
    (l : Str) (rest : List Str) (pm0 pm : PartitionMetrics α) (hn : namesFirst q l = false)
    (h : Accumulated pf q rest pm0 pm) : Accumulated pf q (l :: rest) pm0 pm := by
  obtain ⟨h1, h2, h3, h4, h5, h6⟩ := h
  refine ⟨h1, h2, h3, h4, ?_, ?_⟩
  · rw [h5]
    simp [pendingCount, List.filter_cons, hn]
  · intro f
    have ht : resTouched q f l = false := by simp [resTouched, resourcesLine, hn]
    rw [h6 f, resTotal_cons, resContribution_of_not_touched pf q f l ht, zero_add,
      List.any_cons, ht, Bool.false_or]

theorem Accumulated_cons_names {α : Type} [AddMonoidWithOne α] (pf : Str → α) (q : Str)
    (l cpus reason f0 : Str) (more : List Str) (rest : List Str) (pm0 pm : PartitionMetrics α)
    (hf : fields l = q :: cpus :: reason :: f0 :: more)
    (h : Accumulated pf q rest
      { pm0 with
        pending := pm0.pending + 1
        resources :=
          if reason = "Resources".toList then
            addFeatures pm0.resources (pendingFeatures l) (pf cpus)
          else pm0.resources } pm) :
    Accumulated pf q (l :: rest) pm0 pm := by
  obtain ⟨h1, h2, h3, h4, h5, h6⟩ := h
  have hn : namesFirst q l = true := (namesFirst_of_fields l q cpus _ hf q).mpr rfl
  refine ⟨h1, h2, h3, h4, ?_, ?_⟩
  · rw [h5]
    have hc : pendingCount q (l :: rest) = 1 + pendingCount q rest := by
      simp [pendingCount, List.filter_cons, hn, Nat.add_comm]
    rw [hc, Nat.cast_add, Nat.cast_one, add_assoc]
  · intro f
    have hcpus : requestedCpus pf l = pf cpus := by simp [requestedCpus, hf]
    rw [h6 f, resTotal_cons, List.any_cons]
    by_cases hr : reason = "Resources".toList
    · have hres : resourcesLine q l = true := by
        unfold resourcesLine pendingReason
        rw [hn, hf, hr]
        rfl
      have hcon : resContribution pf q f l =
          (List.replicate ((pendingFeatures l).count f) (pf cpus)).sum := by
        unfold resContribution
        rw [if_pos hres, hcpus]
      simp only [if_pos hr]
      rw [find_addFeatures, hcon]
      by_cases hmem : f ∈ pendingFeatures l
      · have ht : resTouched q f l = true := by simp [resTouched, hres, hmem]
        rw [ht, Bool.true_or, if_pos rfl, if_pos hmem]
        by_cases hany : rest.any (resTouched q f) = true
        · rw [if_pos hany, Option.getD_some, add_assoc]
        · rw [if_neg hany, resTotal_of_not_touched pf q f rest (by simpa using hany), add_zero]
      · have ht : resTouched q f l = false := by simp [resTouched, hmem]
        rw [ht, Bool.false_or, if_neg hmem, List.count_eq_zero_of_not_mem hmem]
        simp
    · have hres : resourcesLine q l = false := by
        unfold resourcesLine pendingReason
        rw [hn, hf]
        exact beq_false_of_ne (fun e => hr (Option.some.inj e))
      have ht : resTouched q f l = false := by simp [resTouched, hres]
      simp only [if_neg hr]
      rw [resContribution_of_not_touched pf q f l ht, zero_add, ht, Bool.false_or]

/-- The record of a partition after the loop over the pending lines. -/
theorem find_pendingLoop {α : Type} [AddMonoidWithOne α] (pf : Str → α) (ls : List Str)
    (m0 m : GoMap (PartitionMetrics α)) (h : pendingLoop pf m0 ls = some m) (q : Str)
    (pm0 : PartitionMetrics α) (h0 : GoMap.find m0 q = some pm0) :
    ∃ pm, GoMap.find m q = some pm ∧ Accumulated pf q ls pm0 pm := by
  induction ls generalizing m0 pm0 with
  | nil =>
    simp only [pendingLoop, Option.some.injEq] at h
    subst h
    exact ⟨pm0, h0, Accumulated_nil pf q pm0⟩
  | cons l rest ih =>
    rw [pendingLoop] at h
    cases hl : pendingLine pf m0 l with
    | none => rw [hl] at h; cases h
    | some m1 =>
      rw [hl] at h
      simp only at h
      cases hn : namesFirst q l with
      | false =>
        have h1 := find_pendingLine_other pf m0 m1 l hl q hn
        obtain ⟨pm, hpm, hacc⟩ := ih m1 h pm0 (h1.trans h0)
        exact ⟨pm, hpm, Accumulated_cons_other pf q l rest pm0 pm hn hacc⟩
      | true =>
        have hc : strings.Contains l ',' = true := by
          simp only [namesFirst, Bool.and_eq_true] at hn
          exact hn.1
        by_cases hs : (fields l).length < 4
        · rw [pendingLine_of_short pf m0 l hc hs] at hl
          cases hl
        · obtain ⟨P, cpus, reason, f, more, hf⟩ := exists_fields_of_not_shortPending l hs
          have hPq : P = q := (namesFirst_of_fields l P cpus _ hf q).mp hn
          subst hPq
          obtain ⟨m1', e1, e2, _⟩ := find_pendingLine_present pf m0 l P cpus reason f more hf pm0 h0
          rw [hl] at e1
          cases e1
          obtain ⟨pm, hpm, hacc⟩ := ih m1 h _ e2
          exact ⟨pm, hpm, Accumulated_cons_names pf P l cpus reason f more rest pm0 pm hf hacc⟩

theorem snapshotLine_of_not_Contains {α : Type} [Zero α] (pf : Str → α)
    (m : GoMap (PartitionMetrics α)) (line : Str) (h : strings.Contains line ',' = false) :
    snapshotLine pf m line = some m := by
  simp [snapshotLine, h]

theorem snapshotLine_of_fields {α : Type} [Zero α] (pf : Str → α)
    (m : GoMap (PartitionMetrics α)) (line P states : Str) (rest : List Str)
    (hf : fields line = P :: states :: rest) (a i o t : Str) (more : List Str)
    (hs : strings.Split '/' states = a :: i :: o :: t :: more) :
    ∃ m', snapshotLine pf m line = some m' ∧
      GoMap.find m' P =
        some (assignStates pf ((GoMap.find m P).getD newPartitionMetrics) a i o t) ∧
      ∀ q, q ≠ P → GoMap.find m' q = GoMap.find m q := by
  have hc : strings.Contains line ',' = true := Contains_of_fields line P states rest hf
  have hf' : strings.Split ',' line = P :: states :: rest := hf
  unfold snapshotLine
  rw [if_pos hc, hf']
  simp only [List.getElem?_cons_zero, List.getElem?_cons_succ, Option.bind_eq_bind,
    Option.some_bind, hs]
  cases hP : GoMap.find m P with
  | none =>
    simp only [Option.isNone_none, if_true, GoMap.find_insert, Option.some_bind, Option.getD_none]
    refine ⟨_, rfl, ?_, ?_⟩
    · simp [GoMap.find_insert, assignStates]
    · intro q hq
      simp [GoMap.find_insert, Ne.symm hq, hP]
  | some pm =>
    simp only [Option.isNone_some, Bool.false_eq_true, if_false, hP, Option.some_bind,
      Option.getD_some]
    refine ⟨_, rfl, ?_, ?_⟩
    · simp [GoMap.find_insert, assignStates]
    · intro q hq
      simp [GoMap.find_insert, Ne.symm hq]

theorem snapshotLine_of_short {α : Type} [Zero α] (pf : Str → α)
    (m : GoMap (PartitionMetrics α)) (line P states : Str) (rest : List Str)
    (hf : fields line = P :: states :: rest)
    (hs : (strings.Split '/' states).length < 4) : snapshotLine pf m line = none := by
  have hc : strings.Contains line ',' = true := Contains_of_fields line P states rest hf
  have hf' : strings.Split ',' line = P :: states :: rest := hf
  unfold snapshotLine
  rw [if_pos hc, hf']
  simp only [List.getElem?_cons_zero, List.getElem?_cons_succ, Option.bind_eq_bind,
    Option.some_bind]
  match hsp : strings.Split '/' states with
  | [] => simp
  | [_] => simp
  | [_, _] => simp
  | [_, _, _] => simp
  | _ :: _ :: _ :: _ :: _ => rw [hsp] at hs; simp at hs; omega

theorem exists_two_fields (line : Str) (hc : strings.Contains line ',' = true) :
    ∃ P states rest, fields line = P :: states :: rest := by
  have h2 := strings.two_le_length_Split ',' line ((strings.Contains_iff line ',').mp hc)
  match hfl : fields line with
  | [] => simp [fields] at hfl; rw [hfl] at h2; simp at h2
  | [_] => simp [fields] at hfl; rw [hfl] at h2; simp at h2
  | P :: states :: rest => exact ⟨P, states, rest, rfl⟩

theorem exists_four_states (states : Str) (hs : ¬ (strings.Split '/' states).length < 4) :
    ∃ a i o t more, strings.Split '/' states = a :: i :: o :: t :: more := by
  match hsp : strings.Split '/' states with
  | [] => simp [hsp] at hs
  | [_] => simp [hsp] at hs
  | [_, _] => simp [hsp] at hs
  | [_, _, _] => simp [hsp] at hs
  | a :: i :: o :: t :: more => exact ⟨a, i, o, t, more, rfl⟩

/-- A snapshot line changes nothing for the partitions it is not a record of. -/
theorem find_snapshotLine_other {α : Type} [Zero α] (pf : Str → α)
    (m m' : GoMap (PartitionMetrics α)) (line : Str) (h : snapshotLine pf m line = some m')
    (q : Str) (hq : namesFirst q line = false) : GoMap.find m' q = GoMap.find m q := by
  by_cases hc : strings.Contains line ',' = true
  · obtain ⟨P, states, rest, hf⟩ := exists_two_fields line hc
    have hPq : q ≠ P := by
      intro e
      have := (namesFirst_of_fields line P states _ hf q).mpr e.symm
      rw [hq] at this
      cases this
    by_cases hs : (strings.Split '/' states).length < 4
    · rw [snapshotLine_of_short pf m line P states rest hf hs] at h
      cases h
    · obtain ⟨a, i, o, t, more, hsp⟩ := exists_four_states states hs
      obtain ⟨m1, h1, _, h3⟩ := snapshotLine_of_fields pf m line P states rest hf a i o t more hsp
      rw [h] at h1
      cases h1
      exact h3 q hPq
  · have hc' : strings.Contains line ',' = false := by simpa using hc
    rw [snapshotLine_of_not_Contains pf m line hc'] at h
    cases h
    rfl

/-- A snapshot line makes its partition a key and keeps the other keys. -/
theorem isSome_find_snapshotLine {α : Type} [Zero α] (pf : Str → α)
    (m m' : GoMap (PartitionMetrics α)) (line : Str) (h : snapshotLine pf m line = some m')
    (q : Str) : (GoMap.find m' q).isSome = (namesFirst q line || (GoMap.find m q).isSome) := by
  cases hn : namesFirst q line with
  | false => rw [find_snapshotLine_other pf m m' line h q hn, Bool.false_or]
  | true =>
    have hc : strings.Contains line ',' = true := by
      simp only [namesFirst, Bool.and_eq_true] at hn
      exact hn.1
    obtain ⟨P, states, rest, hf⟩ := exists_two_fields line hc
    have hPq : P = q := (namesFirst_of_fields line P states _ hf q).mp hn
    subst hPq
    by_cases hs : (strings.Split '/' states).length < 4
    · rw [snapshotLine_of_short pf m line P states rest hf hs] at h
      cases h
    · obtain ⟨a, i, o, t, more, hsp⟩ := exists_four_states states hs
      obtain ⟨m1, h1, h2, _⟩ := snapshotLine_of_fields pf m line P states rest hf a i o t more hsp
      rw [h] at h1
      cases h1
      rw [h2]
      rfl

theorem Fresh_snapshotLine {α : Type} [Zero α] (pf : Str → α)
    (m m' : GoMap (PartitionMetrics α)) (line : Str) (h : snapshotLine pf m line = some m')
    (hm : Fresh m) : Fresh m' := by
  intro q pm hq
  cases hn : namesFirst q line with
  | false =>
    rw [find_snapshotLine_other pf m m' line h q hn] at hq
    exact hm q pm hq
  | true =>
    have hc : strings.Contains line ',' = true := by
      simp only [namesFirst, Bool.and_eq_true] at hn
      exact hn.1
    obtain ⟨P, states, rest, hf⟩ := exists_two_fields line hc
    have hPq : P = q := (namesFirst_of_fields line P states _ hf q).mp hn
    subst hPq
    by_cases hs : (strings.Split '/' states).length < 4
    · rw [snapshotLine_of_short pf m line P states rest hf hs] at h
      cases h
    · obtain ⟨a, i, o, t, more, hsp⟩ := exists_four_states states hs
      obtain ⟨m1, h1, h2, _⟩ := snapshotLine_of_fields pf m line P states rest hf a i o t more hsp
      rw [h] at h1
      cases h1
      rw [h2] at hq
      cases hq
      cases hP : GoMap.find m P with
      | none => exact ⟨rfl, rfl⟩
      | some pm0 => exact hm P pm0 hP

theorem snapshotLoop_append {α : Type} [Zero α] (pf : Str → α)
    (m : GoMap (PartitionMetrics α)) (l1 l2 : List Str) :
    snapshotLoop pf m (l1 ++ l2) =
      (snapshotLoop pf m l1).bind (fun m1 => snapshotLoop pf m1 l2) := by
  induction l1 generalizing m with
  | nil => rfl
  | cons l rest ih =>
    simp only [List.cons_append, snapshotLoop]
    cases snapshotLine pf m l with
    | none => rfl
    | some m1 => exact ih m1

theorem find_snapshotLoop_other {α : Type} [Zero α] (pf : Str → α) (ls : List Str)
    (m m' : GoMap (PartitionMetrics α)) (h : snapshotLoop pf m ls = some m') (q : Str)
    (hq : ∀ l ∈ ls, namesFirst q l = false) : GoMap.find m' q = GoMap.find m q := by
  induction ls generalizing m with
  | nil =>
    simp only [snapshotLoop, Option.some.injEq] at h
    subst h
    rfl
  | cons l rest ih =>
    rw [snapshotLoop] at h
    cases hl : snapshotLine pf m l with
    | none => rw [hl] at h; cases h
    | some m1 =>
      rw [hl] at h
      rw [ih m1 h (fun x hx => hq x (List.mem_cons_of_mem _ hx)),
        find_snapshotLine_other pf m m1 l hl q (hq l (by simp))]

theorem isSome_find_snapshotLoop {α : Type} [Zero α] (pf : Str → α) (ls : List Str)
    (m m' : GoMap (PartitionMetrics α)) (h : snapshotLoop pf m ls = some m') (q : Str) :
    (GoMap.find m' q).isSome = (ls.any (namesFirst q) || (GoMap.find m q).isSome) := by
  induction ls generalizing m with
  | nil =>
    simp only [snapshotLoop, Option.some.injEq] at h
    subst h
    simp
  | cons l rest ih =>
    rw [snapshotLoop] at h
    cases hl : snapshotLine pf m l with
    | none => rw [hl] at h; cases h
    | some m1 =>
      rw [hl] at h
      rw [ih m1 h, isSome_find_snapshotLine pf m m1 l hl, List.any_cons]
      cases namesFirst q l <;> cases rest.any (namesFirst q) <;> simp

theorem Fresh_snapshotLoop {α : Type} [Zero α] (pf : Str → α) (ls : List Str)
    (m m' : GoMap (PartitionMetrics α)) (h : snapshotLoop pf m ls = some m')
    (hm : Fresh m) : Fresh m' := by
  induction ls generalizing m with
  | nil =>
    simp only [snapshotLoop, Option.some.injEq] at h
    subst h
    exact hm
  | cons l rest ih =>
    rw [snapshotLoop] at h
    cases hl : snapshotLine pf m l with
    | none => rw [hl] at h; cases h
    | some m1 =>
      rw [hl] at h
      exact ih m1 h (Fresh_snapshotLine pf m m1 l hl hm)

theorem Fresh_nil {α : Type} [Zero α] : Fresh ([] : GoMap (PartitionMetrics α)) := by
  intro q pm h
  cases h

/-- The two phases of `ParsePartitionsMetrics`. -/
theorem Parse_phases {α : Type} [Add α] [Zero α] [One α] (pf : Str → α) (data pending : Str)
    (m : GoMap (PartitionMetrics α)) (h : ParsePartitionsMetrics pf data pending = some m) :
    ∃ m0, snapshotLoop pf [] (strings.Split '\n' data) = some m0 ∧
      pendingLoop pf m0 (strings.Split '\n' pending) = some m := by
  unfold ParsePartitionsMetrics at h
  cases h0 : snapshotLoop pf [] (strings.Split '\n' data) with
  | none => rw [h0] at h; cases h
  | some m0 =>
    rw [h0] at h
    exact ⟨m0, rfl, h⟩

theorem fields_snapshotRecord (p a i o t : Str) (hp : ',' ∉ p) (ha : ',' ∉ a) (hi : ',' ∉ i)
    (ho : ',' ∉ o) (ht : ',' ∉ t) :
    fields (snapshotRecord p a i o t) = [p, a ++ '/' :: (i ++ '/' :: (o ++ '/' :: t))] := by
  unfold fields snapshotRecord
  rw [strings.Split_append_sep, strings.Split_of_not_mem ',' p hp, strings.Split_of_not_mem]
  · rfl
  · simp only [List.mem_append, List.mem_cons, not_or]
    exact ⟨ha, by decide, hi, by decide, ho, by decide, ht⟩

theorem Split_states (a i o t : Str) (ha : '/' ∉ a) (hi : '/' ∉ i) (ho : '/' ∉ o)
    (ht : '/' ∉ t) :
    strings.Split '/' (a ++ '/' :: (i ++ '/' :: (o ++ '/' :: t))) = [a, i, o, t] := by
  rw [strings.Split_append_sep, strings.Split_append_sep, strings.Split_append_sep,
    strings.Split_of_not_mem '/' a ha, strings.Split_of_not_mem '/' i hi,
    strings.Split_of_not_mem '/' o ho, strings.Split_of_not_mem '/' t ht]
  rfl

/-- C7: when the snapshot has the line `p,a/i/o/t` and no later record of `p`, the
result of `ParsePartitionsMetrics` has for `p` the four values of that line
(allocated, idle, other, total), whatever the earlier records of `p` and the pending
text are: the values are assigned, not summed. -/
theorem C7_snapshot_assigned {α : Type} [AddMonoidWithOne α] (pf : Str → α)
    (data pending : Str) (pre post : List Str) (p a i o t : Str)
    (hp : ',' ∉ p) (ha : ',' ∉ a ∧ '/' ∉ a) (hi : ',' ∉ i ∧ '/' ∉ i)
    (ho : ',' ∉ o ∧ '/' ∉ o) (ht : ',' ∉ t ∧ '/' ∉ t)
    (hl : strings.Split '\n' data = pre ++ snapshotRecord p a i o t :: post)
    (hlast : ∀ l ∈ post, namesFirst p l = false)
    (m : GoMap (PartitionMetrics α)) (h : ParsePartitionsMetrics pf data pending = some m) :
    ∃ pm, GoMap.find m p = some pm ∧ pm.allocated = pf a ∧ pm.idle = pf i ∧
      pm.other = pf o ∧ pm.total = pf t := by
  obtain ⟨m0, hs, hpend⟩ := Parse_phases pf data pending m h
  rw [hl, snapshotLoop_append] at hs
  cases h1 : snapshotLoop pf [] pre with
  | none => rw [h1] at hs; cases hs
  | some m1 =>
    rw [h1] at hs
    simp only [Option.some_bind, snapshotLoop] at hs
    cases h2 : snapshotLine pf m1 (snapshotRecord p a i o t) with
    | none => rw [h2] at hs; cases hs
    | some m2 =>
      rw [h2] at hs
      simp only at hs
      obtain ⟨m2', e1, e2, _⟩ := snapshotLine_of_fields pf m1 (snapshotRecord p a i o t) p _ []
        (fields_snapshotRecord p a i o t hp ha.1 hi.1 ho.1 ht.1) a i o t []
        (Split_states a i o t ha.2 hi.2 ho.2 ht.2)
      rw [h2] at e1
      cases e1
      have h3 := find_snapshotLoop_other pf post m2 m0 hs p hlast
      rw [e2] at h3
      obtain ⟨pm, hpm, hacc⟩ := find_pendingLoop pf _ m0 m hpend p _ h3
      obtain ⟨c1, c2, c3, c4, _, _⟩ := hacc
      exact ⟨pm, hpm, c1, c2, c3, c4⟩

theorem C7_snapshot_assigned_witness :
    ∃ pm, GoMap.find
        [("partition-1".toList,
          ({ allocated := 0, idle := 672, other := 2688, pending := 0, total := 3360,
             resources := [("null".toList, 0)] } : PartitionMetrics Nat))]
        "partition-1".toList = some pm ∧
      pm.allocated = parseNat "0".toList ∧ pm.idle = parseNat "672".toList ∧
      pm.other = parseNat "2688".toList ∧ pm.total = parseNat "3360".toList :=
  C7_snapshot_assigned parseNat
    "partition-1,9/9/9/9\npartition-1,0/672/2688/3360\n".toList "".toList
    ["partition-1,9/9/9/9".toList] ["".toList]
    "partition-1".toList "0".toList "672".toList "2688".toList "3360".toList
    (by decide) (by decide) (by decide) (by decide) (by decide) (by decide) (by decide)
    _ (by decide)

theorem find_pendingLoop_other {α : Type} [Add α] [One α] (pf : Str → α) (ls : List Str)
    (m m' : GoMap (PartitionMetrics α)) (h : pendingLoop pf m ls = some m') (q : Str)
    (hq : ∀ l ∈ ls, namesFirst q l = false) : GoMap.find m' q = GoMap.find m q := by
  induction ls generalizing m with
  | nil =>
    simp only [pendingLoop, Option.some.injEq] at h
    subst h
    rfl
  | cons l rest ih =>
    rw [pendingLoop] at h
    cases hl : pendingLine pf m l with
    | none => rw [hl] at h; cases h
    | some m1 =>
      rw [hl] at h
      rw [ih m1 h (fun x hx => hq x (List.mem_cons_of_mem _ hx)),
        find_pendingLine_other pf m m1 l hl q (hq l (by simp))]

/-- C9, as stated, fails in its last part: with the snapshot `p,1/2/3/4` and an empty
pending text, the feature map of `p` is not empty: it holds the entry `null` with
value 0 that the record is created with. -/
theorem C9_counterexample :
    (∃ l ∈ strings.Split '\n' "p,1/2/3/4".toList, namesFirst "p".toList l = true) ∧
      (∀ l ∈ strings.Split '\n' "".toList, namesFirst "p".toList l = false) ∧
      (ParsePartitionsMetrics parseNat "p,1/2/3/4".toList "".toList).map
          (fun m => (GoMap.find m "p".toList).map (fun pm => pm.resources)) =
        some (some [("null".toList, 0)]) ∧
      (ParsePartitionsMetrics parseNat "p,1/2/3/4".toList "".toList).map
          (fun m => (GoMap.find m "p".toList).map (fun pm => pm.resources)) ≠
        some (some []) := by
  decide

/-- C9, amended: a partition that a record of the CPU snapshot names and no record of
the pending text names has, in the result of `ParsePartitionsMetrics`, the pending
count 0 and the feature map it was created with, whose only entry is `null` with
value 0. -/
theorem C9_no_pending_jobs {α : Type} [Add α] [Zero α] [One α] (pf : Str → α)
    (data pending : Str) (m : GoMap (PartitionMetrics α))
    (h : ParsePartitionsMetrics pf data pending = some m) (q : Str)
    (hq : ∃ l ∈ strings.Split '\n' data, namesFirst q l = true)
    (hno : ∀ l ∈ strings.Split '\n' pending, namesFirst q l = false) :
    ∃ pm, GoMap.find m q = some pm ∧ pm.pending = 0 ∧
      pm.resources = [("null".toList, 0)] ∧
      GoMap.keys pm.resources = ["null".toList] := by
  obtain ⟨m0, hs, hpend⟩ := Parse_phases pf data pending m h
  have hkey := isSome_find_snapshotLoop pf _ [] m0 hs q
  have hany : (strings.Split '\n' data).any (namesFirst q) = true := by
    rw [List.any_eq_true]
    exact hq
  rw [hany, Bool.true_or] at hkey
  obtain ⟨pm, hpm⟩ := Option.isSome_iff_exists.mp hkey
  have hfresh := Fresh_snapshotLoop pf _ [] m0 hs Fresh_nil q pm hpm
  refine ⟨pm, ?_, hfresh.1, hfresh.2, ?_⟩
  · rw [find_pendingLoop_other pf _ m0 m hpend q hno, hpm]
  · rw [hfresh.2]
    rfl

theorem twoPartitions_result :
    ParsePartitionsMetrics parseNat "p,1/2/3/4\nq,5/6/7/8".toList
      "q,4,Resources,(gpu)".toList = some twoPartitions := by
  decide

theorem C9_no_pending_jobs_witness :
    ∃ pm, GoMap.find twoPartitions "p".toList = some pm ∧ pm.pending = 0 ∧
      pm.resources = [("null".toList, 0)] ∧
      GoMap.keys pm.resources = ["null".toList] :=
  C9_no_pending_jobs parseNat "p,1/2/3/4\nq,5/6/7/8".toList "q,4,Resources,(gpu)".toList
    twoPartitions twoPartitions_result "p".toList (by decide) (by decide)

/-- C10, the failing input: with the snapshot `p,1/2/3/4`, the pending line
`q,4,Resources,(gpu)` of the unknown partition `q` makes `ParsePartitionsMetrics`
panic (the feature loop dereferences the missing record), whereas the same line with
another reason is ignored: the result is that of the empty pending text. -/
theorem C10_unknown_partition_Resources :
    ParsePartitionsMetrics parseNat "p,1/2/3/4".toList "q,4,Resources,(gpu)".toList = none ∧
      ParsePartitionsMetrics parseNat "p,1/2/3/4".toList "".toList =
        some [("p".toList, ⟨1, 2, 3, 0, 4, [("null".toList, 0)]⟩)] ∧
      ParsePartitionsMetrics parseNat "p,1/2/3/4".toList "q,4,Priority,(gpu)".toList =
        ParsePartitionsMetrics parseNat "p,1/2/3/4".toList "".toList := by
  decide

namespace strings

theorem Trim_eq (s : Str) : Trim s "()".toList = (s.dropWhile isParen).rdropWhile isParen := rfl

theorem Trim_plain (f : Str) (h : plainToken f) : Trim f "()".toList = f := by
  rw [Trim_eq, h.2.1, h.2.2]

theorem Trim_close (f : Str) (h : plainToken f) : Trim (f ++ [')']) "()".toList = f := by
  rw [Trim_eq]
  cases f with
  | nil => rfl
  | cons a f' =>
    have ha : ¬ isParen a = true := by
      have := (@List.dropWhile_eq_self_iff Char isParen (a :: f')).mp h.2.1 (by simp)
      simpa using this
    rw [List.cons_append, List.dropWhile_cons_of_neg ha, ← List.cons_append,
      List.rdropWhile_concat_pos _ _ _ (by decide), h.2.2]

theorem Trim_open (f : Str) (h : plainToken f) : Trim ('(' :: f) "()".toList = f := by
  rw [Trim_eq, List.dropWhile_cons_of_pos (by decide), h.2.1, h.2.2]

theorem Trim_open_close (f : Str) (h : plainToken f) :
    Trim ('(' :: (f ++ [')'])) "()".toList = f := by
  have := Trim_close f h
  rw [Trim_eq] at this ⊢
  rw [List.dropWhile_cons_of_pos (by decide), this]

end strings

theorem Split_join_close (l : List Str) (hne : l ≠ []) (h : ∀ g ∈ l, ',' ∉ g) :
    strings.Split ',' (joinFields l ++ [')']) = closeLast l := by
  induction l with
  | nil => exact absurd rfl hne
  | cons g rest ih =>
    cases rest with
    | nil =>
      have : joinFields [g] = g := by simp [joinFields, List.intercalate, List.intersperse]
      rw [this, closeLast]
      apply strings.Split_of_not_mem
      simp only [List.mem_append, List.mem_singleton, not_or]
      exact ⟨h g (by simp), by decide⟩
    | cons g2 r =>
      have : joinFields (g :: g2 :: r) = g ++ ',' :: joinFields (g2 :: r) :=
        strings.intercalate_cons_cons ',' g g2 r
      rw [this, List.append_assoc, List.cons_append, strings.Split_append_sep,
        strings.Split_of_not_mem ',' g (h g (by simp)),
        ih (by simp) (fun x hx => h x (List.mem_cons_of_mem _ hx)), closeLast]
      rfl

/-- The fields of a `Resources` record: the partition, the CPUs, the reason, and the
tokens with the parentheses at the two ends. -/
theorem fields_resourcesRecord (P n f : Str) (fs : List Str) (hP : ',' ∉ P) (hn : ',' ∉ n)
    (htok : ∀ g ∈ f :: fs, ',' ∉ g) :
    fields (resourcesRecord P n (f :: fs)) =
      P :: n :: "Resources".toList :: parenthesized (f :: fs) := by
  unfold fields resourcesRecord
  rw [strings.Split_append_sep, strings.Split_append_sep, strings.Split_append_sep,
    strings.Split_of_not_mem ',' P hP, strings.Split_of_not_mem ',' n hn,
    strings.Split_of_not_mem ',' "Resources".toList (by decide)]
  have hf : ',' ∉ f := htok f (by simp)
  cases fs with
  | nil =>
    have : joinFields [f] = f := by simp [joinFields, List.intercalate, List.intersperse]
    rw [this, strings.Split_of_not_mem]
    · rfl
    · simp only [List.mem_cons, List.mem_append, List.mem_singleton, not_or]
      exact ⟨by decide, hf, by decide⟩
  | cons g r =>
    have e : '(' :: (joinFields (f :: g :: r) ++ [')']) =
        ('(' :: f) ++ ',' :: (joinFields (g :: r) ++ [')']) := by
      have : joinFields (f :: g :: r) = f ++ ',' :: joinFields (g :: r) :=
        strings.intercalate_cons_cons ',' f g r
      rw [this]
      simp
    rw [e, strings.Split_append_sep,
      strings.Split_of_not_mem ',' ('(' :: f), Split_join_close (g :: r) (by simp)
        (fun x hx => htok x (List.mem_cons_of_mem _ hx))]
    · rfl
    · simp only [List.mem_cons, not_or]
      exact ⟨by decide, hf⟩

theorem trimLast_closeLast (x : Str) (l : List Str) (hne : l ≠ [])
    (h : ∀ g ∈ l, plainToken g) :
    (do
      let last ← (x :: closeLast l)[(x :: closeLast l).length - 1]?
      some ((x :: closeLast l).set ((x :: closeLast l).length - 1)
        (strings.Trim last "()".toList))) = some (x :: l) := by
  induction l generalizing x with
  | nil => exact absurd rfl hne
  | cons g rest ih =>
    cases rest with
    | nil =>
      have e := strings.Trim_close g (h g (by simp))
      simp only [closeLast, List.length_cons, List.length_nil, Nat.add_sub_cancel,
        List.getElem?_cons_succ, List.getElem?_cons_zero, Option.bind_eq_bind, Option.some_bind,
        List.set_cons_succ, List.set_cons_zero, e]
    | cons g2 r =>
      have := ih g (by simp) (fun y hy => h y (List.mem_cons_of_mem _ hy))
      rw [closeLast]
      simp only [List.length_cons, Nat.add_sub_cancel, List.getElem?_cons_succ,
        List.set_cons_succ, Option.bind_eq_bind] at this ⊢
      cases hq : (g :: closeLast (g2 :: r))[(closeLast (g2 :: r)).length]? with
      | none => rw [hq] at this; simp at this
      | some last =>
        rw [hq] at this
        simp only [Option.some_bind, Option.some.injEq] at this ⊢
        rw [this]

theorem trimFeatures_tokens (f : Str) (fs : List Str) (htok : ∀ g ∈ f :: fs, plainToken g) :
    trimFeatures (parenthesized (f :: fs)) = some (f :: fs) := by
  have hf := htok f (by simp)
  cases fs with
  | nil =>
    simp only [parenthesized, trimFeatures, List.getElem?_cons_zero, Option.bind_eq_bind,
      Option.some_bind, List.set_cons_zero, List.length_cons, List.length_nil,
      strings.Trim_open_close f hf]
    have e0 : (0 + 1 - 1 : Nat) = 0 := rfl
    rw [e0]
    simp only [List.getElem?_cons_zero, Option.some_bind, List.set_cons_zero,
      strings.Trim_plain f hf]
  | cons g r =>
    unfold trimFeatures
    simp only [parenthesized, List.getElem?_cons_zero, Option.bind_eq_bind, Option.some_bind,
      List.set_cons_zero, strings.Trim_open f hf]
    exact trimLast_closeLast f (g :: r) (by simp) (fun y hy => htok y (List.mem_cons_of_mem _ hy))

theorem resTotal_append {α : Type} [AddMonoid α] (pf : Str → α) (q f : Str) (a b : List Str) :
    resTotal pf q f (a ++ b) = resTotal pf q f a + resTotal pf q f b := by
  simp [resTotal]

theorem pendingCount_insert (q : Str) (pre post : List Str) (l : Str)
    (h : namesFirst q l = true) :
    pendingCount q (pre ++ l :: post) = pendingCount q (pre ++ post) + 1 := by
  simp only [pendingCount, List.filter_append, List.filter_cons, h, if_true, List.length_append,
    List.length_cons]
  omega

theorem count_eq_one_of_nodup (l : List Str) (g : Str) (hnd : l.Nodup) (hg : g ∈ l) :
    l.count g = 1 := by
  induction l with
  | nil => cases hg
  | cons a r ih =>
    rw [List.nodup_cons] at hnd
    rw [List.count_cons]
    by_cases h : a = g
    · subst h
      simp [List.count_eq_zero_of_not_mem hnd.1]
    · have hr : g ∈ r := by
        rcases List.mem_cons.mp hg with e | e
        · exact absurd e.symm h
        · exact e
      simp [ih hnd.2 hr, h]

/-- What the parsers read from the record `P,n,Resources,(f1,...,fk)`. -/
theorem resourcesRecord_spec {α : Type} (pf : Str → α) (P n f : Str) (fs : List Str)
    (hP : ',' ∉ P) (hn : ',' ∉ n) (htok : ∀ g ∈ f :: fs, plainToken g) :
    4 ≤ (fields (resourcesRecord P n (f :: fs))).length ∧
      strings.Contains (resourcesRecord P n (f :: fs)) ',' = true ∧
      firstField (resourcesRecord P n (f :: fs)) = P ∧
      requestedCpus pf (resourcesRecord P n (f :: fs)) = pf n ∧
      pendingReason (resourcesRecord P n (f :: fs)) = some "Resources".toList ∧
      pendingFeatures (resourcesRecord P n (f :: fs)) = f :: fs := by
  have hf := fields_resourcesRecord P n f fs hP hn (fun g hg => (htok g hg).1)
  have ht := trimFeatures_tokens f fs htok
  refine ⟨?_, Contains_of_fields _ P n _ hf, ?_, ?_, ?_, ?_⟩
  · rw [hf]
    cases fs with
    | nil => simp [parenthesized]
    | cons g r => simp [parenthesized]
  · simp [firstField, hf]
  · simp [requestedCpus, hf]
  · simp [pendingReason, hf]
  · unfold pendingFeatures
    rw [hf]
    simp only [List.drop_succ_cons, List.drop_zero]
    rw [ht]
    rfl

theorem pendingLoop_append {α : Type} [Add α] [One α] (pf : Str → α)
    (m : GoMap (PartitionMetrics α)) (l1 l2 : List Str) :
    pendingLoop pf m (l1 ++ l2) =
      (pendingLoop pf m l1).bind (fun m1 => pendingLoop pf m1 l2) := by
  induction l1 generalizing m with
  | nil => rfl
  | cons l rest ih =>
    simp only [List.cons_append, pendingLoop]
    cases pendingLine pf m l with
    | none => rfl
    | some m1 => exact ih m1

theorem Bumped_pendingLine {α : Type} [Add α] [One α] (pf : Str → α) (P : Str)
    (s s' s1 : GoMap (PartitionMetrics α)) (l : Str) (hb : Bumped P s s')
    (h : pendingLine pf s l = some s1) :
    ∃ s1', pendingLine pf s' l = some s1' ∧ Bumped P s1 s1' := by
  by_cases hc : strings.Contains l ',' = true
  · by_cases hs : (fields l).length < 4
    · rw [pendingLine_of_short pf s l hc hs] at h
      cases h
    · obtain ⟨Q, cpus, reason, f, rest, hf⟩ := exists_fields_of_not_shortPending l hs
      cases hQ : GoMap.find s Q with
      | none =>
        have hQ' : GoMap.find s' Q = none := by rw [hb Q, hQ]; rfl
        rw [pendingLine_absent pf s l Q cpus reason f rest hf hQ] at h
        rw [pendingLine_absent pf s' l Q cpus reason f rest hf hQ']
        by_cases hr : reason = "Resources".toList
        · rw [if_pos hr] at h; cases h
        · rw [if_neg hr] at h
          cases h
          rw [if_neg hr]
          exact ⟨s', rfl, hb⟩
      | some pm =>
        have hQ' : GoMap.find s' Q = some (bumpAt P Q pm) := by rw [hb Q, hQ]; rfl
        obtain ⟨t, e1, e2, e3⟩ := find_pendingLine_present pf s l Q cpus reason f rest hf pm hQ
        obtain ⟨t', e1', e2', e3'⟩ :=
          find_pendingLine_present pf s' l Q cpus reason f rest hf _ hQ'
        rw [h] at e1
        cases e1
        refine ⟨t', e1', ?_⟩
        intro q
        by_cases hq : q = Q
        · subst hq
          rw [e2', e2]
          unfold bumpAt
          by_cases hP : q = P
          · simp [hP]
          · simp [hP]
        · rw [e3' q hq, e3 q hq]
          exact hb q
  · have hc' : strings.Contains l ',' = false := by simpa using hc
    rw [pendingLine_of_not_Contains pf s l hc'] at h
    cases h
    exact ⟨s', pendingLine_of_not_Contains pf s' l hc', hb⟩

theorem Bumped_pendingLoop {α : Type} [Add α] [One α] (pf : Str → α) (P : Str)
    (ls : List Str) (s s' s1 : GoMap (PartitionMetrics α)) (hb : Bumped P s s')
    (h : pendingLoop pf s ls = some s1) :
    ∃ s1', pendingLoop pf s' ls = some s1' ∧ Bumped P s1 s1' := by
  induction ls generalizing s s' with
  | nil =>
    simp only [pendingLoop, Option.some.injEq] at h
    subst h
    exact ⟨s', rfl, hb⟩
  | cons l rest ih =>
    rw [pendingLoop] at h
    cases hl : pendingLine pf s l with
    | none => rw [hl] at h; cases h
    | some t =>
      rw [hl] at h
      obtain ⟨t', ht', hbt⟩ := Bumped_pendingLine pf P s s' t l hb hl
      obtain ⟨s1', hs1', hb1⟩ := ih t t' hbt h
      refine ⟨s1', ?_, hb1⟩
      rw [pendingLoop, ht']
      exact hs1'

/-- A pending record with four fields at least and a reason other than `Resources`:
the line is not fatal, and the map after it is the map before it with the pending
count of its partition one higher. -/
theorem Bumped_of_other_reason {α : Type} [Add α] [One α] (pf : Str → α)
    (s : GoMap (PartitionMetrics α)) (line : Str) (h4 : 4 ≤ (fields line).length)
    (hr : pendingReason line ≠ some "Resources".toList) :
    ∃ s', pendingLine pf s line = some s' ∧ Bumped (firstField line) s s' := by
  have hs : ¬ (fields line).length < 4 := by omega
  obtain ⟨Q, cpus, reason, f, rest, hf⟩ := exists_fields_of_not_shortPending line hs
  have hfirst : firstField line = Q := by simp [firstField, hf]
  have hreason : reason ≠ "Resources".toList := by
    intro e
    apply hr
    simp [pendingReason, hf, e]
  rw [hfirst]
  cases hQ : GoMap.find s Q with
  | none =>
    rw [pendingLine_absent pf s line Q cpus reason f rest hf hQ, if_neg hreason]
    refine ⟨s, rfl, ?_⟩
    intro q
    by_cases hq : q = Q
    · subst hq; rw [hQ]; rfl
    · cases hfq : GoMap.find s q with
      | none => rfl
      | some pm => simp [bumpAt, hq]
  | some pm =>
    obtain ⟨t, e1, e2, e3⟩ := find_pendingLine_present pf s line Q cpus reason f rest hf pm hQ
    refine ⟨t, e1, ?_⟩
    intro q
    by_cases hq : q = Q
    · subst hq
      rw [e2, hQ, if_neg hreason]
      simp [bumpAt]
    · rw [e3 q hq]
      cases hfq : GoMap.find s q with
      | none => rfl
      | some pm2 => simp [bumpAt, hq]

/-- C11: a pending line with four fields at least whose reason is not exactly
`Resources`, added to a pending text that has a result, gives a text that has a result
too, and that result is the former one with the pending count of the line's partition
one higher when it is a key: the feature maps, the CPU values and the keys are the
same. -/
theorem C11_other_reason {α : Type} [Add α] [Zero α] [One α] (pf : Str → α)
    (data pending pending' : Str) (pre post : List Str) (line : Str)
    (hl : strings.Split '\n' pending = pre ++ post)
    (hl' : strings.Split '\n' pending' = pre ++ line :: post)
    (h4 : 4 ≤ (fields line).length)
    (hr : pendingReason line ≠ some "Resources".toList)
    (m : GoMap (PartitionMetrics α)) (h : ParsePartitionsMetrics pf data pending = some m) :
    ∃ m', ParsePartitionsMetrics pf data pending' = some m' ∧
      ∀ q : Str, GoMap.find m' q =
        (GoMap.find m q).map (fun pm =>
          if q = firstField line then { pm with pending := pm.pending + 1 } else pm) := by
  obtain ⟨m0, hs, hpend⟩ := Parse_phases pf data pending m h
  rw [hl, pendingLoop_append] at hpend
  cases hpre : pendingLoop pf m0 pre with
  | none => rw [hpre] at hpend; cases hpend
  | some s =>
    rw [hpre] at hpend
    simp only [Option.some_bind] at hpend
    obtain ⟨s', hline, hb⟩ := Bumped_of_other_reason pf s line h4 hr
    obtain ⟨m', hm', hbm⟩ := Bumped_pendingLoop pf (firstField line) post s s' m hb hpend
    refine ⟨m', ?_, hbm⟩
    unfold ParsePartitionsMetrics
    rw [hs, hl']
    show pendingLoop pf m0 (pre ++ line :: post) = some m'
    rw [pendingLoop_append, hpre]
    simp only [Option.some_bind, pendingLoop, hline]
    exact hm'

theorem C11_other_reason_witness :
    ∃ m', ParsePartitionsMetrics parseNat "p,1/2/3/4\nq,5/6/7/8".toList
        "q,9,Resources ,(a)\nq,4,Resources,(gpu)".toList = some m' ∧
      ∀ q : Str, GoMap.find m' q =
        (GoMap.find twoPartitions q).map (fun pm =>
          if q = firstField "q,9,Resources ,(a)".toList then
            { pm with pending := pm.pending + 1 }
          else pm) :=
  C11_other_reason parseNat "p,1/2/3/4\nq,5/6/7/8".toList "q,4,Resources,(gpu)".toList
    "q,9,Resources ,(a)\nq,4,Resources,(gpu)".toList [] ["q,4,Resources,(gpu)".toList]
    "q,9,Resources ,(a)".toList (by decide) (by decide) (by decide) (by decide)
    twoPartitions twoPartitions_result

theorem snapshotLine_isSome {α : Type} [Zero α] (pf : Str → α)
    (m : GoMap (PartitionMetrics α)) (line : Str) :
    (snapshotLine pf m line).isSome = snapshotOk line := by
  by_cases hc : strings.Contains line ',' = true
  · obtain ⟨P, states, rest, hf⟩ := exists_two_fields line hc
    have hr : ratioField line = states := by simp [ratioField, hf]
    by_cases hs : (strings.Split '/' states).length < 4
    · rw [snapshotLine_of_short pf m line P states rest hf hs]
      have : ¬ 4 ≤ (strings.Split '/' states).length := by omega
      simp [snapshotOk, hc, hr, this]
    · obtain ⟨a, i, o, t, more, hsp⟩ := exists_four_states states hs
      obtain ⟨m1, h1, _, _⟩ := snapshotLine_of_fields pf m line P states rest hf a i o t more hsp
      have : 4 ≤ (strings.Split '/' states).length := by omega
      rw [h1]
      simp [snapshotOk, hc, hr, this]
  · have hc' : strings.Contains line ',' = false := by simpa using hc
    rw [snapshotLine_of_not_Contains pf m line hc']
    simp [snapshotOk, hc']

theorem snapshotLoop_isSome {α : Type} [Zero α] (pf : Str → α)
    (m : GoMap (PartitionMetrics α)) (ls : List Str) :
    (snapshotLoop pf m ls).isSome = ls.all snapshotOk := by
  induction ls generalizing m with
  | nil => simp [snapshotLoop]
  | cons l rest ih =>
    have h1 := snapshotLine_isSome pf m l
    rw [snapshotLoop]
    cases hl : snapshotLine pf m l with
    | none =>
      rw [hl] at h1
      simp only [Option.isSome_none] at h1
      simp [← h1]
    | some m1 =>
      rw [hl] at h1
      simp only [Option.isSome_some] at h1
      simp [ih m1, ← h1]

theorem pendingOk_eq_pendingOkText {α : Type} [Zero α] (pf : Str → α) (data : Str)
    (m0 : GoMap (PartitionMetrics α))
    (hs : snapshotLoop pf [] (strings.Split '\n' data) = some m0) (line : Str) :
    pendingOk m0 line = pendingOkText data line := by
  unfold pendingOk pendingOkText
  rw [isSome_find_snapshotLoop pf _ [] m0 hs (firstField line)]
  simp [GoMap.find]

/-- When `ParsePartitionsMetrics` returns: no snapshot line and no pending line
panics. -/
theorem ParsePartitions_isSome {α : Type} [Add α] [Zero α] [One α] (pf : Str → α)
    (data pending : Str) :
    (ParsePartitionsMetrics pf data pending).isSome =
      ((strings.Split '\n' data).all snapshotOk &&
        (strings.Split '\n' pending).all (pendingOkText data)) := by
  unfold ParsePartitionsMetrics
  have h1 := snapshotLoop_isSome pf [] (strings.Split '\n' data)
  cases hs : snapshotLoop pf [] (strings.Split '\n' data) with
  | none =>
    rw [hs] at h1
    simp only [Option.isSome_none] at h1
    simp [← h1]
  | some m0 =>
    rw [hs] at h1
    simp only [Option.isSome_some] at h1
    simp only [pendingLoop_isSome, ← h1, Bool.true_and]
    congr 1
    funext l
    exact pendingOk_eq_pendingOkText pf data m0 hs l

namespace strings

theorem dropWhile_rdropWhile (d : Str) (h : d.dropWhile isParen = d) :
    (d.rdropWhile isParen).dropWhile isParen = d.rdropWhile isParen := by
  cases d with
  | nil => simp
  | cons a d' =>
    have ha : ¬ isParen a = true := by
      have := (@List.dropWhile_eq_self_iff Char isParen (a :: d')).mp h (by simp)
      simpa using this
    have hp : (a :: d').rdropWhile isParen <+: a :: d' := List.rdropWhile_prefix isParen _
    cases ht : (a :: d').rdropWhile isParen with
    | nil => rfl
    | cons b t' =>
      rw [ht] at hp
      obtain ⟨r, hr⟩ := hp
      simp only [List.cons_append, List.cons.injEq] at hr
      rw [hr.1]
      exact List.dropWhile_cons_of_neg ha

theorem Trim_idempotent (s : Str) :
    Trim (Trim s "()".toList) "()".toList = Trim s "()".toList := by
  rw [Trim_eq, Trim_eq,
    dropWhile_rdropWhile (s.dropWhile isParen) (List.dropWhile_idempotent isParen _),
    List.rdropWhile_idempotent]

end strings

theorem trimLast_eq (x : Str) (l : List Str) (hne : l ≠ []) :
    (do
      let last ← (x :: l)[(x :: l).length - 1]?
      some ((x :: l).set ((x :: l).length - 1) (strings.Trim last "()".toList))) =
      some (x :: trimLastToken l) := by
  induction l generalizing x with
  | nil => exact absurd rfl hne
  | cons g rest ih =>
    cases rest with
    | nil =>
      simp only [trimLastToken, List.length_cons, List.length_nil, Nat.add_sub_cancel,
        List.getElem?_cons_succ, List.getElem?_cons_zero, Option.bind_eq_bind, Option.some_bind,
        List.set_cons_succ, List.set_cons_zero]
    | cons g2 r =>
      have := ih g (by simp)
      rw [trimLastToken]
      simp only [List.length_cons, Nat.add_sub_cancel, List.getElem?_cons_succ,
        List.set_cons_succ, Option.bind_eq_bind] at this ⊢
      cases hq : (g2 :: r)[r.length]? with
      | none =>
        rw [hq] at this
        simp at this
      | some last =>
        rw [hq] at this
        simp only [Option.some_bind, Option.some.injEq] at this ⊢
        rw [this]

theorem trimFeatures_eq_trimEnds (f : Str) (rest : List Str) :
    trimFeatures (f :: rest) = some (trimEnds (f :: rest)) := by
  cases rest with
  | nil =>
    simp only [trimFeatures, trimEnds, List.getElem?_cons_zero, Option.bind_eq_bind,
      Option.some_bind, List.set_cons_zero, List.length_cons, List.length_nil]
    have e0 : (0 + 1 - 1 : Nat) = 0 := rfl
    rw [e0]
    simp only [List.getElem?_cons_zero, Option.some_bind, List.set_cons_zero,
      strings.Trim_idempotent]
  | cons g r =>
    unfold trimFeatures
    simp only [trimEnds, List.getElem?_cons_zero, Option.bind_eq_bind, Option.some_bind,
      List.set_cons_zero]
    exact trimLast_eq (strings.Trim f "()".toList) (g :: r) (by simp)

/-- C13, as stated, fails: the first token `((a` yields the feature `a`, not `(a`, and
in the tail `(a),(b)` the first token yields `a`, not `a)`, and the last token yields
`b`, not `(b`; the parser credits the requested CPUs of `p,4,Resources,((a` to the key
`a`, and `(a` is not a key. -/
theorem C13_counterexample :
    pendingFeatures "p,4,Resources,((a".toList = ["a".toList] ∧
      pendingFeatures "p,4,Resources,(a),(b)".toList = ["a".toList, "b".toList] ∧
      (ParsePartitionsMetrics parseNat "p,1/2/3/4".toList "p,4,Resources,((a".toList).map
          (fun m => (GoMap.find m "p".toList).map
            (fun pm => (GoMap.find pm.resources "a".toList,
              GoMap.find pm.resources "(a".toList))) =
        some (some (some 4, none)) := by
  decide

/-- C13, amended: for every pending line with four fields at least, the features the
parser loops over, when the reason is `Resources`, are the fields after the third with
every leading and every trailing `(` and `)` removed from the first token and from the
last token, the tokens in between unchanged. -/
theorem C13_features_trimmed {α : Type} [Add α] [One α] (pf : Str → α)
    (m : GoMap (PartitionMetrics α)) (line P cpus reason f : Str) (rest : List Str)
    (hf : fields line = P :: cpus :: reason :: f :: rest) :
    pendingFeatures line = trimEnds (f :: rest) ∧
      pendingLine pf m line =
        (if reason = "Resources".toList then
          featuresLoop (pf cpus) P (bumpPending m P) (trimEnds (f :: rest))
        else some (bumpPending m P)) ∧
      (∀ s : Str, strings.Trim s "()".toList =
        (s.dropWhile (fun c => c = '(' ∨ c = ')')).rdropWhile (fun c => c = '(' ∨ c = ')')) := by
  have hpf : pendingFeatures line = trimEnds (f :: rest) := by
    unfold pendingFeatures
    rw [hf]
    simp only [List.drop_succ_cons, List.drop_zero]
    rw [trimFeatures_eq_trimEnds]
    rfl
  refine ⟨hpf, ?_, ?_⟩
  · rw [pendingLine_of_fields pf m line P cpus reason f rest hf, hpf]
  · intro s
    rw [strings.Trim_eq]
    have : isParen = fun c => decide (c = '(' ∨ c = ')') := by
      funext c
      simp [isParen]
    rw [this]

theorem C13_features_trimmed_witness :
    pendingFeatures "p,4,Resources,((a),(m),(b))".toList =
        trimEnds ["((a)".toList, "(m)".toList, "(b))".toList] ∧
      trimEnds ["((a)".toList, "(m)".toList, "(b))".toList] =
        ["a".toList, "(m)".toList, "b".toList] :=
  ⟨(C13_features_trimmed parseNat [] "p,4,Resources,((a),(m),(b))".toList "p".toList "4".toList
      "Resources".toList "((a)".toList ["(m)".toList, "(b))".toList] (by decide)).1, by decide⟩

/-- C14, as stated, fails: on the text `5,idle`, a line with a comma and two fields,
`ParseNodesPerPartitionMetrics` panics (index out of range). -/
theorem C14_counterexample :
    ParseNodesPerPartitionMetrics parseNat "5,idle".toList = none := by
  decide

/-- C14, amended: `ParseNodesPerPartitionMetrics` returns a result exactly when every
line of the input that contains a comma has three fields at least, whatever the value
`parseFloat` gives for the counts; so a line without a comma and a count that is not
a number are not fatal. -/
theorem C14_returns_iff {α : Type} [Add α] [Zero α] (pf : Str → α) (input : Str) :
    (∃ nm, ParseNodesPerPartitionMetrics pf input = some nm) ↔
      ∀ l ∈ strings.Split '\n' input, strings.Contains l ',' = true → threeFields l := by
  rw [← Option.isSome_iff_exists, Parse_isSome_iff, List.all_eq_true]
  constructor
  · intro h l hl hc
    have := h l hl
    unfold shortRecord at this
    rw [hc] at this
    simp only [Bool.true_and, Bool.not_eq_true', decide_eq_false_iff_not] at this
    unfold threeFields
    omega
  · intro h l hl
    unfold shortRecord
    cases hc : strings.Contains l ','
    · rfl
    · have := h l hl hc
      unfold threeFields at this
      simp only [Bool.true_and, Bool.not_eq_true', decide_eq_false_iff_not]
      omega

theorem C14_returns_iff_witness :
    (∃ nm, ParseNodesPerPartitionMetrics parseNat "x,idle,gpu\nnoise\n\n3,idle,gpu".toList = some nm) ∧
      ¬ ∃ nm, ParseNodesPerPartitionMetrics parseNat "x,idle,gpu\n5,idle".toList = some nm :=
  ⟨(C14_returns_iff parseNat "x,idle,gpu\nnoise\n\n3,idle,gpu".toList).mpr (by decide),
    fun h => absurd ((C14_returns_iff parseNat "x,idle,gpu\n5,idle".toList).mp h) (by decide)⟩

/-- C19, as stated, fails: on the snapshot `p,1/2`, whose ratio field has two
components, `ParsePartitionsMetrics` panics (index out of range). -/
theorem C19_counterexample :
    ParsePartitionsMetrics parseNat "p,1/2".toList "".toList = none := by
  decide

/-- C19, amended: `ParsePartitionsMetrics` returns a result when every snapshot line
with a comma has a ratio field of four components at least (those after the fourth
are not read), every pending line with a comma has four fields at least and every
pending `Resources` line names a partition of the snapshot; and it panics when some
snapshot line with a comma has a ratio field of fewer than four components. -/
theorem C19_ratio_components {α : Type} [Add α] [Zero α] [One α] (pf : Str → α)
    (data pending : Str) :
    ((∀ l ∈ strings.Split '\n' data, strings.Contains l ',' = true →
        4 ≤ (strings.Split '/' (ratioField l)).length) →
      (∀ l ∈ strings.Split '\n' pending, strings.Contains l ',' = true →
        4 ≤ (fields l).length ∧
          (pendingReason l = some "Resources".toList →
            ∃ l0 ∈ strings.Split '\n' data, namesFirst (firstField l) l0 = true)) →
      ∃ m : GoMap (PartitionMetrics α), ParsePartitionsMetrics pf data pending = some m) ∧
    ((∃ l ∈ strings.Split '\n' data, strings.Contains l ',' = true ∧
        (strings.Split '/' (ratioField l)).length < 4) →
      ParsePartitionsMetrics pf data pending = none) := by
  constructor
  · intro hdata hpending
    rw [← Option.isSome_iff_exists, ParsePartitions_isSome, Bool.and_eq_true, List.all_eq_true,
      List.all_eq_true]
    constructor
    · intro l hl
      unfold snapshotOk
      cases hc : strings.Contains l ','
      · rfl
      · simp only [Bool.not_true, Bool.false_or, decide_eq_true_eq]
        exact hdata l hl hc
    · intro l hl
      unfold pendingOkText
      cases hc : strings.Contains l ','
      · rfl
      · obtain ⟨h4, hname⟩ := hpending l hl hc
        simp only [Bool.not_true, Bool.false_or, Bool.and_eq_true, decide_eq_true_eq,
          Bool.or_eq_true, List.any_eq_true, Bool.not_eq_true', beq_eq_false_iff_ne, ne_eq]
        refine ⟨h4, ?_⟩
        by_cases hr : pendingReason l = some "Resources".toList
        · exact Or.inr (hname hr)
        · exact Or.inl hr
  · rintro ⟨l, hl, hc, hlt⟩
    rw [← Option.not_isSome_iff_eq_none, ParsePartitions_isSome, Bool.and_eq_true,
      List.all_eq_true]
    intro h
    have := h.1 l hl
    unfold snapshotOk at this
    rw [hc] at this
    simp only [Bool.not_true, Bool.false_or, decide_eq_true_eq] at this
    omega

theorem C19_ratio_components_witness :
    (∃ m : GoMap (PartitionMetrics Nat), ParsePartitionsMetrics parseNat
        "p,1/2/3/4/5\nq,5/6/7/8".toList "q,4,Resources,(gpu)\nz,1,Priority,(a)".toList = some m) ∧
      ParsePartitionsMetrics parseNat "p,1/2/3\nq,5/6/7/8".toList "".toList = none :=
  ⟨(C19_ratio_components parseNat "p,1/2/3/4/5\nq,5/6/7/8".toList
      "q,4,Resources,(gpu)\nz,1,Priority,(a)".toList).1 (by decide) (by decide),
    (C19_ratio_components parseNat "p,1/2/3\nq,5/6/7/8".toList "".toList).2 (by decide)⟩

/-- C20: for lines with three fields at least, the text of the lines and the text of
any permutation of them have the same result, and there is one. -/
theorem C20_order_independent {α : Type} [Add α] [Zero α] (pf : Str → α) (L L' : List Str)
    (hperm : List.Perm L L') (hL : ∀ l ∈ L, '\n' ∉ l ∧ threeFields l) :
    ∃ nm, ParseNodesPerPartitionMetrics pf (joinLines L) = some nm ∧
      ParseNodesPerPartitionMetrics pf (joinLines L') = some nm := by
  have hL' : ∀ l ∈ L', '\n' ∉ l ∧ threeFields l := fun l hl => hL l (hperm.mem_iff.mpr hl)
  have hsame : ParseNodesPerPartitionMetrics pf (joinLines L') =
      ParseNodesPerPartitionMetrics pf (joinLines L) := by
    cases hLc : L with
    | nil =>
      rw [hLc] at hperm
      rw [List.nil_perm.mp hperm]
    | cons a rest =>
      have hne : L ≠ [] := by rw [hLc]; simp
      have hne' : L' ≠ [] := by
        intro e
        rw [e] at hperm
        exact hne (List.perm_nil.mp hperm)
      rw [← hLc]
      unfold ParseNodesPerPartitionMetrics
      rw [lines_uniq_joinLines L hne (fun l hl => (hL l hl).1),
        lines_uniq_joinLines L' hne' (fun l hl => (hL' l hl).1),
        uniqueLines_congr L' L (fun x => hperm.mem_iff.symm)]
  obtain ⟨nm, hnm⟩ := Parse_isSome pf (joinLines L) (by
    intro l hl hc
    cases hLc : L with
    | nil =>
      rw [hLc, Split_joinLines_nil] at hl
      simp only [List.mem_singleton] at hl
      subst hl
      simp [strings.Contains] at hc
    | cons a rest =>
      have hne : L ≠ [] := by rw [hLc]; simp
      rw [Split_joinLines L hne (fun l hl => (hL l hl).1)] at hl
      exact (hL l hl).2)
  exact ⟨nm, hnm, hsame.trans hnm⟩

theorem C20_order_independent_witness :
    ∃ nm, ParseNodesPerPartitionMetrics parseNat
        (joinLines ["4,idle,gpu*".toList, "2,alloc,gpu".toList, "1,mix,cpu".toList]) = some nm ∧
      ParseNodesPerPartitionMetrics parseNat
        (joinLines ["1,mix,cpu".toList, "4,idle,gpu*".toList, "2,alloc,gpu".toList]) = some nm :=
  C20_order_independent parseNat
    ["4,idle,gpu*".toList, "2,alloc,gpu".toList, "1,mix,cpu".toList]
    ["1,mix,cpu".toList, "4,idle,gpu*".toList, "2,alloc,gpu".toList]
    (by decide) (by decide)

theorem nodesLoop_filter {α : Type} [Add α] [Zero α] (pf : Str → α)
    (nm : NodesPerPartitionMetrics α) (ls : List Str) :
    nodesLoop pf nm ls = nodesLoop pf nm (ls.filter (fun l => strings.Contains l ',')) := by
  induction ls generalizing nm with
  | nil => rfl
  | cons l rest ih =>
    rw [List.filter_cons]
    cases hc : strings.Contains l ','
    · simp only [Bool.false_eq_true, if_false]
      rw [nodesLoop, nodesLine_of_not_Contains pf nm l hc]
      exact ih nm
    · simp only [if_true]
      rw [nodesLoop, nodesLoop]
      cases nodesLine pf nm l with
      | none => rfl
      | some nm1 => exact ih nm1

theorem snapshotLoop_insert {α : Type} [Zero α] (pf : Str → α)
    (m : GoMap (PartitionMetrics α)) (pre post : List Str) (l : Str)
    (hc : strings.Contains l ',' = false) :
    snapshotLoop pf m (pre ++ l :: post) = snapshotLoop pf m (pre ++ post) := by
  rw [snapshotLoop_append, snapshotLoop_append]
  cases snapshotLoop pf m pre with
  | none => rfl
  | some m1 =>
    simp only [Option.some_bind]
    rw [snapshotLoop, snapshotLine_of_not_Contains pf m1 l hc]

theorem pendingLoop_insert {α : Type} [Add α] [One α] (pf : Str → α)
    (m : GoMap (PartitionMetrics α)) (pre post : List Str) (l : Str)
    (hc : strings.Contains l ',' = false) :
    pendingLoop pf m (pre ++ l :: post) = pendingLoop pf m (pre ++ post) := by
  rw [pendingLoop_append, pendingLoop_append]
  cases pendingLoop pf m pre with
  | none => rfl
  | some m1 =>
    simp only [Option.some_bind]
    rw [pendingLoop, pendingLine_of_not_Contains pf m1 l hc]

/-- C15: a line without a comma, inserted at any position, changes the outcome of
neither parser: not that of `ParseNodesPerPartitionMetrics`, and not that of
`ParsePartitionsMetrics`, be it inserted in the CPU snapshot or in the pending text. -/
theorem C15_noise_lines {α : Type} [Add α] [Zero α] [One α] (pf : Str → α)
    (pre post : List Str) (l : Str) (hc : strings.Contains l ',' = false) :
    (∀ text text' : Str, strings.Split '\n' text = pre ++ post →
      strings.Split '\n' text' = pre ++ l :: post →
      ParseNodesPerPartitionMetrics pf text' = ParseNodesPerPartitionMetrics pf text) ∧
    (∀ data data' pending : Str, strings.Split '\n' data = pre ++ post →
      strings.Split '\n' data' = pre ++ l :: post →
      ParsePartitionsMetrics pf data' pending = ParsePartitionsMetrics pf data pending) ∧
    (∀ data pending pending' : Str, strings.Split '\n' pending = pre ++ post →
      strings.Split '\n' pending' = pre ++ l :: post →
      ParsePartitionsMetrics pf data pending' = ParsePartitionsMetrics pf data pending) := by
  refine ⟨?_, ?_, ?_⟩
  · intro text text' hl hl'
    unfold ParseNodesPerPartitionMetrics
    rw [nodesLoop_filter pf _ (lines_uniq text'), nodesLoop_filter pf _ (lines_uniq text),
      lines_uniq_eq, lines_uniq_eq, hl, hl',
      filter_uniqueLines_congr _ (pre ++ l :: post) (pre ++ post)]
    intro x
    simp only [List.mem_append, List.mem_cons]
    constructor
    · rintro ⟨hx | hx | hx, hcx⟩
      · exact ⟨Or.inl hx, hcx⟩
      · subst hx
        rw [hc] at hcx
        cases hcx
      · exact ⟨Or.inr hx, hcx⟩
    · rintro ⟨hx | hx, hcx⟩
      · exact ⟨Or.inl hx, hcx⟩
      · exact ⟨Or.inr (Or.inr hx), hcx⟩
  · intro data data' pending hl hl'
    unfold ParsePartitionsMetrics
    rw [hl, hl', snapshotLoop_insert pf [] pre post l hc]
  · intro data pending pending' hl hl'
    unfold ParsePartitionsMetrics
    rw [hl, hl']
    cases snapshotLoop pf [] (strings.Split '\n' data) with
    | none => rfl
    | some m0 => exact pendingLoop_insert pf m0 pre post l hc

theorem C15_noise_lines_witness :
    ParseNodesPerPartitionMetrics parseNat "4,idle,gpu\nPARTITION STATE\n2,mix,gpu".toList =
        ParseNodesPerPartitionMetrics parseNat "4,idle,gpu\n2,mix,gpu".toList ∧
      ParsePartitionsMetrics parseNat "p,1/2/3/4\nPARTITION STATE\nq,5/6/7/8".toList
          "q,4,Resources,(gpu)".toList =
        ParsePartitionsMetrics parseNat "p,1/2/3/4\nq,5/6/7/8".toList
          "q,4,Resources,(gpu)".toList ∧
      ParsePartitionsMetrics parseNat "p,1/2/3/4\nq,5/6/7/8".toList
          "\nq,4,Resources,(gpu)".toList =
        ParsePartitionsMetrics parseNat "p,1/2/3/4\nq,5/6/7/8".toList
          "q,4,Resources,(gpu)".toList :=
  ⟨(C15_noise_lines parseNat ["4,idle,gpu".toList] ["2,mix,gpu".toList]
      "PARTITION STATE".toList (by decide)).1 _ _ (by decide) (by decide),
    (C15_noise_lines parseNat ["p,1/2/3/4".toList] ["q,5/6/7/8".toList]
      "PARTITION STATE".toList (by decide)).2.1 _ _ _ (by decide) (by decide),
    (C15_noise_lines parseNat [] ["q,4,Resources,(gpu)".toList]
      "".toList (by decide)).2.2 _ _ _ (by decide) (by decide)⟩

theorem uniqueLines_singleton (l : Str) : uniqueLines [l] = [l] := rfl

theorem uniqueLines_pair_self (l : Str) : uniqueLines [l, l] = [l] :=
  (uniqueLines_congr [l, l] [l] (fun x => by simp)).trans (uniqueLines_singleton l)

theorem uniqueLines_pair_perm (l1 l2 : Str) (hne : l1 ≠ l2) :
    List.Perm (uniqueLines [l1, l2]) [l1, l2] := by
  rw [List.perm_ext_iff_of_nodup (uniqueLines_nodup _) (by simp [hne])]
  intro x
  exact mem_uniqueLines x _

/-- C18: of two lines that differ as texts both are counted, whatever they parse to:
the count of a category for a partition, in the result for the two lines, is the sum of
what each line contributes; a line that occurs twice is counted once. -/
theorem C18_dedup_raw_text {α : Type} [AddCommMonoid α] (pf : Str → α) (l1 l2 : Str)
    (h1 : '\n' ∉ l1 ∧ threeFields l1) (h2 : '\n' ∉ l2 ∧ threeFields l2) :
    (l1 ≠ l2 → ∃ nm, ParseNodesPerPartitionMetrics pf (joinLines [l1, l2]) = some nm ∧
      ∀ (c : Category) (q : Str),
        countOf nm c q = contribution pf c q l1 + contribution pf c q l2) ∧
    (∃ nm, ParseNodesPerPartitionMetrics pf (joinLines [l1, l1]) = some nm ∧
      ∀ (c : Category) (q : Str), countOf nm c q = contribution pf c q l1) := by
  have hsplit : ∀ a b : Str, '\n' ∉ a → '\n' ∉ b →
      strings.Split '\n' (joinLines [a, b]) = [a, b] := by
    intro a b ha hb
    apply Split_joinLines _ (by simp)
    intro l hl
    simp only [List.mem_cons, List.mem_singleton, List.not_mem_nil, or_false] at hl
    rcases hl with e | e <;> subst e <;> assumption
  have hsome : ∀ a b : Str, '\n' ∉ a ∧ threeFields a → '\n' ∉ b ∧ threeFields b →
      ∃ nm, ParseNodesPerPartitionMetrics pf (joinLines [a, b]) = some nm := by
    intro a b ha hb
    apply Parse_isSome
    intro l hl _
    rw [hsplit a b ha.1 hb.1] at hl
    simp only [List.mem_cons, List.mem_singleton, List.not_mem_nil, or_false] at hl
    rcases hl with e | e
    · subst e; exact ha.2
    · subst e; exact hb.2
  constructor
  · intro hne
    obtain ⟨nm, hnm⟩ := hsome l1 l2 h1 h2
    refine ⟨nm, hnm, ?_⟩
    intro c q
    rw [countOf_eq_total pf _ nm hnm c q, lines_uniq_eq, hsplit l1 l2 h1.1 h2.1]
    unfold total
    rw [((uniqueLines_pair_perm l1 l2 hne).map _).sum_eq]
    simp
  · obtain ⟨nm, hnm⟩ := hsome l1 l1 h1 h1
    refine ⟨nm, hnm, ?_⟩
    intro c q
    rw [countOf_eq_total pf _ nm hnm c q, lines_uniq_eq, hsplit l1 l1 h1.1 h1.1,
      uniqueLines_pair_self]
    simp [total]

theorem C18_dedup_raw_text_witness :
    (∃ nm, ParseNodesPerPartitionMetrics parseNat
        (joinLines ["1,idle,gpu".toList, "1,idle,gpu*".toList]) = some nm ∧
      ∀ (c : Category) (q : Str), countOf nm c q =
        contribution parseNat c q "1,idle,gpu".toList +
          contribution parseNat c q "1,idle,gpu*".toList) ∧
      contribution parseNat Category.idle "gpu".toList "1,idle,gpu".toList +
          contribution parseNat Category.idle "gpu".toList "1,idle,gpu*".toList = 2 ∧
      (ParseNodesPerPartitionMetrics parseNat "1,idle,gpu\n 1,idle,gpu".toList).map
          (fun nm => countOf nm Category.idle "gpu".toList) = some 2 ∧
      (ParseNodesPerPartitionMetrics parseNat "1,idle,gpu\n1,idle,gpu".toList).map
          (fun nm => countOf nm Category.idle "gpu".toList) = some 1 :=
  ⟨(C18_dedup_raw_text parseNat "1,idle,gpu".toList "1,idle,gpu*".toList (by decide)
      (by decide)).1 (by decide), by decide, by decide, by decide⟩

theorem total_filter_ne {α : Type} [AddMonoid α] (pf : Str → α) (c : Category) (q : Str)
    (line : Str) (h0 : contribution pf c q line = 0) (ls : List Str) :
    total pf c q ls = total pf c q (ls.filter (fun x => decide (x ≠ line))) := by
  induction ls with
  | nil => rfl
  | cons l rest ih =>
    rw [List.filter_cons]
    by_cases hl : l = line
    · subst hl
      simp only [ne_eq, not_true_eq_false, decide_False, Bool.false_eq_true, if_false]
      rw [total_cons, h0, zero_add, ih]
    · simp only [ne_eq, hl, not_false_eq_true, decide_True, if_true]
      rw [total_cons, total_cons, ih]

/-- The values of the last snapshot record of a partition are those of the result. -/
theorem find_Parse_snapshotRecord {α : Type} [AddMonoidWithOne α] (pf : Str → α)
    (data pending : Str) (pre post : List Str) (p a i o t : Str)
    (hp : ',' ∉ p) (ha : ',' ∉ a ∧ '/' ∉ a) (hi : ',' ∉ i ∧ '/' ∉ i)
    (ho : ',' ∉ o ∧ '/' ∉ o) (ht : ',' ∉ t ∧ '/' ∉ t)
    (hl : strings.Split '\n' data = pre ++ snapshotRecord p a i o t :: post)
    (hlast : ∀ l ∈ post, namesFirst p l = false)
    (m : GoMap (PartitionMetrics α)) (h : ParsePartitionsMetrics pf data pending = some m) :
    ∃ pm, GoMap.find m p = some pm ∧ pm.allocated = pf a ∧ pm.idle = pf i ∧
      pm.other = pf o ∧ pm.total = pf t := by
  obtain ⟨m0, hs, hpend⟩ := Parse_phases pf data pending m h
  rw [hl, snapshotLoop_append] at hs
  cases h1 : snapshotLoop pf [] pre with
  | none => rw [h1] at hs; cases hs
  | some m1 =>
    rw [h1] at hs
    simp only [Option.some_bind, snapshotLoop] at hs
    cases h2 : snapshotLine pf m1 (snapshotRecord p a i o t) with
    | none => rw [h2] at hs; cases hs
    | some m2 =>
      rw [h2] at hs
      simp only at hs
      obtain ⟨m2', e1, e2, _⟩ := snapshotLine_of_fields pf m1 (snapshotRecord p a i o t) p _ []
        (fields_snapshotRecord p a i o t hp ha.1 hi.1 ho.1 ht.1) a i o t []
        (Split_states a i o t ha.2 hi.2 ho.2 ht.2)
      rw [h2] at e1
      cases e1
      have h3 := find_snapshotLoop_other pf post m2 m0 hs p hlast
      rw [e2] at h3
      obtain ⟨pm, hpm, hacc⟩ := find_pendingLoop pf _ m0 m hpend p _ h3
      obtain ⟨c1, c2, c3, c4, _, _⟩ := hacc
      exact ⟨pm, hpm, c1, c2, c3, c4⟩

/-- A `Resources` record of a partition of the snapshot, added to a pending text that
has a result: the pending count is one higher and every feature of the record has
grown by the requested CPUs, once for each of its occurrences in the record. -/
theorem resources_line_inserted {α : Type} [AddCommMonoidWithOne α] (pf : Str → α)
    (data pending pending' : Str) (pre post : List Str) (line P cpus f : Str)
    (rest : List Str)
    (hf : fields line = P :: cpus :: "Resources".toList :: f :: rest)
    (hpres : ∃ l ∈ strings.Split '\n' data, namesFirst P l = true)
    (hl : strings.Split '\n' pending = pre ++ post)
    (hl' : strings.Split '\n' pending' = pre ++ line :: post)
    (m : GoMap (PartitionMetrics α)) (h : ParsePartitionsMetrics pf data pending = some m) :
    ∃ m' pm pm', ParsePartitionsMetrics pf data pending' = some m' ∧
      GoMap.find m P = some pm ∧ GoMap.find m' P = some pm' ∧
      pm'.pending = pm.pending + 1 ∧
      (∀ g, GoMap.find pm'.resources g =
        if g ∈ pendingFeatures line then
          some ((GoMap.find pm.resources g).getD 0 +
            (List.replicate ((pendingFeatures line).count g) (pf cpus)).sum)
        else GoMap.find pm.resources g) ∧
      pm'.allocated = pm.allocated ∧ pm'.idle = pm.idle ∧ pm'.other = pm.other ∧
      pm'.total = pm.total := by
  have hc : strings.Contains line ',' = true := Contains_of_fields line P cpus _ hf
  have hfirst : firstField line = P := by simp [firstField, hf]
  have hcpus : requestedCpus pf line = pf cpus := by simp [requestedCpus, hf]
  have hreason : pendingReason line = some "Resources".toList := by
    unfold pendingReason
    rw [hf]
    rfl
  have h4 : 4 ≤ (fields line).length := by rw [hf]; simp
  obtain ⟨m0, hs, hpend⟩ := Parse_phases pf data pending m h
  have hkey := isSome_find_snapshotLoop pf _ [] m0 hs P
  rw [List.any_eq_true.mpr hpres, Bool.true_or] at hkey
  obtain ⟨pm0, hpm0⟩ := Option.isSome_iff_exists.mp hkey
  have hnames : namesFirst P line = true := by
    simp [namesFirst, hc, hfirst]
  have hresl : resourcesLine P line = true := by
    unfold resourcesLine
    rw [hnames, hreason]
    rfl
  have hok : pendingOk m0 line = true := by
    unfold pendingOk
    rw [hc, hfirst, hpm0]
    simp [h4]
  have hsome : (pendingLoop pf m0 (pre ++ line :: post)).isSome = true := by
    have h1 := pendingLoop_isSome pf m0 (pre ++ post)
    rw [← hl, hpend] at h1
    rw [pendingLoop_isSome]
    simp only [Option.isSome_some, hl, List.all_append, List.all_cons] at h1 ⊢
    have h2 := h1.symm
    simp only [Bool.and_eq_true] at h2 ⊢
    exact ⟨h2.1, hok, h2.2⟩
  obtain ⟨m', hm'⟩ := Option.isSome_iff_exists.mp hsome
  rw [hl] at hpend
  obtain ⟨pm, hpm, a1, a2, a3, a4, a5, a6⟩ := find_pendingLoop pf _ m0 m hpend P pm0 hpm0
  obtain ⟨pm', hpm', b1, b2, b3, b4, b5, b6⟩ := find_pendingLoop pf _ m0 m' hm' P pm0 hpm0
  have hparse : ParsePartitionsMetrics pf data pending' = some m' := by
    unfold ParsePartitionsMetrics
    rw [hs, hl']
    exact hm'
  have hgetD : ∀ g, (GoMap.find pm.resources g).getD 0 =
      (GoMap.find pm0.resources g).getD 0 + resTotal pf P g (pre ++ post) := by
    intro g
    rw [a6 g]
    by_cases hany : (pre ++ post).any (resTouched P g) = true
    · rw [if_pos hany]; rfl
    · rw [if_neg hany, resTotal_of_not_touched pf P g _ (by simpa using hany), add_zero]
  have hany' : ∀ g, (pre ++ line :: post).any (resTouched P g) =
      (decide (g ∈ pendingFeatures line) || (pre ++ post).any (resTouched P g)) := by
    intro g
    have ht : resTouched P g line = decide (g ∈ pendingFeatures line) := by
      unfold resTouched
      rw [hresl, Bool.true_and]
    simp only [List.any_append, List.any_cons, ht]
    cases pre.any (resTouched P g) <;> cases decide (g ∈ pendingFeatures line) <;>
      cases post.any (resTouched P g) <;> rfl
  have htot' : ∀ g, resTotal pf P g (pre ++ line :: post) =
      resTotal pf P g (pre ++ post) +
        (List.replicate ((pendingFeatures line).count g) (pf cpus)).sum := by
    intro g
    have hcon : resContribution pf P g line =
        (List.replicate ((pendingFeatures line).count g) (pf cpus)).sum := by
      unfold resContribution
      rw [if_pos hresl, hcpus]
    rw [resTotal_append, resTotal_cons, resTotal_append, hcon]
    abel
  refine ⟨m', pm, pm', hparse, hpm, hpm', ?_, ?_, b1.trans a1.symm, b2.trans a2.symm,
    b3.trans a3.symm, b4.trans a4.symm⟩
  · rw [b5, a5, pendingCount_insert P pre post _ hnames, Nat.cast_succ, add_assoc]
  · intro g
    by_cases hg : g ∈ pendingFeatures line
    · rw [if_pos hg, b6 g, hany' g, decide_eq_true hg, Bool.true_or, if_pos rfl, htot' g,
        hgetD g, add_assoc]
    · have hc0 : (pendingFeatures line).count g = 0 := List.count_eq_zero_of_not_mem hg
      rw [if_neg hg, b6 g, a6 g, hany' g, decide_eq_false hg, Bool.false_or, htot' g, hc0]
      simp

theorem parseNat_of_not_isNumeral (s : Str) (h : ¬ isNumeral s) : parseNat s = 0 := by
  unfold parseNat
  exact if_neg h

theorem sum_replicate_zero {α : Type} [AddMonoid α] (k : Nat) :
    (List.replicate k (0 : α)).sum = 0 := by
  induction k with
  | zero => rfl
  | succ n ih => simp [List.replicate_succ, ih]

/-- C16: let `parseFloat` give 0 for every text that is not a number (the value Go
returns with the syntax error the parsers discard). A node-state line `x,s,p` with such
an `x`, added to a text that has a result, gives a text that has a result, in which `p`
is a key of all ten maps and every count is what it was (0 was added). A snapshot
line `p,a/i/o/t` gives `p` the four values of its components, 0 for each component
that is not a number, whatever the other three are. A `Resources` line `P,x,...` with
such an `x`, for a partition of the snapshot, raises the pending count by one and
leaves every feature it names a key with the value it had (0 was added), 0 when it was
not a key. -/
theorem C16_not_a_number {α : Type} [AddCommMonoidWithOne α] (pf : Str → α)
    (numeric : Str → Prop) (hpf : ∀ s : Str, ¬ numeric s → pf s = 0) :
    (∀ (text text' : Str) (pre post : List Str) (line x s p : Str) (rest : List Str)
        (nm : NodesPerPartitionMetrics α),
      strings.Split '\n' text = pre ++ post →
      strings.Split '\n' text' = pre ++ line :: post →
      fields line = x :: s :: p :: rest →
      ¬ numeric (strings.TrimSpace x) →
      ParseNodesPerPartitionMetrics pf text = some nm →
      ∃ nm', ParseNodesPerPartitionMetrics pf text' = some nm' ∧
        (∀ c : Category, ∃ v, GoMap.find (c.field nm') (strings.TrimSuffix p '*') = some v) ∧
        ∀ (c : Category) (q : Str), countOf nm' c q = countOf nm c q) ∧
    (∀ (data pending : Str) (pre post : List Str) (p a i o t : Str)
        (m : GoMap (PartitionMetrics α)),
      ',' ∉ p → (',' ∉ a ∧ '/' ∉ a) → (',' ∉ i ∧ '/' ∉ i) → (',' ∉ o ∧ '/' ∉ o) →
      (',' ∉ t ∧ '/' ∉ t) →
      strings.Split '\n' data = pre ++ snapshotRecord p a i o t :: post →
      (∀ l ∈ post, namesFirst p l = false) →
      ParsePartitionsMetrics pf data pending = some m →
      ∃ pm, GoMap.find m p = some pm ∧
        pm.allocated = pf a ∧ pm.idle = pf i ∧ pm.other = pf o ∧ pm.total = pf t ∧
        (¬ numeric a → pm.allocated = 0) ∧ (¬ numeric i → pm.idle = 0) ∧
        (¬ numeric o → pm.other = 0) ∧ (¬ numeric t → pm.total = 0)) ∧
    (∀ (data pending pending' : Str) (pre post : List Str) (line P x f : Str)
        (rest : List Str) (m : GoMap (PartitionMetrics α)),
      strings.Split '\n' pending = pre ++ post →
      strings.Split '\n' pending' = pre ++ line :: post →
      fields line = P :: x :: "Resources".toList :: f :: rest →
      ¬ numeric x →
      (∃ l ∈ strings.Split '\n' data, namesFirst P l = true) →
      ParsePartitionsMetrics pf data pending = some m →
      ∃ m' pm pm', ParsePartitionsMetrics pf data pending' = some m' ∧
        GoMap.find m P = some pm ∧ GoMap.find m' P = some pm' ∧
        pm'.pending = pm.pending + 1 ∧
        (∀ g ∈ pendingFeatures line,
          GoMap.find pm'.resources g = some ((GoMap.find pm.resources g).getD 0)) ∧
        (∀ g, g ∉ pendingFeatures line →
          GoMap.find pm'.resources g = GoMap.find pm.resources g)) := by
  refine ⟨?_, ?_, ?_⟩
  · intro text text' pre post line x s p rest nm hl hl' hf hx h
    have hcount : lineCount pf line = 0 := by
      simp only [lineCount, hf, List.headD_cons]
      exact hpf _ hx
    have hcon : ∀ (c : Category) (q : Str), contribution pf c q line = 0 := by
      intro c q
      unfold contribution
      split_ifs
      · exact hcount
      · rfl
    have hshort : shortRecord line = false := by
      simp [shortRecord, hf]
    have hsome : (ParseNodesPerPartitionMetrics pf text').isSome = true := by
      have h1 := Parse_isSome_iff pf text
      rw [h, hl] at h1
      rw [Parse_isSome_iff, hl']
      simp only [Option.isSome_some, List.all_append, List.all_cons] at h1 ⊢
      have h2 := h1.symm
      simp only [Bool.and_eq_true] at h2 ⊢
      exact ⟨h2.1, by simp [hshort], h2.2⟩
    obtain ⟨nm', hnm'⟩ := Option.isSome_iff_exists.mp hsome
    have htot : ∀ (c : Category) (q : Str),
        total pf c q (lines_uniq text') = total pf c q (lines_uniq text) := by
      intro c q
      rw [total_filter_ne pf c q line (hcon c q) (lines_uniq text'),
        total_filter_ne pf c q line (hcon c q) (lines_uniq text),
        lines_uniq_eq, lines_uniq_eq, hl, hl',
        filter_uniqueLines_congr _ (pre ++ line :: post) (pre ++ post)]
      intro y
      simp only [List.mem_append, List.mem_cons, decide_eq_true_eq]
      constructor
      · rintro ⟨hy | hy | hy, hne⟩
        · exact ⟨Or.inl hy, hne⟩
        · exact absurd hy hne
        · exact ⟨Or.inr hy, hne⟩
      · rintro ⟨hy | hy, hne⟩
        · exact ⟨Or.inl hy, hne⟩
        · exact ⟨Or.inr (Or.inr hy), hne⟩
    refine ⟨nm', hnm', ?_, ?_⟩
    · intro c
      rw [← Option.isSome_iff_exists, isSome_find_Parse pf text' nm' hnm' c _, hl']
      refine ⟨line, by simp, Contains_of_fields line x s _ hf, ?_⟩
      simp [linePartition, hf]
    · intro c q
      rw [countOf_eq_total pf text' nm' hnm', countOf_eq_total pf text nm h, htot]
  · intro data pending pre post p a i o t m hp ha hi ho ht hl hlast h
    obtain ⟨pm, hpm, c1, c2, c3, c4⟩ :=
      find_Parse_snapshotRecord pf data pending pre post p a i o t hp ha hi ho ht hl hlast m h
    exact ⟨pm, hpm, c1, c2, c3, c4, fun hn => c1.trans (hpf a hn), fun hn => c2.trans (hpf i hn),
      fun hn => c3.trans (hpf o hn), fun hn => c4.trans (hpf t hn)⟩
  · intro data pending pending' pre post line P x f rest m hl hl' hf hx hpres h
    obtain ⟨m', pm, pm', e1, e2, e3, e4, e5, _⟩ :=
      resources_line_inserted pf data pending pending' pre post line P x f rest hf hpres hl hl'
        m h
    refine ⟨m', pm, pm', e1, e2, e3, e4, ?_, ?_⟩
    · intro g hg
      rw [e5 g, if_pos hg, hpf x hx, sum_replicate_zero, add_zero]
    · intro g hg
      rw [e5 g, if_neg hg]

theorem C16_not_a_number_witness :
    (∃ nm', ParseNodesPerPartitionMetrics parseNat
        "4,idle,gpu*\n2,alloc,gpu\n4,idle,gpu*\n3,unknown,gpu\nx,idle,cpu".toList = some nm' ∧
        (∀ c : Category, ∃ v,
          GoMap.find (c.field nm') (strings.TrimSuffix "cpu".toList '*') = some v) ∧
        ∀ (c : Category) (q : Str), countOf nm' c q = countOf sinfoResult c q) ∧
      (∃ pm, GoMap.find twoPartitions "p".toList = some pm ∧
        pm.allocated = parseNat "1".toList ∧ pm.idle = parseNat "2".toList ∧
        pm.other = parseNat "3".toList ∧ pm.total = parseNat "4".toList ∧
        (¬ isNumeral "1".toList → pm.allocated = 0) ∧ (¬ isNumeral "2".toList → pm.idle = 0) ∧
        (¬ isNumeral "3".toList → pm.other = 0) ∧ (¬ isNumeral "4".toList → pm.total = 0)) ∧
      (ParsePartitionsMetrics parseNat "p,n/a/3/4".toList "".toList).map
          (fun m => (GoMap.find m "p".toList).map
            (fun pm => (pm.allocated, pm.idle, pm.other, pm.total))) =
        some (some (0, 0, 3, 4)) ∧
      ∃ m' pm pm', ParsePartitionsMetrics parseNat "p,1/2/3/4\nq,5/6/7/8".toList
          "q,4,Resources,(gpu)\nq,n/a,Resources,(gpu,a100)".toList = some m' ∧
        GoMap.find twoPartitions "q".toList = some pm ∧ GoMap.find m' "q".toList = some pm' ∧
        pm'.pending = pm.pending + 1 ∧
        (∀ g ∈ pendingFeatures "q,n/a,Resources,(gpu,a100)".toList,
          GoMap.find pm'.resources g = some ((GoMap.find pm.resources g).getD 0)) ∧
        (∀ g, g ∉ pendingFeatures "q,n/a,Resources,(gpu,a100)".toList →
          GoMap.find pm'.resources g = GoMap.find pm.resources g) :=
  ⟨(C16_not_a_number parseNat isNumeral parseNat_of_not_isNumeral).1 sinfoText _
      (strings.Split '\n' sinfoText) [] "x,idle,cpu".toList "x".toList "idle".toList
      "cpu".toList [] sinfoResult (by decide) (by decide) (by decide)
      (by unfold isNumeral; decide) sinfoText_result,
    (C16_not_a_number parseNat isNumeral parseNat_of_not_isNumeral).2.1
      "p,1/2/3/4\nq,5/6/7/8".toList "q,4,Resources,(gpu)".toList [] ["q,5/6/7/8".toList]
      "p".toList "1".toList "2".toList "3".toList "4".toList twoPartitions
      (by decide) (by decide) (by decide) (by decide) (by decide) (by decide) (by decide)
      twoPartitions_result,
    by decide,
    (C16_not_a_number parseNat isNumeral parseNat_of_not_isNumeral).2.2
      "p,1/2/3/4\nq,5/6/7/8".toList "q,4,Resources,(gpu)".toList _
      ["q,4,Resources,(gpu)".toList] [] "q,n/a,Resources,(gpu,a100)".toList "q".toList
      "n/a".toList "(gpu".toList ["a100)".toList] twoPartitions
      (by decide) (by decide) (by decide) (by unfold isNumeral; decide) (by decide)
      twoPartitions_result⟩

theorem mem_collectPartition_resources {α : Type} [Zero α] [LT α]
    [DecidableRel (fun a b : α => a < b)] (p : Str) (pm : PartitionMetrics α)
    (v : α) (p' f : Str) :
    ({ desc := Desc.resources, value := v, labelValues := [p', f] } : Metric α) ∈
        collectPartition p pm ↔
      p' = p ∧ GoMap.find pm.resources f = some v := by
  unfold collectPartition
  simp only [List.mem_append, List.mem_map]
  constructor
  · rintro (((((h | h) | h) | h) | h) | ⟨g, hg, he⟩)
    · split_ifs at h <;> simp at h
    · split_ifs at h <;> simp at h
    · split_ifs at h <;> simp at h
    · split_ifs at h <;> simp at h
    · split_ifs at h <;> simp at h
    · simp only [Metric.mk.injEq, true_and, List.cons.injEq, and_true] at he
      obtain ⟨hv, hp, hf⟩ := he
      subst hf
      refine ⟨hp.symm, ?_⟩
      rw [GoMap.mem_keys_iff] at hg
      obtain ⟨w, hw⟩ := Option.isSome_iff_exists.mp hg
      rw [hw] at hv ⊢
      simpa using hv
  · rintro ⟨hp, hf⟩
    refine Or.inr ⟨f, ?_, ?_⟩
    · rw [GoMap.mem_keys_iff, hf]
      rfl
    · rw [hf, hp]
      rfl

theorem find_of_mem_keys {β : Type} (m : GoMap β) (k : Str) (h : k ∈ GoMap.keys m) :
    ∃ v, GoMap.find m k = some v :=
  Option.isSome_iff_exists.mp ((GoMap.mem_keys_iff m k).mp h)

theorem mem_collectMetrics_resources {α : Type} [Zero α] [LT α]
    [DecidableRel (fun a b : α => a < b)] (m : GoMap (PartitionMetrics α))
    (v : α) (p f : Str) :
    ({ desc := Desc.resources, value := v, labelValues := [p, f] } : Metric α) ∈
        collectMetrics m ↔
      ∃ pm, GoMap.find m p = some pm ∧ GoMap.find pm.resources f = some v := by
  unfold collectMetrics
  rw [List.mem_flatMap]
  constructor
  · rintro ⟨q, hq, hmem⟩
    cases hfq : GoMap.find m q with
    | none => rw [hfq] at hmem; cases hmem
    | some rec =>
      rw [hfq] at hmem
      obtain ⟨hp, hf⟩ := (mem_collectPartition_resources q rec v p f).mp hmem
      subst hp
      exact ⟨rec, hfq, hf⟩
  · rintro ⟨pm, hpm, hf⟩
    refine ⟨p, ?_, ?_⟩
    · rw [GoMap.mem_keys_iff, hpm]
      rfl
    · rw [hpm]
      exact (mem_collectPartition_resources p pm v p f).mpr ⟨rfl, hf⟩

theorem find_null (α : Type) [Zero α] (f : Str) :
    GoMap.find ([("null".toList, (0 : α))] : GoMap α) f =
      if "null".toList = f then some 0 else none := by
  simp [GoMap.find]

/-- C17, as stated, fails: for the snapshot `p,1/2/3/4` and an empty pending text,
`Collect` sends one metric of the pending-resources family, for the pair
(`p`, `null`) that no pending line names, and its value is 0. -/
theorem C17_counterexample :
    (PartitionsCollector.Collect parseNat "p,1/2/3/4".toList "".toList).map
        (fun obs => obs.filter (fun x => decide (x.desc = Desc.resources))) =
      some [{ desc := Desc.resources, value := 0, labelValues := ["p".toList, "null".toList] }] := by
  decide

theorem accumulate_nil {α : Type} [Add α] (v : α) : accumulate v [] = v := rfl

theorem accumulate_cons {α : Type} [Add α] (v c : α) (cs : List α) :
    accumulate v (c :: cs) = accumulate (v + c) cs := rfl

theorem accumulate_append {α : Type} [Add α] (v : α) (cs ds : List α) :
    accumulate v (cs ++ ds) = accumulate (accumulate v cs) ds := by
  simp [accumulate]

theorem counted_of_not_named (c : Category) (q : Str) (ls : List Str)
    (h : ls.any (names q) = false) : counted c q ls = [] := by
  unfold counted
  rw [List.filter_eq_nil_iff]
  intro l hl
  have := List.any_eq_false.mp h l hl
  simp [this]

theorem counted_cons (c : Category) (q : Str) (l : Str) (ls : List Str) :
    counted c q (l :: ls) =
      if names q l = true ∧ lineCategory l = some c then l :: counted c q ls
      else counted c q ls := by
  unfold counted
  rw [List.filter_cons]
  by_cases h1 : names q l = true
  · by_cases h2 : lineCategory l = some c
    · simp [h1, h2]
    · simp [h1, h2]
  · simp [h1]

/-- The lookups after the loop, from the lookups before it and the lines, with the
additions in the order of the loop. -/
theorem find_nodesLoop_ordered {α : Type} [Add α] [Zero α] (pf : Str → α) (ls : List Str)
    (nm0 nm : NodesPerPartitionMetrics α) (hk : SameKeys nm0)
    (h : nodesLoop pf nm0 ls = some nm) (c : Category) (q : Str) :
    GoMap.find (c.field nm) q =
      if ls.any (names q) = true then
        some (accumulate ((GoMap.find (c.field nm0) q).getD 0)
          ((counted c q ls).map (lineCount pf)))
      else GoMap.find (c.field nm0) q := by
  induction ls generalizing nm0 with
  | nil =>
    simp only [nodesLoop, Option.some.injEq] at h
    subst h
    simp
  | cons l rest ih =>
    rw [nodesLoop] at h
    cases hl : nodesLine pf nm0 l with
    | none => rw [hl] at h; cases h
    | some nm1 =>
      rw [hl] at h
      simp only at h
      have hk1 := SameKeys_nodesLine pf nm0 nm1 hk l hl
      rw [ih nm1 hk1 h, counted_cons, List.any_cons]
      by_cases hc : strings.Contains l ',' = true
      · by_cases hs : (fields l).length < 3
        · rw [nodesLine_of_short pf nm0 l hc hs] at hl
          cases hl
        · obtain ⟨f0, st, pt, rest', hf⟩ := exists_fields_of_not_short l hs
          obtain ⟨nm1', h1, h2⟩ := find_nodesLine pf nm0 hk l f0 st pt rest' hf
          rw [hl] at h1
          cases h1
          rw [h2 c q]
          have hn := names_of_fields l f0 st pt rest' hf q
          have hcat : lineCategory l = classify st := by simp [lineCategory, lineState, hf]
          have hcount : lineCount pf l = pf (strings.TrimSpace f0) := by simp [lineCount, hf]
          rw [hcat]
          by_cases hq : strings.TrimSuffix pt '*' = q
          · have hn1 : names q l = true := hn.mpr hq
            simp only [hq, hn1, if_true, Bool.true_or, true_and, Option.getD_some]
            by_cases hr : rest.any (names q) = true
            · simp only [hr, if_true]
              by_cases hcl : classify st = some c
              · simp only [hcl, if_true, List.map_cons, accumulate_cons, hcount]
              · simp only [hcl, if_false]
            · have hr' : rest.any (names q) = false := by simpa using hr
              rw [counted_of_not_named c q rest hr']
              simp only [hr', if_false]
              by_cases hcl : classify st = some c
              · simp [hcl, accumulate, hcount]
              · simp [hcl, accumulate]
          · have hn1 : names q l = false := by
              cases hnn : names q l
              · rfl
              · exact absurd (hn.mp hnn) hq
            simp [hq, hn1]
      · have hc' : strings.Contains l ',' = false := by simpa using hc
        rw [nodesLine_of_not_Contains pf nm0 l hc'] at hl
        cases hl
        rw [names_of_not_Contains l hc' q]
        simp only [Bool.false_or, false_and, if_false]
        simp

/-- The count of a category for a partition in the result: the parsed counts of the
unique lines counted in that category for the partition, added onto `0` in the order
of the unique lines. -/
theorem countOf_ordered {α : Type} [Add α] [Zero α] (pf : Str → α) (input : Str)
    (nm : NodesPerPartitionMetrics α) (h : ParseNodesPerPartitionMetrics pf input = some nm)
    (c : Category) (q : Str) :
    countOf nm c q = accumulate 0 ((counted c q (lines_uniq input)).map (lineCount pf)) := by
  unfold countOf
  rw [find_nodesLoop_ordered pf (lines_uniq input) NewNodesPerPartitionMetrics nm SameKeys_New h c q]
  have h0 : GoMap.find (c.field (NewNodesPerPartitionMetrics : NodesPerPartitionMetrics α)) q = none := by
    cases c <;> rfl
  rw [h0]
  by_cases hn : (lines_uniq input).any (names q) = true
  · simp [hn]
  · have hn' : (lines_uniq input).any (names q) = false := by simpa using hn
    rw [counted_of_not_named c q _ hn']
    simp [hn', accumulate]

theorem accumulate_exact {α : Type} [Add α] [Zero α] (ofNat : Nat → α) (B : Nat)
    (hE : ExactBelow ofNat B) (ns : List Nat) (a : Nat) (h : a + ns.sum < B) :
    accumulate (ofNat a) (ns.map ofNat) = ofNat (a + ns.sum) := by
  induction ns generalizing a with
  | nil => simp [accumulate]
  | cons n rest ih =>
    simp only [List.sum_cons] at h
    rw [List.map_cons, accumulate_cons, hE.2 a n (by omega), ih (a + n) (by omega)]
    simp [Nat.add_assoc]

theorem sum_exact {α : Type} [Add α] [Zero α] (ofNat : Nat → α) (B : Nat)
    (hE : ExactBelow ofNat B) (ns : List Nat) (h : ns.sum < B) :
    (ns.map ofNat).sum = ofNat ns.sum := by
  induction ns with
  | nil => simp [hE.1]
  | cons n rest ih =>
    simp only [List.sum_cons] at h
    rw [List.map_cons, List.sum_cons, List.sum_cons, ih (by omega), hE.2 n rest.sum h]

theorem F64.round_of_lt (s : Nat) (h : s < 9007199254740992) : F64.round s = s := by
  simp [F64.round, F64.excess, h, Nat.mod_one]

theorem F64.exactBelow : ExactBelow (fun n => (⟨n⟩ : F64)) 9007199254740992 := by
  refine ⟨rfl, ?_⟩
  intro a b h
  show (⟨F64.round (a + b)⟩ : F64) = ⟨a + b⟩
  rw [F64.round_of_lt _ h]


theorem counted_sublist_classified (c : Category) (q : Str) (ls : List Str) :
    ∀ l ∈ counted c q ls, l ∈ classified q ls := by
  intro l hl
  unfold counted at hl
  unfold classified
  rw [List.mem_filter] at hl ⊢
  refine ⟨hl.1, ?_⟩
  have h2 := hl.2
  simp only [Bool.and_eq_true, beq_iff_eq] at h2
  simp [h2.1, h2.2]

/-- C1, as stated, fails in two ways. On the text `5,unknown_state,p` the ten category
counts of `p` sum to 0, while the parsed counts of the unique lines of partition `p`
sum to 5: a state that no pattern matches is counted nowhere. On the three lines
`18014398509481984,idle,p`, `2,idle,p`, `2,idle,p*`, whose states are all matched, the
float64 additions of the loop round: the ten counts of `p` sum to 18014398509481984,
while the parsed counts, which are float64 numbers, sum to 18014398509481988. -/
theorem C1_counterexample :
    ((ParseNodesPerPartitionMetrics parseNat "5,unknown_state,p".toList).map
        (fun nm => categorySum nm "p".toList) = some 0 ∧
      (((lines_uniq "5,unknown_state,p".toList).filter (names "p".toList)).map
        (lineCount parseNat)).sum = 5) ∧
    ((ParseNodesPerPartitionMetrics parseF64 roundingText).map
        (fun nm => categorySum nm "p".toList) = some ⟨18014398509481984⟩ ∧
      ((lines_uniq roundingText).filter (names "p".toList)).map (lineCount parseF64) =
        [⟨18014398509481984⟩, ⟨2⟩, ⟨2⟩] ∧
      (((lines_uniq roundingText).filter (names "p".toList)).map
        (lineCount parseNat)).sum = 18014398509481988) := by
  decide

/-- C1, amended: in the result of `ParseNodesPerPartitionMetrics`, when the parsed
counts of the unique lines of partition `p` whose state one of the ten patterns matches
are whole numbers with a sum in the range where the additions do not round (below
`2^53` for float64), the sum of the ten category counts of `p` is the sum of the parsed
counts of those lines, and it is that whole number. -/
theorem C1_categorySum {α : Type} [Add α] [Zero α] (pf : Str → α) (input : Str)
    (nm : NodesPerPartitionMetrics α) (h : ParseNodesPerPartitionMetrics pf input = some nm)
    (p : Str) (ofNat : Nat → α) (B : Nat) (pfN : Str → Nat) (hE : ExactBelow ofNat B)
    (hcount : ∀ l ∈ classified p (lines_uniq input), lineCount pf l = ofNat (lineCount pfN l))
    (hB : ((classified p (lines_uniq input)).map (lineCount pfN)).sum < B) :
    categorySum nm p = ((classified p (lines_uniq input)).map (lineCount pf)).sum ∧
      categorySum nm p = ofNat (((classified p (lines_uniq input)).map (lineCount pfN)).sum) := by
  have htot : (Category.rules.map
      (fun c => ((counted c p (lines_uniq input)).map (lineCount pfN)).sum)).sum =
      ((classified p (lines_uniq input)).map (lineCount pfN)).sum := by
    rw [← sum_total]
    congr 1
    apply List.map_congr_left
    intro c _
    exact (total_eq_sum_counted pfN c p _).symm
  have hle : ∀ c : Category,
      ((counted c p (lines_uniq input)).map (lineCount pfN)).sum < B := by
    intro c
    have hmem : ((counted c p (lines_uniq input)).map (lineCount pfN)).sum ∈
        Category.rules.map
          (fun c => ((counted c p (lines_uniq input)).map (lineCount pfN)).sum) := by
      apply List.mem_map.mpr
      exact ⟨c, by cases c <;> simp [Category.rules], rfl⟩
    have := List.single_le_sum (fun _ _ => Nat.zero_le _) _ hmem
    omega
  have hc : ∀ c : Category, countOf nm c p =
      ofNat (((counted c p (lines_uniq input)).map (lineCount pfN)).sum) := by
    intro c
    rw [countOf_ordered pf input nm h c p]
    have e1 : (counted c p (lines_uniq input)).map (lineCount pf) =
        ((counted c p (lines_uniq input)).map (lineCount pfN)).map ofNat := by
      rw [List.map_map]
      apply List.map_congr_left
      intro l hl
      exact hcount l (counted_sublist_classified c p _ l hl)
    rw [e1, ← hE.1, accumulate_exact ofNat B hE _ 0 (by have := hle c; omega), Nat.zero_add]
  have h2 : categorySum nm p =
      ofNat (((classified p (lines_uniq input)).map (lineCount pfN)).sum) := by
    unfold categorySum
    have e2 : Category.rules.map (fun c => countOf nm c p) =
        (Category.rules.map
          (fun c => ((counted c p (lines_uniq input)).map (lineCount pfN)).sum)).map ofNat := by
      rw [List.map_map]
      apply List.map_congr_left
      intro c _
      exact hc c
    rw [e2, sum_exact ofNat B hE _ (by rw [htot]; exact hB), htot]
  refine ⟨?_, h2⟩
  rw [h2]
  have e3 : (classified p (lines_uniq input)).map (lineCount pf) =
      ((classified p (lines_uniq input)).map (lineCount pfN)).map ofNat := by
    rw [List.map_map]
    apply List.map_congr_left
    intro l hl
    exact hcount l hl
  rw [e3, sum_exact ofNat B hE _ hB]

theorem C1_categorySum_witness :
    ∃ nm, ParseNodesPerPartitionMetrics parseF64 sinfoText = some nm ∧
      categorySum nm "gpu".toList =
        ((classified "gpu".toList (lines_uniq sinfoText)).map (lineCount parseF64)).sum ∧
      categorySum nm "gpu".toList = (⟨6⟩ : F64) := by
  obtain ⟨nm, h⟩ := Parse_isSome parseF64 sinfoText (by decide)
  have hw := C1_categorySum parseF64 sinfoText nm h "gpu".toList (fun n => ⟨n⟩)
    9007199254740992 parseNat F64.exactBelow (by decide) (by decide)
  exact ⟨nm, h, hw.1, hw.2.trans (by decide)⟩

/-- C2, as stated, fails in its second half: on the three lines
`18014398509481984,idle,p`, `2,idle,p`, `2,idle,p*`, which have three fields each, the
count of `idle` for `p` is 18014398509481984, the value float64 arithmetic gives to
`((0 + 18014398509481984) + 2) + 2`, while the parsed counts of the three lines, which
are float64 numbers, sum to 18014398509481988. -/
theorem C2_counterexample :
    (∀ l ∈ strings.Split '\n' roundingText, strings.Contains l ',' = true → threeFields l) ∧
      (ParseNodesPerPartitionMetrics parseF64 roundingText).map
        (fun nm => countOf nm Category.idle "p".toList) = some ⟨18014398509481984⟩ ∧
      (matching Category.idle "p".toList (lines_uniq roundingText)).map (lineCount parseF64) =
        [⟨18014398509481984⟩, ⟨2⟩, ⟨2⟩] ∧
      ((matching Category.idle "p".toList (lines_uniq roundingText)).map
        (lineCount parseNat)).sum = 18014398509481988 := by
  decide

/-- C2, amended: a record line is counted by the switch under its untrimmed state, its
partition stripped of one `*` and its parsed count; the switch adds the count to the map
of the category of the first rule, in the order alloc, comp, down, drain, fail, err,
idle, maint, mix, res, whose pattern the state starts with, and leaves the other nine
maps alone; that category is `c` exactly when the state starts with the pattern of
`c`; hence the count of `c` for `p` in a result is what adding the parsed counts of the
unique lines of partition `p` whose state starts with the pattern of `c` onto `0`, one
after the other in the sorted order of the lines, gives; it is their sum when these
counts are whole numbers with a sum in the range where additions do not round; and
there is a result whenever every record line has at least three fields. -/
theorem C2_first_matching_rule {α : Type} [Add α] [Zero α] (pf : Str → α) :
    (∀ (nm : NodesPerPartitionMetrics α) (line f0 st pt : Str) (rest : List Str),
      fields line = f0 :: st :: pt :: rest →
      nodesLine pf nm line =
        some (countState (initPartitionMap (strings.TrimSuffix pt '*') nm) st
          (strings.TrimSuffix pt '*') (pf (strings.TrimSpace f0)))) ∧
    (∀ (nm : NodesPerPartitionMetrics α) (st p : Str) (n : α) (c : Category),
      c.field (countState nm st p n) =
        if Category.rules.find? (fun r => regexp.MatchString r.pattern st) = some c then
          GoMap.addTo (c.field nm) p n
        else c.field nm) ∧
    (∀ (st : Str) (c : Category),
      Category.rules.find? (fun r => regexp.MatchString r.pattern st) = some c ↔
        regexp.MatchString c.pattern st = true) ∧
    (∀ (input : Str) (nm : NodesPerPartitionMetrics α),
      ParseNodesPerPartitionMetrics pf input = some nm →
      ∀ (c : Category) (p : Str),
        countOf nm c p =
          accumulate 0 ((matching c p (lines_uniq input)).map (lineCount pf))) ∧
    (∀ (input : Str) (nm : NodesPerPartitionMetrics α),
      ParseNodesPerPartitionMetrics pf input = some nm →
      ∀ (ofNat : Nat → α) (B : Nat) (pfN : Str → Nat) (c : Category) (p : Str),
        ExactBelow ofNat B →
        (∀ l ∈ matching c p (lines_uniq input), lineCount pf l = ofNat (lineCount pfN l)) →
        ((matching c p (lines_uniq input)).map (lineCount pfN)).sum < B →
        countOf nm c p = ofNat (((matching c p (lines_uniq input)).map (lineCount pfN)).sum)) ∧
    (∀ (input : Str),
      (∀ l ∈ strings.Split '\n' input, strings.Contains l ',' = true → threeFields l) →
      ∃ nm, ParseNodesPerPartitionMetrics pf input = some nm) := by
  refine ⟨?_, ?_, ?_, ?_, ?_, ?_⟩
  · intro nm line f0 st pt rest hf
    rw [nodesLine_of_fields pf nm line f0 st pt rest (Contains_of_fields line f0 st _ hf) hf,
      countState_eq]
  · intro nm st p n c
    rw [countState_eq, field_applyCategory]
    rfl
  · intro st c
    exact classify_eq_some_iff st c
  · intro input nm h c p
    rw [countOf_ordered pf input nm h c p, matching_eq_counted]
  · intro input nm h ofNat B pfN c p hE hcount hB
    rw [countOf_ordered pf input nm h c p, ← matching_eq_counted]
    have e1 : (matching c p (lines_uniq input)).map (lineCount pf) =
        ((matching c p (lines_uniq input)).map (lineCount pfN)).map ofNat := by
      rw [List.map_map]
      apply List.map_congr_left
      intro l hl
      exact hcount l hl
    rw [e1, ← hE.1, accumulate_exact ofNat B hE _ 0 (by omega), Nat.zero_add]
  · intro input h
    exact Parse_isSome pf input h

theorem C2_first_matching_rule_witness :
    nodesLine parseNat NewNodesPerPartitionMetrics "4,idle,gpu*".toList =
        some (countState (initPartitionMap "gpu".toList NewNodesPerPartitionMetrics)
          "idle".toList "gpu".toList 4) ∧
      (∃ nm, ParseNodesPerPartitionMetrics parseF64 roundingText = some nm ∧
        countOf nm Category.idle "p".toList =
          accumulate 0 [(⟨18014398509481984⟩ : F64), ⟨2⟩, ⟨2⟩]) ∧
      (∃ nm, ParseNodesPerPartitionMetrics parseF64 sinfoText = some nm ∧
        countOf nm Category.idle "gpu".toList = (⟨4⟩ : F64)) := by
  refine ⟨(C2_first_matching_rule parseNat).1 NewNodesPerPartitionMetrics "4,idle,gpu*".toList
      "4".toList "idle".toList "gpu*".toList [] (by decide), ?_, ?_⟩
  · obtain ⟨nm, h⟩ := (C2_first_matching_rule parseF64).2.2.2.2.2 roundingText (by decide)
    exact ⟨nm, h, ((C2_first_matching_rule parseF64).2.2.2.1 roundingText nm h
      Category.idle "p".toList).trans (by decide)⟩
  · obtain ⟨nm, h⟩ := (C2_first_matching_rule parseF64).2.2.2.2.2 sinfoText (by decide)
    exact ⟨nm, h, ((C2_first_matching_rule parseF64).2.2.2.2.1 sinfoText nm h
      (fun n => ⟨n⟩) 9007199254740992 parseNat Category.idle "gpu".toList F64.exactBelow
      (by decide) (by decide)).trans (by decide)⟩

theorem credit_append {α : Type} [Add α] (v : Option α) (cs ds : List α) :
    credit v (cs ++ ds) = credit (credit v cs) ds := by
  induction cs generalizing v with
  | nil => cases v <;> rfl
  | cons c rest ih =>
    cases v with
    | none => exact ih (some c)
    | some x => exact ih (some (x + c))

theorem credit_some {α : Type} [Add α] (v : α) (cs : List α) :
    credit (some v) cs = some (accumulate v cs) := by
  induction cs generalizing v with
  | nil => rfl
  | cons c rest ih => exact ih (v + c)

theorem credit_none_cons {α : Type} [Add α] (c : α) (cs : List α) :
    credit none (c :: cs) = some (accumulate c cs) :=
  credit_some c cs

theorem credit_nil {α : Type} [Add α] (v : Option α) : credit v [] = v := by
  cases v <;> rfl

theorem credit_isSome {α : Type} [Add α] (v : Option α) (cs : List α) :
    (credit v cs).isSome = (v.isSome || !cs.isEmpty) := by
  cases cs with
  | nil => rw [credit_nil]; simp
  | cons c rest =>
    cases v with
    | none => rw [credit_none_cons]; rfl
    | some x => rw [credit_some]; rfl

theorem find_addFeature_credit {α : Type} [Add α] (res : GoMap α) (f g : Str) (k : α) :
    GoMap.find (addFeature res f k) g =
      if f = g then credit (GoMap.find res f) [k] else GoMap.find res g := by
  unfold addFeature
  cases h : GoMap.find res f with
  | none =>
    by_cases hfg : f = g
    · simp [GoMap.find_insert, hfg, credit]
    · simp [GoMap.find_insert, hfg]
  | some v =>
    by_cases hfg : f = g
    · simp [GoMap.find_insert, hfg, credit]
    · simp [GoMap.find_insert, hfg]

theorem find_addFeatures_credit {α : Type} [Add α] (res : GoMap α) (feats : List Str) (k : α)
    (g : Str) :
    GoMap.find (addFeatures res feats k) g =
      credit (GoMap.find res g) (List.replicate (feats.count g) k) := by
  induction feats generalizing res with
  | nil => simp [addFeatures, credit_nil]
  | cons f rest ih =>
    have hstep : addFeatures res (f :: rest) k = addFeatures (addFeature res f k) rest k := rfl
    rw [hstep, ih, find_addFeature_credit]
    by_cases hfg : f = g
    · subst hfg
      rw [if_pos rfl, ← credit_append, List.count_cons_self, List.replicate_succ]
      rfl
    · rw [if_neg hfg, List.count_cons_of_ne (fun e => hfg e.symm)]

theorem resCredits_cons {α : Type} (pf : Str → α) (q f : Str) (l : Str) (ls : List Str) :
    resCredits pf q f (l :: ls) =
      (if resourcesLine q l = true then
        List.replicate ((pendingFeatures l).count f) (requestedCpus pf l)
      else []) ++ resCredits pf q f ls := by
  simp [resCredits]

theorem resCredits_append {α : Type} (pf : Str → α) (q f : Str) (a b : List Str) :
    resCredits pf q f (a ++ b) = resCredits pf q f a ++ resCredits pf q f b := by
  simp [resCredits]

theorem Credited_nil {α : Type} [Add α] [One α] (pf : Str → α) (q : Str)
    (pm : PartitionMetrics α) : Credited pf q [] pm pm := by
  refine ⟨rfl, rfl, rfl, rfl, rfl, ?_⟩
  intro f
  exact (credit_nil _).symm

theorem Credited_cons_other {α : Type} [Add α] [One α] (pf : Str → α) (q : Str)
    (l : Str) (rest : List Str) (pm0 pm : PartitionMetrics α) (hn : namesFirst q l = false)
    (h : Credited pf q rest pm0 pm) : Credited pf q (l :: rest) pm0 pm := by
  obtain ⟨h1, h2, h3, h4, h5, h6⟩ := h
  refine ⟨h1, h2, h3, h4, ?_, ?_⟩
  · rw [h5]
    simp [pendingCount, List.filter_cons, hn]
  · intro f
    have hr : resourcesLine q l = false := by simp [resourcesLine, hn]
    rw [h6 f, resCredits_cons, hr]
    rfl

theorem Credited_cons_names {α : Type} [Add α] [One α] (pf : Str → α) (q : Str)
    (l cpus reason f0 : Str) (more : List Str) (rest : List Str) (pm0 pm : PartitionMetrics α)
    (hf : fields l = q :: cpus :: reason :: f0 :: more)
    (h : Credited pf q rest
      { pm0 with
        pending := pm0.pending + 1
        resources :=
          if reason = "Resources".toList then
            addFeatures pm0.resources (pendingFeatures l) (pf cpus)
          else pm0.resources } pm) :
    Credited pf q (l :: rest) pm0 pm := by
  obtain ⟨h1, h2, h3, h4, h5, h6⟩ := h
  have hn : namesFirst q l = true := (namesFirst_of_fields l q cpus _ hf q).mpr rfl
  refine ⟨h1, h2, h3, h4, ?_, ?_⟩
  · rw [h5]
    have hc : pendingCount q (l :: rest) = pendingCount q rest + 1 := by
      simp [pendingCount, List.filter_cons, hn]
    rw [hc, Function.iterate_succ_apply]
  · intro f
    have hcpus : requestedCpus pf l = pf cpus := by simp [requestedCpus, hf]
    rw [h6 f, resCredits_cons, credit_append]
    by_cases hr : reason = "Resources".toList
    · have hres : resourcesLine q l = true := by
        unfold resourcesLine pendingReason
        rw [hn, hf, hr]
        rfl
      simp only [if_pos hr]
      rw [find_addFeatures_credit, if_pos hres, hcpus]
    · have hres : resourcesLine q l = false := by
        unfold resourcesLine pendingReason
        rw [hn, hf]
        exact beq_false_of_ne (fun e => hr (Option.some.inj e))
      simp only [if_neg hr]
      rw [hres]
      simp [credit_nil]

/-- The record of a partition after the loop over the pending lines, with every
addition in the order of the loop. -/
theorem find_pendingLoop_credited {α : Type} [Add α] [One α] (pf : Str → α) (ls : List Str)
    (m0 m : GoMap (PartitionMetrics α)) (h : pendingLoop pf m0 ls = some m) (q : Str)
    (pm0 : PartitionMetrics α) (h0 : GoMap.find m0 q = some pm0) :
    ∃ pm, GoMap.find m q = some pm ∧ Credited pf q ls pm0 pm := by
  induction ls generalizing m0 pm0 with
  | nil =>
    simp only [pendingLoop, Option.some.injEq] at h
    subst h
    exact ⟨pm0, h0, Credited_nil pf q pm0⟩
  | cons l rest ih =>
    rw [pendingLoop] at h
    cases hl : pendingLine pf m0 l with
    | none => rw [hl] at h; cases h
    | some m1 =>
      rw [hl] at h
      simp only at h
      cases hn : namesFirst q l with
      | false =>
        have h1 := find_pendingLine_other pf m0 m1 l hl q hn
        obtain ⟨pm, hpm, hacc⟩ := ih m1 h pm0 (h1.trans h0)
        exact ⟨pm, hpm, Credited_cons_other pf q l rest pm0 pm hn hacc⟩
      | true =>
        have hc : strings.Contains l ',' = true := by
          simp only [namesFirst, Bool.and_eq_true] at hn
          exact hn.1
        by_cases hs : (fields l).length < 4
        · rw [pendingLine_of_short pf m0 l hc hs] at hl
          cases hl
        · obtain ⟨P, cpus, reason, f, more, hf⟩ := exists_fields_of_not_shortPending l hs
          have hPq : P = q := (namesFirst_of_fields l P cpus _ hf q).mp hn
          subst hPq
          obtain ⟨m1', e1, e2, _⟩ := find_pendingLine_present pf m0 l P cpus reason f more hf pm0 h0
          rw [hl] at e1
          cases e1
          obtain ⟨pm, hpm, hacc⟩ := ih m1 h _ e2
          exact ⟨pm, hpm, Credited_cons_names pf P l cpus reason f more rest pm0 pm hf hacc⟩

/-- The record of a snapshot partition in a result of `ParsePartitionsMetrics`: the
partitions of the result are those the snapshot names, and the record of each is the
record it was created with after the pending lines. -/
theorem find_Parse_credited {α : Type} [Add α] [Zero α] [One α] (pf : Str → α)
    (data pending : Str) (m : GoMap (PartitionMetrics α))
    (h : ParsePartitionsMetrics pf data pending = some m) (p : Str) :
    ((∃ l ∈ strings.Split '\n' data, namesFirst p l = true) →
      ∃ pm, GoMap.find m p = some pm ∧
        pm.pending = Nat.iterate (fun x => x + 1)
          (pendingCount p (strings.Split '\n' pending)) 0 ∧
        ∀ f, GoMap.find pm.resources f =
          credit (GoMap.find (newPartitionMetrics : PartitionMetrics α).resources f)
            (resCredits pf p f (strings.Split '\n' pending))) ∧
    ((∀ l ∈ strings.Split '\n' data, namesFirst p l = false) → GoMap.find m p = none) := by
  obtain ⟨m0, hs, hpend⟩ := Parse_phases pf data pending m h
  have hkey0 := isSome_find_snapshotLoop pf _ [] m0 hs p
  have hkey := isSome_find_pendingLoop pf _ m0 m hpend p
  have hnone : GoMap.find ([] : GoMap (PartitionMetrics α)) p = none := rfl
  rw [hnone, Option.isSome_none, Bool.or_false] at hkey0
  constructor
  · intro hp
    have h1 : (GoMap.find m0 p).isSome = true := by
      rw [hkey0]
      exact List.any_eq_true.mpr hp
    obtain ⟨pm0, hpm0⟩ := Option.isSome_iff_exists.mp h1
    obtain ⟨pm, hpm, hacc⟩ := find_pendingLoop_credited pf _ m0 m hpend p pm0 hpm0
    have hfresh := Fresh_snapshotLoop pf _ [] m0 hs Fresh_nil p pm0 hpm0
    refine ⟨pm, hpm, ?_, ?_⟩
    · rw [hacc.2.2.2.2.1, hfresh.1]
    · intro f
      rw [hacc.2.2.2.2.2 f, hfresh.2]
      rfl
  · intro hno
    have h1 : (GoMap.find m0 p).isSome = false := by
      rw [hkey0]
      exact List.any_eq_false.mpr (fun l hl => by simp [hno l hl])
    rw [← hkey] at h1
    cases hm : GoMap.find m p with
    | none => rfl
    | some pm => rw [hm] at h1; cases h1

theorem iterate_succ_exact {α : Type} [Add α] [One α] (ofNat : Nat → α) (B : Nat)
    (hsucc : ∀ k, k < B → ofNat k + 1 = ofNat (k + 1)) (n a : Nat) (h : a + n ≤ B) :
    Nat.iterate (fun x => x + 1) n (ofNat a) = ofNat (a + n) := by
  induction n generalizing a with
  | zero => rfl
  | succ k ih =>
    rw [Function.iterate_succ_apply, hsucc a (by omega), ih (a + 1) (by omega)]
    congr 1
    omega

/-- C12: in every result of `ParsePartitionsMetrics` the partitions are those that the
records of the snapshot name, and the pending value of each of them, `P`, is the
number of lines of the pending text that contain a comma and have the first field `P`,
repetitions counted and whatever their reason: it is `0` incremented by `1` once for
every such line, which is that number as long as counting by `+ 1` is exact; and there
is a result when the snapshot lines are well formed and every pending line with a
comma has four fields at least and names a partition of the snapshot. -/
theorem C12_pending_count {α : Type} [Add α] [Zero α] [One α] (pf : Str → α)
    (data pending : Str) :
    (∀ m : GoMap (PartitionMetrics α), ParsePartitionsMetrics pf data pending = some m →
      ∀ P : Str,
        ((∃ l ∈ strings.Split '\n' data, namesFirst P l = true) →
          ∃ pm, GoMap.find m P = some pm ∧
            pm.pending = Nat.iterate (fun x => x + 1)
              (pendingCount P (strings.Split '\n' pending)) 0 ∧
            ∀ (ofNat : Nat → α) (B : Nat), ofNat 0 = 0 →
              (∀ k, k < B → ofNat k + 1 = ofNat (k + 1)) →
              pendingCount P (strings.Split '\n' pending) ≤ B →
              pm.pending = ofNat (pendingCount P (strings.Split '\n' pending))) ∧
        ((∀ l ∈ strings.Split '\n' data, namesFirst P l = false) → GoMap.find m P = none)) ∧
    ((∀ l ∈ strings.Split '\n' data, snapshotOk l = true) →
      (∀ l ∈ strings.Split '\n' pending, strings.Contains l ',' = true →
        4 ≤ (fields l).length ∧
          ∃ l0 ∈ strings.Split '\n' data, namesFirst (firstField l) l0 = true) →
      ∃ m : GoMap (PartitionMetrics α), ParsePartitionsMetrics pf data pending = some m) := by
  constructor
  · intro m h P
    obtain ⟨h1, h2⟩ := find_Parse_credited pf data pending m h P
    refine ⟨?_, h2⟩
    intro hP
    obtain ⟨pm, hpm, hpend, _⟩ := h1 hP
    refine ⟨pm, hpm, hpend, ?_⟩
    intro ofNat B h0 hsucc hB
    rw [hpend, ← h0, iterate_succ_exact ofNat B hsucc _ 0 (by omega), Nat.zero_add]
  · intro hdata hpending
    rw [← Option.isSome_iff_exists, ParsePartitions_isSome, Bool.and_eq_true, List.all_eq_true,
      List.all_eq_true]
    refine ⟨hdata, ?_⟩
    intro l hl
    unfold pendingOkText
    cases hc : strings.Contains l ','
    · rfl
    · obtain ⟨h4, hname⟩ := hpending l hl hc
      simp only [Bool.not_true, Bool.false_or, Bool.and_eq_true, decide_eq_true_eq,
        Bool.or_eq_true, List.any_eq_true]
      exact ⟨h4, Or.inr hname⟩

theorem C12_pending_count_witness :
    ∃ m pm pm', ParsePartitionsMetrics parseNat "p,1/2/3/4\nq,5/6/7/8".toList
          "q,4,Resources,(gpu)\nq,1,Priority,(null)\nq,4,Resources,(gpu)".toList = some m ∧
      GoMap.find m "q".toList = some pm ∧ pm.pending = 3 ∧
      GoMap.find m "p".toList = some pm' ∧ pm'.pending = 0 ∧
      GoMap.find m "r".toList = none := by
  obtain ⟨m, hm⟩ := (C12_pending_count parseNat "p,1/2/3/4\nq,5/6/7/8".toList
    "q,4,Resources,(gpu)\nq,1,Priority,(null)\nq,4,Resources,(gpu)".toList).2
    (by decide) (by decide)
  have hw := (C12_pending_count parseNat "p,1/2/3/4\nq,5/6/7/8".toList
    "q,4,Resources,(gpu)\nq,1,Priority,(null)\nq,4,Resources,(gpu)".toList).1 m hm
  obtain ⟨pm, hpm, hq, _⟩ := (hw "q".toList).1 (by decide)
  obtain ⟨pm', hpm', hp, _⟩ := (hw "p".toList).1 (by decide)
  exact ⟨m, pm, pm', hm, hpm, hq.trans (by decide), hpm', hp.trans (by decide),
    (hw "r".toList).2 (by decide)⟩

theorem resCredits_eq_nil_iff {α : Type} (pf : Str → α) (q f : Str) (ls : List Str) :
    resCredits pf q f ls = [] ↔ ∀ l ∈ ls, resTouched q f l = false := by
  unfold resCredits
  rw [List.flatMap_eq_nil_iff]
  constructor
  · intro h l hl
    have h1 := h l hl
    unfold resTouched
    by_cases hr : resourcesLine q l = true
    · rw [if_pos hr] at h1
      rw [List.replicate_eq_nil_iff] at h1
      rw [hr, Bool.true_and]
      exact decide_eq_false (List.count_eq_zero.mp h1)
    · simp [hr]
  · intro h l hl
    have h1 := h l hl
    by_cases hr : resourcesLine q l = true
    · rw [if_pos hr]
      unfold resTouched at h1
      rw [hr, Bool.true_and] at h1
      rw [List.replicate_eq_nil_iff]
      exact List.count_eq_zero.mpr (of_decide_eq_false h1)
    · rw [if_neg hr]

/-- C17, amended: when `Collect` sends its metrics, it sends the metric of the
pending-resources family with the labels (`p`, `f`) and the value `v` exactly when a
record of the snapshot names `p` and `v` is the value of `f` in the feature map that
the record of `p` is created with, `null` with the value 0, after the credits of the
pending lines to `f`, made one after the other in the order of the lines; so the
pairs that are sent with some value are those of a snapshot partition with the feature
`null` or with a feature named by a pending `Resources` record of the partition, and
a feature that no such record names is sent only if it is `null`, with the value 0. -/
theorem C17_resources_family {α : Type} [Add α] [Zero α] [One α] [LT α]
    [DecidableRel (fun a b : α => a < b)] (pf : Str → α) (data pending : Str)
    (obs : List (Metric α)) (h : PartitionsCollector.Collect pf data pending = some obs)
    (p f : Str) :
    (∀ v : α, ({ desc := Desc.resources, value := v, labelValues := [p, f] } : Metric α) ∈ obs ↔
      (∃ l ∈ strings.Split '\n' data, namesFirst p l = true) ∧
        credit (GoMap.find (newPartitionMetrics : PartitionMetrics α).resources f)
          (resCredits pf p f (strings.Split '\n' pending)) = some v) ∧
    ((∃ v : α, ({ desc := Desc.resources, value := v, labelValues := [p, f] } : Metric α) ∈ obs) ↔
      (∃ l ∈ strings.Split '\n' data, namesFirst p l = true) ∧
        (f = "null".toList ∨ ∃ l ∈ strings.Split '\n' pending, resTouched p f l = true)) ∧
    ((∀ l ∈ strings.Split '\n' pending, resTouched p f l = false) →
      ∀ v : α, ({ desc := Desc.resources, value := v, labelValues := [p, f] } : Metric α) ∈ obs ↔
        (∃ l ∈ strings.Split '\n' data, namesFirst p l = true) ∧ f = "null".toList ∧ v = 0) := by
  unfold PartitionsCollector.Collect at h
  cases hm : ParsePartitionsMetrics pf data pending with
  | none => rw [hm] at h; cases h
  | some m =>
    rw [hm] at h
    simp only [Option.map_some', Option.some.injEq] at h
    subst h
    obtain ⟨h1, h2⟩ := find_Parse_credited pf data pending m hm p
    have hmain : ∀ v : α,
        ({ desc := Desc.resources, value := v, labelValues := [p, f] } : Metric α) ∈
            collectMetrics m ↔
          (∃ l ∈ strings.Split '\n' data, namesFirst p l = true) ∧
            credit (GoMap.find (newPartitionMetrics : PartitionMetrics α).resources f)
              (resCredits pf p f (strings.Split '\n' pending)) = some v := by
      intro v
      rw [mem_collectMetrics_resources]
      constructor
      · rintro ⟨pm, hpm, hf⟩
        have hp : ∃ l ∈ strings.Split '\n' data, namesFirst p l = true := by
          by_contra hno
          have hno' : ∀ l ∈ strings.Split '\n' data, namesFirst p l = false := by
            intro l hl
            cases hn : namesFirst p l
            · rfl
            · exact absurd ⟨l, hl, hn⟩ hno
          rw [h2 hno'] at hpm
          cases hpm
        obtain ⟨pm', hpm', _, hres⟩ := h1 hp
        rw [hpm] at hpm'
        cases hpm'
        exact ⟨hp, (hres f).symm.trans hf⟩
      · rintro ⟨hp, hv⟩
        obtain ⟨pm, hpm, _, hres⟩ := h1 hp
        exact ⟨pm, hpm, (hres f).trans hv⟩
    have hinit : GoMap.find (newPartitionMetrics : PartitionMetrics α).resources f =
        if "null".toList = f then some 0 else none := find_null α f
    refine ⟨hmain, ?_, ?_⟩
    · constructor
      · rintro ⟨v, hv⟩
        obtain ⟨hp, hc⟩ := (hmain v).mp hv
        refine ⟨hp, ?_⟩
        by_cases hf : f = "null".toList
        · exact Or.inl hf
        · right
          by_contra hno
          have hnil := (resCredits_eq_nil_iff pf p f (strings.Split '\n' pending)).mpr
            (fun l hl => by
              cases ht : resTouched p f l
              · rfl
              · exact absurd ⟨l, hl, ht⟩ hno)
          rw [hnil, credit_nil, hinit, if_neg (fun e => hf e.symm)] at hc
          cases hc
      · rintro ⟨hp, hf⟩
        have hsome : (credit (GoMap.find (newPartitionMetrics : PartitionMetrics α).resources f)
            (resCredits pf p f (strings.Split '\n' pending))).isSome = true := by
          rw [credit_isSome]
          rcases hf with hf | ⟨l, hl, ht⟩
          · rw [hinit, if_pos hf.symm]
            rfl
          · have hne : resCredits pf p f (strings.Split '\n' pending) ≠ [] := by
              intro e
              have := (resCredits_eq_nil_iff pf p f _).mp e l hl
              rw [ht] at this
              cases this
            cases hc : resCredits pf p f (strings.Split '\n' pending) with
            | nil => exact absurd hc hne
            | cons c cs => simp
        obtain ⟨v, hv⟩ := Option.isSome_iff_exists.mp hsome
        exact ⟨v, (hmain v).mpr ⟨hp, hv⟩⟩
    · intro hno v
      rw [hmain v, (resCredits_eq_nil_iff pf p f _).mpr hno, credit_nil, hinit]
      constructor
      · rintro ⟨hp, hv⟩
        by_cases hf : "null".toList = f
        · rw [if_pos hf] at hv
          exact ⟨hp, hf.symm, (Option.some.inj hv).symm⟩
        · rw [if_neg hf] at hv
          cases hv
      · rintro ⟨hp, hf, hv⟩
        refine ⟨hp, ?_⟩
        rw [if_pos hf.symm, hv]

theorem C17_resources_family_witness :
    PartitionsCollector.Collect parseNat "p,1/2/3/4\nq,0/6/7/8".toList
        "q,4,Resources,(gpu)".toList = some twoPartitionsMetrics ∧
      ({ desc := Desc.resources, value := 4, labelValues := ["q".toList, "gpu".toList] } :
          Metric Nat) ∈ twoPartitionsMetrics ∧
      ({ desc := Desc.resources, value := 0, labelValues := ["p".toList, "null".toList] } :
          Metric Nat) ∈ twoPartitionsMetrics ∧
      ¬ ∃ v : Nat,
        (⟨Desc.resources, v, ["p".toList, "gpu".toList]⟩ : Metric Nat) ∈ twoPartitionsMetrics :=
  ⟨by decide,
    ((C17_resources_family parseNat "p,1/2/3/4\nq,0/6/7/8".toList "q,4,Resources,(gpu)".toList
      twoPartitionsMetrics (by decide) "q".toList "gpu".toList).1 4).mpr
      ⟨by decide, by decide⟩,
    ((C17_resources_family parseNat "p,1/2/3/4\nq,0/6/7/8".toList "q,4,Resources,(gpu)".toList
      twoPartitionsMetrics (by decide) "p".toList "null".toList).2.2 (by decide) 0).mpr
      ⟨by decide, rfl, rfl⟩,
    fun hex => by
      have := ((C17_resources_family parseNat "p,1/2/3/4\nq,0/6/7/8".toList
        "q,4,Resources,(gpu)".toList twoPartitionsMetrics (by decide) "p".toList
        "gpu".toList).2.1.mp hex).2
      revert this
      decide⟩

theorem credit_nat (v : Option Nat) (ns : List Nat) :
    credit v ns = if v = none ∧ ns = [] then none else some (v.getD 0 + ns.sum) := by
  induction ns generalizing v with
  | nil => cases v <;> simp [credit_nil]
  | cons n rest ih =>
    cases v with
    | none =>
      show credit (some n) rest = _
      rw [ih]
      simp
    | some a =>
      show credit (some (a + n)) rest = _
      rw [ih]
      simp [Nat.add_assoc]

theorem credit_exact {α : Type} [Add α] [Zero α] (ofNat : Nat → α) (B : Nat)
    (hE : ExactBelow ofNat B) (ns : List Nat) (v : Option Nat) (h : v.getD 0 + ns.sum < B) :
    credit (v.map ofNat) (ns.map ofNat) = (credit v ns).map ofNat := by
  induction ns generalizing v with
  | nil => rw [List.map_nil, credit_nil, credit_nil]
  | cons n rest ih =>
    simp only [List.sum_cons] at h
    cases v with
    | none =>
      simp only [Option.getD_none] at h
      exact ih (some n) (by simpa using (by omega : n + rest.sum < B))
    | some a =>
      simp only [Option.getD_some] at h
      show credit (some (ofNat a + ofNat n)) (rest.map ofNat) = _
      rw [hE.2 a n (by omega)]
      exact ih (some (a + n)) (by simpa using (by omega : a + n + rest.sum < B))

theorem resCredits_map {α : Type} (pf : Str → α) (pfN : Str → Nat) (ofNat : Nat → α)
    (q f : Str) (ls : List Str)
    (h : ∀ l ∈ ls, resourcesLine q l = true → requestedCpus pf l = ofNat (requestedCpus pfN l)) :
    resCredits pf q f ls = (resCredits pfN q f ls).map ofNat := by
  induction ls with
  | nil => rfl
  | cons l rest ih =>
    rw [resCredits_cons, resCredits_cons, List.map_append,
      ih (fun x hx => h x (List.mem_cons_of_mem _ hx))]
    congr 1
    by_cases hr : resourcesLine q l = true
    · rw [if_pos hr, if_pos hr, List.map_replicate, h l (by simp) hr]
    · rw [if_neg hr, if_neg hr]
      rfl

theorem not_comma_of_namesFirst (P l : Str) (h : namesFirst P l = true) : ',' ∉ P := by
  unfold namesFirst firstField at h
  simp only [Bool.and_eq_true, beq_iff_eq] at h
  rw [← h.2]
  cases hf : fields l with
  | nil => simp
  | cons a rest =>
    have hmem : a ∈ strings.Split ',' l := by
      have : fields l = strings.Split ',' l := rfl
      rw [← this, hf]
      simp
    simpa using strings.not_mem_of_mem_Split ',' l a hmem

/-- C8, as stated, fails in two ways. For the token `(a`, a list of one token, the
line `p,4,Resources,((a)` leaves `(a` without an entry and credits `a`, because
`strings.Trim` removes every leading parenthesis. And in float64 the feature does not
grow by `n` when additions round: added before two lines `p,2,Resources,(gpu)`, which
alone give `gpu` the value 4, the line `p,18014398509481984,Resources,(gpu)` gives
`gpu` the value 18014398509481984, while 4 plus 18014398509481984 is the float64
number 18014398509481988. -/
theorem C8_counterexample :
    (resourcesRecord "p".toList "4".toList ["(a".toList] = "p,4,Resources,((a)".toList ∧
      (ParsePartitionsMetrics parseNat "p,1/2/3/4".toList
          (resourcesRecord "p".toList "4".toList ["(a".toList])).map
        (fun m => (GoMap.find m "p".toList).map
          (fun pm => (GoMap.find pm.resources "(a".toList, GoMap.find pm.resources "a".toList)))
        = some (some (none, some 4))) ∧
    ((ParsePartitionsMetrics parseF64 "p,1/2/3/4".toList
          "p,2,Resources,(gpu)\np,2,Resources,(gpu)".toList).map
        (fun m => (GoMap.find m "p".toList).map (fun pm => GoMap.find pm.resources "gpu".toList))
        = some (some (some ⟨4⟩)) ∧
      (ParsePartitionsMetrics parseF64 "p,1/2/3/4".toList
          (joinLines [resourcesRecord "p".toList "18014398509481984".toList ["gpu".toList],
            "p,2,Resources,(gpu)".toList, "p,2,Resources,(gpu)".toList])).map
        (fun m => (GoMap.find m "p".toList).map (fun pm => GoMap.find pm.resources "gpu".toList))
        = some (some (some ⟨18014398509481984⟩)) ∧
      (⟨4⟩ : F64) + parseF64 "18014398509481984".toList = ⟨18014398509481988⟩) := by
  decide

/-- C8, amended: for a partition `P` that the CPU snapshot names and distinct feature
tokens `f1..fk` (`k ≥ 1`) that contain no comma and have no parenthesis at either end,
the pending line `P,n,Resources,(f1,...,fk)` added anywhere to a pending text that has
a result gives a text that has a result too, in which the pending count of `P` is one
higher, every `fi` is a key of the feature map of `P`, no other feature of `P` has
changed, and the four CPU values of `P` are the same; every `fi` has grown by the
full `n` (it is `n` when it was not a key) when no later line is a `Resources` record
of `P` that names `fi`, as when the line is added at the end, and also, wherever the
line is added, when the requested CPUs of the `Resources` records of `P` are whole
numbers whose sum for `fi` is in the range where additions do not round. -/
theorem C8_resources_record {α : Type} [Add α] [Zero α] [One α] (pf : Str → α)
    (data pending pending' : Str) (pre post : List Str) (P n f : Str) (fs : List Str)
    (hn : ',' ∉ n) (htok : ∀ g ∈ f :: fs, plainToken g)
    (hnodup : (f :: fs).Nodup)
    (hpres : ∃ l ∈ strings.Split '\n' data, namesFirst P l = true)
    (hl : strings.Split '\n' pending = pre ++ post)
    (hl' : strings.Split '\n' pending' = pre ++ resourcesRecord P n (f :: fs) :: post)
    (m : GoMap (PartitionMetrics α)) (h : ParsePartitionsMetrics pf data pending = some m) :
    ∃ m' pm pm', ParsePartitionsMetrics pf data pending' = some m' ∧
      GoMap.find m P = some pm ∧ GoMap.find m' P = some pm' ∧
      pm'.pending = pm.pending + 1 ∧
      (∀ g ∈ f :: fs,
        (GoMap.find pm'.resources g).isSome = true ∧
        ((∀ l ∈ post, resTouched P g l = false) →
          GoMap.find pm'.resources g =
            some (match GoMap.find pm.resources g with
              | some v => v + pf n
              | none => pf n)) ∧
        (∀ (ofNat : Nat → α) (B : Nat) (pfN : Str → Nat), ExactBelow ofNat B →
          (∀ l ∈ pre ++ resourcesRecord P n (f :: fs) :: post, resourcesLine P l = true →
            requestedCpus pf l = ofNat (requestedCpus pfN l)) →
          (resCredits pfN P g (pre ++ resourcesRecord P n (f :: fs) :: post)).sum < B →
          GoMap.find pm'.resources g = some ((GoMap.find pm.resources g).getD 0 + pf n))) ∧
      (∀ g, g ∉ f :: fs → GoMap.find pm'.resources g = GoMap.find pm.resources g) ∧
      pm'.allocated = pm.allocated ∧ pm'.idle = pm.idle ∧ pm'.other = pm.other ∧
      pm'.total = pm.total := by
  have hP : ',' ∉ P := by
    obtain ⟨l, _, hl0⟩ := hpres
    exact not_comma_of_namesFirst P l hl0
  obtain ⟨h4, hc, hfirst, hcpus, hreason, hfeat⟩ := resourcesRecord_spec pf P n f fs hP hn htok
  obtain ⟨m0, hs, hpend⟩ := Parse_phases pf data pending m h
  have hkey := isSome_find_snapshotLoop pf _ [] m0 hs P
  rw [List.any_eq_true.mpr hpres, Bool.true_or] at hkey
  obtain ⟨pm0, hpm0⟩ := Option.isSome_iff_exists.mp hkey
  have hnames : namesFirst P (resourcesRecord P n (f :: fs)) = true := by
    simp [namesFirst, hc, hfirst]
  have hresl : resourcesLine P (resourcesRecord P n (f :: fs)) = true := by
    unfold resourcesLine
    rw [hnames, hreason]
    rfl
  have hok : pendingOk m0 (resourcesRecord P n (f :: fs)) = true := by
    unfold pendingOk
    rw [hc, hfirst, hpm0]
    simp [h4]
  have hsome : (pendingLoop pf m0 (pre ++ resourcesRecord P n (f :: fs) :: post)).isSome = true := by
    have h1 := pendingLoop_isSome pf m0 (pre ++ post)
    rw [← hl, hpend] at h1
    rw [pendingLoop_isSome]
    simp only [Option.isSome_some, hl, List.all_append, List.all_cons] at h1 ⊢
    have h2 := h1.symm
    simp only [Bool.and_eq_true] at h2 ⊢
    exact ⟨h2.1, hok, h2.2⟩
  obtain ⟨m', hm'⟩ := Option.isSome_iff_exists.mp hsome
  rw [hl] at hpend
  obtain ⟨pm, hpm, a1, a2, a3, a4, a5, a6⟩ := find_pendingLoop_credited pf _ m0 m hpend P pm0 hpm0
  obtain ⟨pm', hpm', b1, b2, b3, b4, b5, b6⟩ :=
    find_pendingLoop_credited pf _ m0 m' hm' P pm0 hpm0
  have hparse : ParsePartitionsMetrics pf data pending' = some m' := by
    unfold ParsePartitionsMetrics
    rw [hs, hl']
    exact hm'
  have hfresh := Fresh_snapshotLoop pf _ [] m0 hs Fresh_nil P pm0 hpm0
  have hcred' : ∀ (β : Type) (pf' : Str → β) (g : Str),
      resCredits pf' P g (pre ++ resourcesRecord P n (f :: fs) :: post) =
        resCredits pf' P g pre ++
          (List.replicate ((f :: fs).count g) (requestedCpus pf' (resourcesRecord P n (f :: fs))) ++
            resCredits pf' P g post) := by
    intro β pf' g
    rw [resCredits_append, resCredits_cons, if_pos hresl, hfeat]
  have hcred : ∀ (β : Type) (pf' : Str → β) (g : Str),
      resCredits pf' P g (pre ++ post) = resCredits pf' P g pre ++ resCredits pf' P g post :=
    fun β pf' g => resCredits_append pf' P g pre post
  refine ⟨m', pm, pm', hparse, hpm, hpm', ?_, ?_, ?_, b1.trans a1.symm, b2.trans a2.symm,
    b3.trans a3.symm, b4.trans a4.symm⟩
  · rw [b5, a5, pendingCount_insert P pre post _ hnames, Function.iterate_succ_apply']
  · intro g hg
    have hc1 : (f :: fs).count g = 1 := count_eq_one_of_nodup _ g hnodup hg
    have hnew : GoMap.find pm'.resources g =
        credit (GoMap.find pm0.resources g)
          (resCredits pf P g pre ++ (pf n :: resCredits pf P g post)) := by
      rw [b6 g, hcred' α pf g, hc1, hcpus]
      rfl
    have hold : GoMap.find pm.resources g =
        credit (GoMap.find pm0.resources g) (resCredits pf P g pre ++ resCredits pf P g post) := by
      rw [a6 g, hcred α pf g]
    refine ⟨?_, ?_, ?_⟩
    · rw [hnew, credit_isSome]
      cases resCredits pf P g pre <;> simp
    · intro hpost
      have hnil := (resCredits_eq_nil_iff pf P g post).mpr hpost
      rw [hnew, hold, hnil, List.append_nil, credit_append]
      cases credit (GoMap.find pm0.resources g) (resCredits pf P g pre) <;> rfl
    · intro ofNat B pfN hE hlines hB
      have hmapAll := resCredits_map pf pfN ofNat P g _ hlines
      have hpfn : pf n = ofNat (pfN n) := by
        have := hlines (resourcesRecord P n (f :: fs)) (by simp) hresl
        rw [hcpus] at this
        rw [this]
        congr 1
        exact (resourcesRecord_spec pfN P n f fs hP hn htok).2.2.2.1
      have hmapOld : resCredits pf P g (pre ++ post) =
          (resCredits pfN P g (pre ++ post)).map ofNat :=
        resCredits_map pf pfN ofNat P g _ (fun l hl => hlines l (by
          rcases List.mem_append.mp hl with h1 | h1
          · exact List.mem_append_left _ h1
          · exact List.mem_append_right _ (List.mem_cons_of_mem _ h1)))
      have hsumNew : (resCredits pfN P g (pre ++ resourcesRecord P n (f :: fs) :: post)).sum =
          (resCredits pfN P g (pre ++ post)).sum + pfN n := by
        rw [hcred' Nat pfN g, hcred Nat pfN g, hc1,
          (resourcesRecord_spec pfN P n f fs hP hn htok).2.2.2.1]
        simp only [List.sum_append, List.replicate_one, List.sum_cons, List.sum_nil]
        omega
      have hinit : GoMap.find pm0.resources g =
          (GoMap.find ([("null".toList, 0)] : GoMap Nat) g).map ofNat := by
        rw [hfresh.2, find_null, find_null]
        by_cases hnull : "null".toList = g
        · rw [if_pos hnull, if_pos hnull, Option.map_some', hE.1]
        · rw [if_neg hnull, if_neg hnull]
          rfl
      have hinit0 : (GoMap.find ([("null".toList, 0)] : GoMap Nat) g).getD 0 = 0 := by
        rw [find_null]
        split_ifs <;> rfl
      have hnew2 : GoMap.find pm'.resources g =
          some (ofNat ((resCredits pfN P g (pre ++ post)).sum + pfN n)) := by
        rw [b6 g, hmapAll, hinit,
          credit_exact ofNat B hE _ _ (by rw [hinit0]; omega), credit_nat,
          hinit0, hsumNew, Nat.zero_add]
        have hne : resCredits pfN P g (pre ++ resourcesRecord P n (f :: fs) :: post) ≠ [] := by
          rw [hcred' Nat pfN g, hc1]
          simp
        simp [hne]
      have hold2 : (GoMap.find pm.resources g).getD 0 =
          ofNat ((resCredits pfN P g (pre ++ post)).sum) := by
        rw [a6 g, hmapOld, hinit,
          credit_exact ofNat B hE _ _ (by rw [hinit0]; omega), credit_nat, hinit0, Nat.zero_add]
        split_ifs with hcase
        · rw [hcase.2]
          exact hE.1.symm
        · rfl
      rw [hnew2, hold2, hpfn, hE.2 _ _ (by omega)]
  · intro g hg
    have hc0 : (f :: fs).count g = 0 := List.count_eq_zero_of_not_mem hg
    rw [b6 g, a6 g, hcred' α pf g, hcred α pf g, hc0]
    rfl

theorem C8_resources_record_witness :
    (∃ m' pm pm', ParsePartitionsMetrics parseNat "p,1/2/3/4\nq,5/6/7/8".toList
          "q,4,Resources,(gpu)\nq,103,Resources,(gpu,a100)".toList = some m' ∧
      GoMap.find twoPartitions "q".toList = some pm ∧ GoMap.find m' "q".toList = some pm' ∧
      pm'.pending = pm.pending + 1 ∧
      GoMap.find pm.resources "gpu".toList = some 4 ∧
      GoMap.find pm'.resources "gpu".toList = some 107 ∧
      GoMap.find pm'.resources "a100".toList = some 103 ∧
      GoMap.find pm'.resources "null".toList = some 0) ∧
    (∃ m m' pm pm', ParsePartitionsMetrics parseF64 "p,1/2/3/4".toList
          "p,2,Resources,(gpu)\np,2,Resources,(gpu)".toList = some m ∧
      ParsePartitionsMetrics parseF64 "p,1/2/3/4".toList
          "p,5,Resources,(gpu)\np,2,Resources,(gpu)\np,2,Resources,(gpu)".toList = some m' ∧
      GoMap.find m "p".toList = some pm ∧ GoMap.find m' "p".toList = some pm' ∧
      pm'.pending = pm.pending + 1 ∧
      GoMap.find pm'.resources "gpu".toList =
        some ((GoMap.find pm.resources "gpu".toList).getD 0 + parseF64 "5".toList)) := by
  constructor
  · obtain ⟨m', pm, pm', h1, h2, h3, h4, h5, h6, _⟩ :=
      C8_resources_record parseNat "p,1/2/3/4\nq,5/6/7/8".toList "q,4,Resources,(gpu)".toList
        "q,4,Resources,(gpu)\nq,103,Resources,(gpu,a100)".toList ["q,4,Resources,(gpu)".toList] []
        "q".toList "103".toList "gpu".toList ["a100".toList] (by decide) (by decide)
        (by decide) (by decide) (by decide) (by decide) twoPartitions twoPartitions_result
    have hpm : pm = ⟨5, 6, 7, 1, 8, [("null".toList, 0), ("gpu".toList, 4)]⟩ :=
      Option.some.inj (h2.symm.trans (by decide))
    subst hpm
    refine ⟨m', _, pm', h1, h2, h3, h4, by decide, ?_, ?_, ?_⟩
    · exact ((h5 "gpu".toList (by decide)).2.1 (by decide)).trans (by decide)
    · exact ((h5 "a100".toList (by decide)).2.1 (by decide)).trans (by decide)
    · exact (h6 "null".toList (by decide)).trans (by decide)
  · obtain ⟨m, hm⟩ := Option.isSome_iff_exists.mp
      (by decide : (ParsePartitionsMetrics parseF64 "p,1/2/3/4".toList
        "p,2,Resources,(gpu)\np,2,Resources,(gpu)".toList).isSome = true)
    obtain ⟨m', pm, pm', h1, h2, h3, h4, h5, _⟩ :=
      C8_resources_record parseF64 "p,1/2/3/4".toList
        "p,2,Resources,(gpu)\np,2,Resources,(gpu)".toList
        "p,5,Resources,(gpu)\np,2,Resources,(gpu)\np,2,Resources,(gpu)".toList []
        ["p,2,Resources,(gpu)".toList, "p,2,Resources,(gpu)".toList]
        "p".toList "5".toList "gpu".toList [] (by decide) (by decide)
        (by decide) (by decide) (by decide) (by decide) m hm
    exact ⟨m, m', pm, pm', hm, h1, h2, h3, h4,
      (h5 "gpu".toList (by decide)).2.2 (fun n => ⟨n⟩) 9007199254740992 parseNat
        F64.exactBelow (by decide) (by decide)⟩

end SlurmExporter
